import Mathlib

/-!
Formula parsing in `cmistry`: a verification development

A shallow embedding of the formula parser of `src/molecule.c` together with the
symbol lookup of `src/element.c`, followed by the properties proved about them.

Conventions of the embedding:

* a C string is the list of its `unsigned char` values before the terminating
  NUL, so `*p == 0` is "the list is empty";
* a `const Element *` into `PERIODIC_TABLE` is the index of the entry it points
  to, so pointer equality is equality of indices and `NULL` is `none`;
* `int` values are exact integers (signed overflow is undefined behaviour in C,
  the embedding describes the runs on which it does not occur);
* a `Formula` is the list of its first `element_count` entries and its
  coefficient.
-/

namespace Cmistry

/-! ## Character classes (`<ctype.h>`, "C" locale) -/

/-- The C function `isspace`: space, and the controls `\t \n \v \f \r`. -/
def isspace (c : Nat) : Bool := c == 32 || (9 ≤ c && c ≤ 13)

/-- The C function `isdigit`. -/
def isdigit (c : Nat) : Bool := 48 ≤ c && c ≤ 57

/-- The C function `isupper`. -/
def isupper (c : Nat) : Bool := 65 ≤ c && c ≤ 90

/-- The C function `islower`. -/
def islower (c : Nat) : Bool := 97 ≤ c && c ≤ 122

/-- The C function `tolower`. -/
def tolower (c : Nat) : Nat := if isupper c then c + 32 else c

/-- The C string written as an ASCII string literal: its character codes. -/
def cstr (s : String) : List Nat := s.toList.map Char.toNat

/-- Whether the character under the cursor exists and satisfies `P`
(the C test `*p && P(*p)`, or `P(*p)` for a class that excludes NUL). -/
def starts_with (P : Nat → Bool) : List Nat → Bool
  | [] => false
  | c :: _ => P c

/-! ## The element catalog (`element.h`, `element.c`) -/

/-- The fields of the C struct `Element` that carry identity. The floating
point properties, the state, the category and the charges are left out. -/
structure Element where
  atomic_number : Int
  symbol : String
  name : String
  deriving DecidableEq, Repr

/-- The number of elements in the database. -/
def NUM_ELEMENTS : Nat := 118

/-- The global periodic table array. -/
def PERIODIC_TABLE : List Element := [
  Element.mk 1 "H" "Hydrogen",
  Element.mk 2 "He" "Helium",
  Element.mk 3 "Li" "Lithium",
  Element.mk 4 "Be" "Beryllium",
  Element.mk 5 "B" "Boron",
  Element.mk 6 "C" "Carbon",
  Element.mk 7 "N" "Nitrogen",
  Element.mk 8 "O" "Oxygen",
  Element.mk 9 "F" "Fluorine",
  Element.mk 10 "Ne" "Neon",
  Element.mk 11 "Na" "Sodium",
  Element.mk 12 "Mg" "Magnesium",
  Element.mk 13 "Al" "Aluminum",
  Element.mk 14 "Si" "Silicon",
  Element.mk 15 "P" "Phosphorus",
  Element.mk 16 "S" "Sulfur",
  Element.mk 17 "Cl" "Chlorine",
  Element.mk 18 "Ar" "Argon",
  Element.mk 19 "K" "Potassium",
  Element.mk 20 "Ca" "Calcium",
  Element.mk 21 "Sc" "Scandium",
  Element.mk 22 "Ti" "Titanium",
  Element.mk 23 "V" "Vanadium",
  Element.mk 24 "Cr" "Chromium",
  Element.mk 25 "Mn" "Manganese",
  Element.mk 26 "Fe" "Iron",
  Element.mk 27 "Co" "Cobalt",
  Element.mk 28 "Ni" "Nickel",
  Element.mk 29 "Cu" "Copper",
  Element.mk 30 "Zn" "Zinc",
  Element.mk 31 "Ga" "Gallium",
  Element.mk 32 "Ge" "Germanium",
  Element.mk 33 "As" "Arsenic",
  Element.mk 34 "Se" "Selenium",
  Element.mk 35 "Br" "Bromine",
  Element.mk 36 "Kr" "Krypton",
  Element.mk 37 "Rb" "Rubidium",
  Element.mk 38 "Sr" "Strontium",
  Element.mk 39 "Y" "Yttrium",
  Element.mk 40 "Zr" "Zirconium",
  Element.mk 41 "Nb" "Niobium",
  Element.mk 42 "Mo" "Molybdenum",
  Element.mk 43 "Tc" "Technetium",
  Element.mk 44 "Ru" "Ruthenium",
  Element.mk 45 "Rh" "Rhodium",
  Element.mk 46 "Pd" "Palladium",
  Element.mk 47 "Ag" "Silver",
  Element.mk 48 "Cd" "Cadmium",
  Element.mk 49 "In" "Indium",
  Element.mk 50 "Sn" "Tin",
  Element.mk 51 "Sb" "Antimony",
  Element.mk 52 "Te" "Tellurium",
  Element.mk 53 "I" "Iodine",
  Element.mk 54 "Xe" "Xenon",
  Element.mk 55 "Cs" "Cesium",
  Element.mk 56 "Ba" "Barium",
  Element.mk 57 "La" "Lanthanum",
  Element.mk 58 "Ce" "Cerium",
  Element.mk 59 "Pr" "Praseodymium",
  Element.mk 60 "Nd" "Neodymium",
  Element.mk 61 "Pm" "Promethium",
  Element.mk 62 "Sm" "Samarium",
  Element.mk 63 "Eu" "Europium",
  Element.mk 64 "Gd" "Gadolinium",
  Element.mk 65 "Tb" "Terbium",
  Element.mk 66 "Dy" "Dysprosium",
  Element.mk 67 "Ho" "Holmium",
  Element.mk 68 "Er" "Erbium",
  Element.mk 69 "Tm" "Thulium",
  Element.mk 70 "Yb" "Ytterbium",
  Element.mk 71 "Lu" "Lutetium",
  Element.mk 72 "Hf" "Hafnium",
  Element.mk 73 "Ta" "Tantalum",
  Element.mk 74 "W" "Tungsten",
  Element.mk 75 "Re" "Rhenium",
  Element.mk 76 "Os" "Osmium",
  Element.mk 77 "Ir" "Iridium",
  Element.mk 78 "Pt" "Platinum",
  Element.mk 79 "Au" "Gold",
  Element.mk 80 "Hg" "Mercury",
  Element.mk 81 "Tl" "Thallium",
  Element.mk 82 "Pb" "Lead",
  Element.mk 83 "Bi" "Bismuth",
  Element.mk 84 "Po" "Polonium",
  Element.mk 85 "At" "Astatine",
  Element.mk 86 "Rn" "Radon",
  Element.mk 87 "Fr" "Francium",
  Element.mk 88 "Ra" "Radium",
  Element.mk 89 "Ac" "Actinium",
  Element.mk 90 "Th" "Thorium",
  Element.mk 91 "Pa" "Protactinium",
  Element.mk 92 "U" "Uranium",
  Element.mk 93 "Np" "Neptunium",
  Element.mk 94 "Pu" "Plutonium",
  Element.mk 95 "Am" "Americium",
  Element.mk 96 "Cm" "Curium",
  Element.mk 97 "Bk" "Berkelium",
  Element.mk 98 "Cf" "Californium",
  Element.mk 99 "Es" "Einsteinium",
  Element.mk 100 "Fm" "Fermium",
  Element.mk 101 "Md" "Mendelevium",
  Element.mk 102 "No" "Nobelium",
  Element.mk 103 "Lr" "Lawrencium",
  Element.mk 104 "Rf" "Rutherfordium",
  Element.mk 105 "Db" "Dubnium",
  Element.mk 106 "Sg" "Seaborgium",
  Element.mk 107 "Bh" "Bohrium",
  Element.mk 108 "Hs" "Hassium",
  Element.mk 109 "Mt" "Meitnerium",
  Element.mk 110 "Ds" "Darmstadtium",
  Element.mk 111 "Rg" "Roentgenium",
  Element.mk 112 "Cn" "Copernicium",
  Element.mk 113 "Nh" "Nihonium",
  Element.mk 114 "Fl" "Flerovium",
  Element.mk 115 "Mc" "Moscovium",
  Element.mk 116 "Lv" "Livermorium",
  Element.mk 117 "Ts" "Tennessine",
  Element.mk 118 "Og" "Oganesson"
]

/-- The comparison loop of `element_by_symbol`: `s1` and `s2` are walked
together while both have a character, a pair that differs after `tolower`
ends the walk with no match, and a match needs both strings exhausted. -/
def ci_match : List Nat → List Nat → Bool
  | c1 :: s1, c2 :: s2 => if tolower c1 != tolower c2 then false else ci_match s1 s2
  | [], [] => true
  | _, _ => false

/-- The scan `for (i = 0; i < NUM_ELEMENTS; i++)` of `element_by_symbol`,
started at index `i` with the table entries from `i` on. -/
def element_by_symbol_from (symbol : List Nat) : List Element → Nat → Option Nat
  | [], _ => none
  | e :: rest, i =>
    if ci_match (cstr e.symbol) symbol then some i
    else element_by_symbol_from symbol rest (i + 1)

/-- Lookup of an element by symbol (case-insensitive): the index of the first
table entry that matches, `none` for `NULL`. -/
def element_by_symbol (symbol : List Nat) : Option Nat :=
  element_by_symbol_from symbol PERIODIC_TABLE 0

/-- The symbol field reached through an element pointer. -/
def symbol_of (el : Nat) : List Nat :=
  match PERIODIC_TABLE[el]? with
  | some e => cstr e.symbol
  | none => []

/-! ## Formulas (`molecule.h`) -/

/-- The capacity of the `elements` array of a `Formula`. -/
def MAX_ATOMS_PER_MOLECULE : Nat := 100

/-- The C struct `ElementCount`. -/
structure ElementCount where
  element : Nat
  count : Int
  deriving DecidableEq, Repr

/-- The C struct `Formula`. -/
structure Formula where
  elements : List ElementCount
  coefficient : Int
  deriving DecidableEq, Repr

/-- What a call of `formula_parse` does: it returns `true` with `*result`
filled in, it returns `false`, or the iteration budget of the embedding ran
out before it returned. -/
inductive ParseResult where
  | accept (result : Formula)
  | reject
  | unfinished
  deriving DecidableEq, Repr

/-! ## The parser (`formula_parse`) -/

/-- The loop `while (*p && isspace(*p)) p++;`. -/
def skip_space : List Nat → List Nat
  | [] => []
  | c :: p => if isspace c then skip_space p else c :: p

/-- The loop `while (isdigit(*p)) { n = n * 10 + (*p - '0'); p++; }`, from the
value `n`: the final value and the final cursor. The value is the exact
integer; `parse_digits32` reduces it to 32 bits. -/
def parse_digits : Int → List Nat → Int × List Nat
  | n, [] => (n, [])
  | n, c :: p => if isdigit c then parse_digits (n * 10 + ((c : Int) - 48)) p else (n, c :: p)

/-- The symbol read at an uppercase letter `c` with `p` after it: one following
lowercase letter is taken when there is one. The symbol and the cursor. -/
def read_symbol (c : Nat) (p : List Nat) : List Nat × List Nat :=
  match p with
  | [] => ([c], [])
  | l :: q => if islower l then ([c, l], q) else ([c], l :: q)

/-- The scan `for (i = 0; i < result->element_count; i++)` for an entry of
element `el`: the first one gets `count` added, `none` when there is none.
The sum is the exact integer; `update_existing32` reduces it to 32 bits. -/
def update_existing (el : Nat) (count : Int) : List ElementCount → Option (List ElementCount)
  | [] => none
  | e :: es =>
    if e.element = el then some ({ e with count := e.count + count } :: es)
    else (update_existing el count es).map (fun es1 => e :: es1)

/-- The step "add to result or update existing": `none` is the
`return false` taken when a new entry does not fit. -/
def add_entry (el : Nat) (count : Int) (es : List ElementCount) : Option (List ElementCount) :=
  match update_existing el count es with
  | some es1 => some es1
  | none =>
    if es.length ≥ MAX_ATOMS_PER_MOLECULE then none
    else some (es ++ [{ element := el, count := count }])

/-- The statement `return result->element_count > 0;`. -/
def finish (result : Formula) : ParseResult :=
  if result.elements.length > 0 then .accept result else .reject

/-- The loop `while (*p) { ... }` of `formula_parse` with the `return` after
it, for at most `fuel` iterations. -/
def parse_loop : Nat → List Nat → Formula → ParseResult
  | 0, _, _ => .unfinished
  | fuel + 1, p, result =>
    match skip_space p with
    | [] => finish result
    | c :: q =>
      if !isupper c then
        if c == 40 || c == 41 then parse_loop fuel q result
        else .reject
      else
        let sym := read_symbol c q
        match element_by_symbol sym.1 with
        | none => .reject
        | some el =>
          let num := parse_digits 0 sym.2
          let count := if num.1 == 0 then 1 else num.1
          match add_entry el count result.elements with
          | none => .reject
          | some es => parse_loop fuel num.2 { result with elements := es }

/-- The C function `formula_parse` on a non-null string. Every iteration of
the main loop consumes a character, so `length + 1` iterations are enough. -/
def formula_parse (formula_str : List Nat) : ParseResult :=
  let p := skip_space formula_str
  let coef := if starts_with isdigit p then parse_digits 0 p else (1, p)
  parse_loop (coef.2.length + 1) coef.2 { elements := [], coefficient := coef.1 }

/-! ## Serialisation and comparison -/

/-- The digits of `n`, most significant first, pushed in front of `acc`. -/
def decimal_aux : Nat → Nat → List Nat → List Nat
  | 0, _, acc => acc
  | fuel + 1, n, acc =>
    if n < 10 then (48 + n) :: acc
    else decimal_aux fuel (n / 10) ((48 + n % 10) :: acc)

/-- The text `printf` produces for `%d` on a non-negative `int`. -/
def decimal (n : Nat) : List Nat := decimal_aux (n + 1) n []

/-- The text one iteration of the element loop of `formula_to_string` formats. -/
def entry_text (e : ElementCount) : List Nat :=
  if e.count > 1 then symbol_of e.element ++ decimal e.count.toNat
  else symbol_of e.element

/-- The element loop of `formula_to_string`: `out` is the text written so far
and `remaining` the room left; `none` is `return false`. -/
def write_entries : List ElementCount → List Nat → Nat → Option (List Nat)
  | [], out, _ => some out
  | e :: es, out, remaining =>
    if (entry_text e).length ≥ remaining then none
    else write_entries es (out ++ entry_text e) (remaining - (entry_text e).length)

/-- The C function `formula_to_string` into a buffer of `buffer_size` bytes:
the string left in the buffer when it returns `true`, `none` when it returns
`false`. (When nothing at all is written the C buffer is left untouched; the
empty text stands for it.) -/
def formula_to_string (formula : Formula) (buffer_size : Nat) : Option (List Nat) :=
  if buffer_size = 0 then none
  else if formula.coefficient > 1 then
    if (decimal formula.coefficient.toNat).length ≥ buffer_size then none
    else write_entries formula.elements (decimal formula.coefficient.toNat)
      (buffer_size - (decimal formula.coefficient.toNat).length)
  else write_entries formula.elements [] buffer_size

/-- The inner scan of `formula_equals`: the count of the first entry with
element `el`, `none` when no entry has it. -/
def first_count (el : Nat) : List ElementCount → Option Int
  | [] => none
  | e :: es => if e.element = el then some e.count else first_count el es

/-- The outer loop of `formula_equals` over the entries of `f1` that remain. -/
def equals_from (es2 : List ElementCount) : List ElementCount → Bool
  | [] => true
  | e :: es1 =>
    match first_count e.element es2 with
    | none => false
    | some c => if e.count != c then false else equals_from es2 es1

/-- The C function `formula_equals` on non-null formulas. -/
def formula_equals (f1 f2 : Formula) : Bool :=
  if f1.elements.length != f2.elements.length then false
  else equals_from f2.elements f1.elements

/-! ## Auxiliary definitions for the proofs -/

/-- The main loop of `formula_parse` from cursor `p`, with the iteration
budget that `formula_parse` gives it. -/
def parse_body (p : List Nat) (result : Formula) : ParseResult :=
  parse_loop (p.length + 1) p result

/-- The count the parser records for a token whose digit run has value `n`
(the statement `if (count == 0) count = 1;`). -/
def token_count (n : Int) : Int := if n == 0 then 1 else n

/-- The value of a digit run continued from the value `n`, most significant
digit first. -/
def digits_value_from (n : Int) (ds : List Nat) : Int :=
  ds.foldl (fun m c => m * 10 + ((c : Int) - 48)) n

/-- The value of a digit run read as a decimal number. -/
def digits_value (ds : List Nat) : Int := digits_value_from 0 ds

/-- An element token of the formula grammar: its symbol and the digit run
written after it (empty when no count is written). -/
structure Token where
  symbol : List Nat
  digits : List Nat
  deriving DecidableEq, Repr

/-- The formula grammar of the specification after the coefficient.
`Lexed p ts` says that `p` consists only of whitespace, parentheses and
element tokens, and that `ts` are its element tokens in order. An element
token is an uppercase letter, greedily one lowercase letter when the next
character is one, then the maximal digit run. -/
inductive Lexed : List Nat → List Token → Prop
  | nil : Lexed [] []
  | space (c : Nat) (p : List Nat) (ts : List Token) :
      isspace c = true → Lexed p ts → Lexed (c :: p) ts
  | paren (c : Nat) (p : List Nat) (ts : List Token) :
      c = 40 ∨ c = 41 → Lexed p ts → Lexed (c :: p) ts
  | upper1 (u : Nat) (ds p : List Nat) (ts : List Token) :
      isupper u = true → (∀ c ∈ ds, isdigit c = true) →
      starts_with islower (ds ++ p) = false → starts_with isdigit p = false →
      Lexed p ts → Lexed (u :: (ds ++ p)) (Token.mk [u] ds :: ts)
  | upper2 (u l : Nat) (ds p : List Nat) (ts : List Token) :
      isupper u = true → islower l = true → (∀ c ∈ ds, isdigit c = true) →
      starts_with isdigit p = false →
      Lexed p ts → Lexed (u :: l :: (ds ++ p)) (Token.mk [u, l] ds :: ts)

/-- The entries the parser holds after the element tokens `ts`, taken in
order from the entries `es`: each token is looked up and merged or appended
as in the main loop; `none` when a symbol is unknown or a new entry does not
fit. -/
def fold_tokens : List Token → List ElementCount → Option (List ElementCount)
  | [], es => some es
  | t :: ts, es =>
    match element_by_symbol t.symbol with
    | none => none
    | some el =>
      match add_entry el (token_count (digits_value t.digits)) es with
      | none => none
      | some es1 => fold_tokens ts es1

/-- The shape of a symbol candidate the parser can form: one uppercase
letter, or one uppercase letter followed by one lowercase letter. -/
def is_candidate : List Nat → Bool
  | [u] => isupper u
  | [u, l] => isupper u && islower l
  | _ => false

/-- Case-sensitive exact match against the catalog: whether some catalog
element has exactly the symbol `sym`. -/
def is_catalog_symbol (sym : List Nat) : Bool :=
  PERIODIC_TABLE.any (fun e => cstr e.symbol == sym)

/-- The formula strings of the specification: optional leading whitespace,
an optional leading digit run, then only whitespace, parentheses and element
tokens, every token symbol being a catalog symbol, with at least one token
and at most `MAX_ATOMS_PER_MOLECULE` distinct elements. -/
def WellFormed (s : List Nat) : Prop :=
  ∃ (ws ds p : List Nat) (ts : List Token), s = ws ++ ds ++ p ∧
    (∀ c ∈ ws, isspace c = true) ∧ (∀ c ∈ ds, isdigit c = true) ∧ Lexed p ts ∧
    ts ≠ [] ∧ (∀ t ∈ ts, is_catalog_symbol t.symbol = true) ∧
    ((ts.map Token.symbol).dedup).length ≤ MAX_ATOMS_PER_MOLECULE

/-- The per-token count as the specification words it: the value of the
written digit run, 1 when no count is written. -/
def written_count (t : Token) : Int :=
  if t.digits = [] then 1 else digits_value t.digits

/-- The per-token count with the zero rule: the value of the written digit
run, 1 when no count is written or the written value is 0. -/
def recorded_count (t : Token) : Int :=
  if t.digits = [] ∨ digits_value t.digits = 0 then 1 else digits_value t.digits

/-- The sum of the per-token counts `count` over the tokens of `ts` whose
symbol is the symbol of the catalog element `el`. -/
def token_total (count : Token → Int) (ts : List Token) (el : Nat) : Int :=
  ((ts.filter (fun t => t.symbol = symbol_of el)).map count).sum

/-- The total of the counts of the entries of element `el`. -/
def count_of (el : Nat) (es : List ElementCount) : Int :=
  ((es.filter (fun e => e.element = el)).map ElementCount.count).sum

/-- The text the element loop of `formula_to_string` writes for the entries
`es` when the buffer has room. -/
def entries_text : List ElementCount → List Nat
  | [] => []
  | e :: es => entry_text e ++ entries_text es

/-- The element token that `entry_text` writes for an entry. -/
def entry_token (e : ElementCount) : Token :=
  Token.mk (symbol_of e.element) (if e.count > 1 then decimal e.count.toNat else [])

/-! ## Reactions (`reaction.h`, `reaction.c`) -/

/-- The capacity of the `reactants` array of a `Reaction`. -/
def MAX_REACTANTS : Nat := 10

/-- The capacity of the `products` array of a `Reaction`. -/
def MAX_PRODUCTS : Nat := 10

/-- The capacity of the reaction database. -/
def MAX_REACTIONS : Nat := 100

/-- The length of the buffer `reaction_db_find_by_string` copies its argument
into. -/
def MAX_FORMULA_LENGTH : Nat := 256

/-- The C enumeration `ReactionCondition`. -/
inductive ReactionCondition where
  | COND_NORMAL
  | COND_HEATED
  | COND_HIGH_PRESSURE
  | COND_CATALYST
  | COND_LIGHT
  | COND_ELECTROLYSIS
  deriving DecidableEq, Repr

/-- The C enumeration `ReactionType`. -/
inductive ReactionType where
  | RXTYPE_SYNTHESIS
  | RXTYPE_DECOMPOSITION
  | RXTYPE_SINGLE_REPLACE
  | RXTYPE_DOUBLE_REPLACE
  | RXTYPE_COMBUSTION
  | RXTYPE_ACID_BASE
  | RXTYPE_REDOX
  | RXTYPE_OTHER
  deriving DecidableEq, Repr

/-- The C struct `Reaction`: the lists are the first `reactant_count` and
`product_count` slots of the two arrays. -/
structure Reaction where
  reactants : List Formula
  products : List Formula
  condition : ReactionCondition
  type : ReactionType
  description : String
  is_balanced : Bool
  is_reversible : Bool
  deriving DecidableEq, Repr

/-- The C function `reaction_init` on a non-null reaction. -/
def reaction_init : Reaction :=
  { reactants := [], products := [], condition := .COND_NORMAL, type := .RXTYPE_OTHER,
    description := "", is_balanced := false, is_reversible := false }

/-- The C function `reaction_add_reactant`: the reaction afterwards and the
value returned. A formula that does not parse leaves the count as it was. -/
def reaction_add_reactant (rxn : Reaction) (formula : List Nat) : Reaction × Bool :=
  if rxn.reactants.length ≥ MAX_REACTANTS then (rxn, false)
  else
    match formula_parse formula with
    | .accept f => ({ rxn with reactants := rxn.reactants ++ [f] }, true)
    | _ => (rxn, false)

/-- The C function `reaction_add_product`. -/
def reaction_add_product (rxn : Reaction) (formula : List Nat) : Reaction × Bool :=
  if rxn.products.length ≥ MAX_PRODUCTS then (rxn, false)
  else
    match formula_parse formula with
    | .accept f => ({ rxn with products := rxn.products ++ [f] }, true)
    | _ => (rxn, false)

/-- The statement `atom_counts[i] += v`; an index outside the array changes
nothing here. -/
def add_at : List Int → Nat → Int → List Int
  | [], _, _ => []
  | c :: cs, 0, v => (c + v) :: cs
  | c :: cs, i + 1, v => c :: add_at cs i v

/-- The inner loop of `count_atoms` over the entries of one formula, with
the coefficient `coef` already chosen. The product and the sum are exact
integers; `count_entries32` reduces them to 32 bits. -/
def count_entries (coef : Int) : List ElementCount → List Int → List Int
  | [], atom_counts => atom_counts
  | e :: es, atom_counts =>
    match PERIODIC_TABLE[e.element]? with
    | some el =>
      if el.atomic_number - 1 < 0 then count_entries coef es atom_counts
      else count_entries coef es (add_at atom_counts (el.atomic_number - 1).toNat (e.count * coef))
    | none => count_entries coef es atom_counts

/-- The C function `count_atoms`: the totals of each element on one side,
added to `atom_counts`. -/
def count_atoms : List Formula → List Int → List Int
  | [], atom_counts => atom_counts
  | f :: fs, atom_counts =>
    count_atoms fs (count_entries (if f.coefficient > 0 then f.coefficient else 1) f.elements
      atom_counts)

/-- The comparison loop of `reaction_check_balanced`: `false` at the first
index where the two arrays differ. -/
def counts_equal : List Int → List Int → Bool
  | a :: as, b :: bs => if a != b then false else counts_equal as bs
  | _, _ => true

/-- The C function `reaction_check_balanced` on a non-null reaction: the
reaction afterwards and the value returned. -/
def reaction_check_balanced (rxn : Reaction) : Reaction × Bool :=
  let reactant_atoms := count_atoms rxn.reactants (List.replicate NUM_ELEMENTS 0)
  let product_atoms := count_atoms rxn.products (List.replicate NUM_ELEMENTS 0)
  if counts_equal reactant_atoms product_atoms then ({ rxn with is_balanced := true }, true)
  else ({ rxn with is_balanced := false }, false)

/-- The static storage of `reaction.c`: the first `reaction_db_size` slots of
`reaction_database`, and the flag `reaction_db_initialized`. -/
structure Database where
  reaction_database : List Reaction
  reaction_db_initialized : Bool
  deriving DecidableEq, Repr

/-- The static storage when the program starts. -/
def db_start : Database := { reaction_database := [], reaction_db_initialized := false }

/-- The loop `for (i = 0; i < r_count; i++) reaction_add_reactant(rxn, reactants[i]);`. -/
def add_reactants : Reaction → List (List Nat) → Reaction
  | rxn, [] => rxn
  | rxn, s :: rest => add_reactants (reaction_add_reactant rxn s).1 rest

/-- The loop `for (i = 0; i < p_count; i++) reaction_add_product(rxn, products[i]);`. -/
def add_products : Reaction → List (List Nat) → Reaction
  | rxn, [] => rxn
  | rxn, s :: rest => add_products (reaction_add_product rxn s).1 rest

/-- The helper `db_add_reaction`. The descriptions it is called with are
shorter than the 128 bytes of the field. -/
def db_add_reaction (db : Database) (reactants products : List (List Nat))
    (type : ReactionType) (cond : ReactionCondition) (description : String) : Database :=
  if db.reaction_database.length ≥ MAX_REACTIONS then db
  else
    let rxn := add_products (add_reactants reaction_init reactants) products
    let rxn := { rxn with type := type, condition := cond, description := description }
    { db with reaction_database := db.reaction_database ++ [(reaction_check_balanced rxn).1] }

/-- The seed calls of `reaction_db_init`, in order. -/
def seed_reactions (db : Database) : Database :=
  let db := db_add_reaction db [cstr "C", cstr "O2"] [cstr "CO2"]
    .RXTYPE_COMBUSTION .COND_HEATED "Combustion of carbon"
  let db := db_add_reaction db [cstr "2H2", cstr "O2"] [cstr "2H2O"]
    .RXTYPE_COMBUSTION .COND_HEATED "Combustion of hydrogen"
  let db := db_add_reaction db [cstr "CH4", cstr "2O2"] [cstr "CO2", cstr "2H2O"]
    .RXTYPE_COMBUSTION .COND_HEATED "Combustion of methane"
  let db := db_add_reaction db [cstr "2Na", cstr "Cl2"] [cstr "2NaCl"]
    .RXTYPE_SYNTHESIS .COND_NORMAL "Formation of table salt"
  let db := db_add_reaction db [cstr "4Fe", cstr "3O2"] [cstr "2Fe2O3"]
    .RXTYPE_SYNTHESIS .COND_NORMAL "Rusting of iron"
  let db := db_add_reaction db [cstr "N2", cstr "3H2"] [cstr "2NH3"]
    .RXTYPE_SYNTHESIS .COND_CATALYST "Haber process for ammonia synthesis"
  let db := db_add_reaction db [cstr "S", cstr "O2"] [cstr "SO2"]
    .RXTYPE_COMBUSTION .COND_HEATED "Combustion of sulfur"
  let db := db_add_reaction db [cstr "2H2O"] [cstr "2H2", cstr "O2"]
    .RXTYPE_DECOMPOSITION .COND_ELECTROLYSIS "Electrolysis of water"
  let db := db_add_reaction db [cstr "2H2O2"] [cstr "2H2O", cstr "O2"]
    .RXTYPE_DECOMPOSITION .COND_CATALYST "Decomposition of hydrogen peroxide"
  let db := db_add_reaction db [cstr "CaCO3"] [cstr "CaO", cstr "CO2"]
    .RXTYPE_DECOMPOSITION .COND_HEATED "Thermal decomposition of limestone"
  let db := db_add_reaction db [cstr "HCl", cstr "NaOH"] [cstr "NaCl", cstr "H2O"]
    .RXTYPE_ACID_BASE .COND_NORMAL "Neutralization reaction"
  let db := db_add_reaction db [cstr "H2SO4", cstr "2NaOH"] [cstr "Na2SO4", cstr "2H2O"]
    .RXTYPE_ACID_BASE .COND_NORMAL "Neutralization with sulfuric acid"
  let db := db_add_reaction db [cstr "Zn", cstr "2HCl"] [cstr "ZnCl2", cstr "H2"]
    .RXTYPE_SINGLE_REPLACE .COND_NORMAL "Zinc displaces hydrogen from acid"
  let db := db_add_reaction db [cstr "Fe", cstr "CuSO4"] [cstr "FeSO4", cstr "Cu"]
    .RXTYPE_SINGLE_REPLACE .COND_NORMAL "Iron displaces copper"
  let db := db_add_reaction db [cstr "AgNO3", cstr "NaCl"] [cstr "AgCl", cstr "NaNO3"]
    .RXTYPE_DOUBLE_REPLACE .COND_NORMAL "Precipitation of silver chloride"
  let db := db_add_reaction db [cstr "BaCl2", cstr "Na2SO4"] [cstr "BaSO4", cstr "2NaCl"]
    .RXTYPE_DOUBLE_REPLACE .COND_NORMAL "Precipitation of barium sulfate"
  let db := db_add_reaction db [cstr "6CO2", cstr "6H2O"] [cstr "C6H12O6", cstr "6O2"]
    .RXTYPE_OTHER .COND_LIGHT "Photosynthesis (simplified)"
  let db := db_add_reaction db [cstr "C6H12O6", cstr "6O2"] [cstr "6CO2", cstr "6H2O"]
    .RXTYPE_COMBUSTION .COND_NORMAL "Cellular respiration (simplified)"
  db_add_reaction db [cstr "2Mg", cstr "O2"] [cstr "2MgO"]
    .RXTYPE_SYNTHESIS .COND_HEATED "Burning magnesium"

/-- The C function `reaction_db_init`. -/
def reaction_db_init (db : Database) : Database :=
  if db.reaction_db_initialized then db
  else { seed_reactions db with reaction_db_initialized := true }

/-- The test `if (!reaction_db_initialized) reaction_db_init();` that opens
every query function. -/
def ensure_init (db : Database) : Database :=
  if !db.reaction_db_initialized then reaction_db_init db else db

/-- The `l` loop of `formulas_match_set`: whether some entry of `es` has the
element `el`. -/
def element_found (el : Nat) : List ElementCount → Bool
  | [] => false
  | e :: es => if el = e.element then true else element_found el es

/-- The `k` loop of `formulas_match_set`: whether every entry of `es1` has its
element among `es2`; it stops at the first one that has not. -/
def all_elements_found (es2 : List ElementCount) : List ElementCount → Bool
  | [] => true
  | e :: es1 => if !element_found e.element es2 then false else all_elements_found es2 es1

/-- The comparison of `set1[i]` with `set2[j]` in `formulas_match_set`: the
same number of entries, and every element of the first among the second. -/
def composition_matches (f g : Formula) : Bool :=
  if f.elements.length = g.elements.length then all_elements_found g.elements f.elements
  else false

/-- The `j` loop of `formulas_match_set` for the formula `f`: the array `used`
after the first unused formula of `set2` that matches has been marked,
`none` when `found` stays false. -/
def mark_match (f : Formula) : List Formula → List Bool → Option (List Bool)
  | g :: set2, u :: used =>
    if u then (mark_match f set2 used).map (fun r => u :: r)
    else if composition_matches f g then some (true :: used)
    else (mark_match f set2 used).map (fun r => u :: r)
  | _, _ => none

/-- The `i` loop of `formulas_match_set` over the formulas of `set1` that
remain. -/
def match_from (set2 : List Formula) : List Formula → List Bool → Bool
  | [], _ => true
  | f :: set1, used =>
    match mark_match f set2 used with
    | none => false
    | some used1 => match_from set2 set1 used1

/-- The C function `formulas_match_set`. The array `used` has `MAX_REACTANTS`
slots, all `false` at first. (With `count2` above `MAX_REACTANTS` the C code
reads past the array; here the formulas past it are never matched.) -/
def formulas_match_set (set1 set2 : List Formula) : Bool :=
  if set1.length ≠ set2.length then false
  else match_from set2 set1 (List.replicate MAX_REACTANTS false)

/-- The scan `for (i = 0; i < reaction_db_size; i++)` of `reaction_db_find`
from index `i` on: the index of the first reaction whose reactants match. -/
def find_from (reactants : List Formula) : List Reaction → Nat → Option Nat
  | [], _ => none
  | r :: rest, i =>
    if formulas_match_set reactants r.reactants then some i
    else find_from reactants rest (i + 1)

/-- The C function `reaction_db_find`: the static storage afterwards, and the
index of the reaction whose address is returned, `none` for `NULL`. -/
def reaction_db_find (db : Database) (reactants : List Formula) : Database × Option Nat :=
  ((ensure_init db), find_from reactants (ensure_init db).reaction_database 0)

/-- One call of `strtok` with the delimiter `+`, from the saved position `p`:
`none` when only delimiters are left, else the token (the delimiters in
front skipped, up to the next delimiter or the end) and the position saved
for the next call. -/
def strtok (p : List Nat) : Option (List Nat × List Nat) :=
  match p.dropWhile (fun c => c == 43) with
  | [] => none
  | c :: q =>
    some ((c :: q).takeWhile (fun d => d != 43), ((c :: q).dropWhile (fun d => d != 43)).tail)

/-- The two trimming loops of `reaction_db_find_by_string` on a token: the
whitespace in front is skipped, then `end` walks back from the last
character while it is whitespace and lies after the first character. -/
def trim_token (token : List Nat) : List Nat :=
  match skip_space token with
  | [] => []
  | c :: r => c :: (skip_space r.reverse).reverse

/-- The loop `while (token && formula_count < MAX_REACTANTS)` of
`reaction_db_find_by_string`, for at most `fuel` iterations: `p` is the
position `strtok` has saved, `formulas` the formulas parsed so far; `none`
when the budget runs out. -/
def collect_formulas : Nat → List Nat → List Formula → Option (List Formula)
  | 0, _, _ => none
  | fuel + 1, p, formulas =>
    match strtok p with
    | none => some formulas
    | some (token, rest) =>
      if formulas.length ≥ MAX_REACTANTS then some formulas
      else
        match formula_parse (trim_token token) with
        | .accept f => collect_formulas fuel rest (formulas ++ [f])
        | _ => collect_formulas fuel rest formulas

/-- The C function `reaction_db_find_by_string` on a non-null string: the
static storage afterwards and the index of the reaction returned; the outer
`none` when the iteration budget of the embedding runs out. Every
iteration consumes a character of the buffer. -/
def reaction_db_find_by_string (db : Database) (reactants_str : List Nat) :
    Option (Database × Option Nat) :=
  let buffer := reactants_str.take (MAX_FORMULA_LENGTH - 1)
  match collect_formulas (buffer.length + 1) buffer [] with
  | none => none
  | some formulas => some (reaction_db_find (ensure_init db) formulas)

/-! ## Auxiliary definitions for the lookup and the reaction database -/

/-- Case-sensitive exact match against the catalog, as the specification
words the lookup: the scan from index `i` for the first entry whose symbol
is exactly `symbol`. -/
def exact_match_from (symbol : List Nat) : List Element → Nat → Option Nat
  | [], _ => none
  | e :: rest, i =>
    if cstr e.symbol = symbol then some i else exact_match_from symbol rest (i + 1)

/-- The element a case-sensitive exact match of `symbol` against the catalog
returns, `none` when there is none. -/
def element_by_exact_symbol (symbol : List Nat) : Option Nat :=
  exact_match_from symbol PERIODIC_TABLE 0

/-- The static storage once `reaction_db_init` has run. -/
def db_seeded : Database := reaction_db_init db_start

/-- Two entries are matched when they have the identical element and the
identical count. -/
def same_entry (a b : ElementCount) : Prop := a.element = b.element ∧ a.count = b.count

/-- A one-to-one matching of the entries `es1` to entries of `es2`: `ms` lists,
entry by entry of `es1`, the partner taken in `es2`; partners are matched
entries, and `ms` is `es2` with some entries left out, in some order, so no
entry of `es2` is the partner of two entries. -/
def one_to_one_matching (es1 es2 : List ElementCount) : Prop :=
  ∃ ms : List ElementCount, List.Forall₂ same_entry es1 ms ∧ ms.Subperm es2

/-- Whether no two entries of a formula have the same element. -/
def no_duplicates (f : Formula) : Prop := (f.elements.map ElementCount.element).Nodup

instance no_duplicates_decidable (f : Formula) : Decidable (no_duplicates f) := by
  unfold no_duplicates
  infer_instance

/-- Two formulas have the same set of element identities (counts and
coefficients ignored). -/
def same_elements (f g : Formula) : Prop :=
  ∀ x, x ∈ f.elements.map ElementCount.element ↔ x ∈ g.elements.map ElementCount.element

/-- A bijection between the formulas of `A` and the formulas of `B` that pairs
formulas with the same set of element identities: `partners` lists,
formula by formula of `A`, the partner taken in `B`, and `partners` is `B` in
some order, so every formula of `B` is the partner of exactly one formula
of `A`. -/
def set_bijection (A B : List Formula) : Prop :=
  ∃ partners : List Formula, partners.Perm B ∧ List.Forall₂ same_elements A partners

/-- The formulas of `set2` whose slot of the array `used` is still `false`. -/
def unused : List Formula → List Bool → List Formula
  | g :: set2, u :: used => if u then unused set2 used else g :: unused set2 used
  | _, _ => []

/-- Splitting a text on `+`: the pieces between consecutive delimiters, in
order, empty pieces included. -/
def split_plus : List Nat → List (List Nat)
  | [] => [[]]
  | c :: s =>
    if c = 43 then [] :: split_plus s
    else
      match split_plus s with
      | t :: ts => (c :: t) :: ts
      | [] => [[c]]

/-- Trimming whitespace around a token: all of it in front and all of it
behind. -/
def trim_both (token : List Nat) : List Nat :=
  (skip_space (skip_space token).reverse).reverse

/-- A token parsed with `formula_parse`: the formula when it parses. -/
def parse_option (token : List Nat) : Option Formula :=
  match formula_parse token with
  | .accept f => some f
  | _ => none

/-- The formulas of the tokens of a text that parse, in order: the text is
split on `+`, each token trimmed and parsed, the failures dropped. -/
def parsed_tokens (text : List Nat) : List Formula :=
  ((split_plus text).map trim_both).filterMap parse_option

/-- The query the specification derives from a text: the formulas of the
tokens that parse, at most `MAX_REACTANTS` of them. -/
def query_of_text (text : List Nat) : List Formula :=
  (parsed_tokens text).take MAX_REACTANTS

/-! ## Queries on the reaction database and balancing (`reaction.c`) -/

/-- The `k` loop of `reaction_db_find_by_element` over the entries of one
formula: whether some entry has the element `el`. -/
def entries_have (el : Nat) : List ElementCount → Bool
  | [] => false
  | e :: es => if e.element = el then true else entries_have el es

/-- A `j` loop of `reaction_db_find_by_element` over the formulas of one side,
which runs while `found` is false: whether some formula has an entry with
the element `el`. -/
def formulas_have (el : Nat) : List Formula → Bool
  | [] => false
  | f :: fs => if entries_have el f.elements then true else formulas_have el fs

/-- The value of `found` for one reaction in `reaction_db_find_by_element`:
the reactants are checked, and the products only when `found` is still
false. -/
def reaction_has (el : Nat) (r : Reaction) : Bool :=
  if formulas_have el r.reactants then true else formulas_have el r.products

/-- The `i` loop of `reaction_db_find_by_element` from index `i` on: `results`
are the indices of the reactions whose addresses are stored so far, and
`count` is their number. The loop stops when `count < max_results` fails. -/
def find_by_element_from (el : Nat) (max_results : Int) :
    List Reaction → Nat → List Nat → List Nat
  | [], _, results => results
  | r :: rest, i, results =>
    if (results.length : Int) < max_results then
      if reaction_has el r then find_by_element_from el max_results rest (i + 1) (results ++ [i])
      else find_by_element_from el max_results rest (i + 1) results
    else results

/-- The C function `reaction_db_find_by_element` on a non-null element and a
non-null array: the static storage afterwards and the indices of the
reactions stored in `results`; the value returned is the length of that
list. With `max_results <= 0` it returns before the initialisation test. -/
def reaction_db_find_by_element (db : Database) (el : Nat) (max_results : Int) :
    Database × List Nat :=
  if max_results ≤ 0 then (db, [])
  else
    ((ensure_init db),
      find_by_element_from el max_results (ensure_init db).reaction_database 0 [])

/-- The C function `reaction_db_count`: the static storage afterwards and
`reaction_db_size`. -/
def reaction_db_count (db : Database) : Database × Int :=
  ((ensure_init db), ((ensure_init db).reaction_database.length : Int))

/-- The C function `reaction_db_get`: the static storage afterwards and the
index of the reaction whose address is returned, `none` for `NULL`. -/
def reaction_db_get (db : Database) (index : Int) : Database × Option Nat :=
  if index < 0 ∨ index ≥ ((ensure_init db).reaction_database.length : Int) then
    ((ensure_init db), none)
  else ((ensure_init db), some index.toNat)

/-- The C function `reaction_balance` on a non-null reaction. -/
def reaction_balance (rxn : Reaction) : Reaction × Bool :=
  reaction_check_balanced rxn
/-! ## Auxiliary definitions for the queries and the balance check -/

/-- The element `el` appears in some reactant or some product formula of the
reaction `r`. -/
def appears_in (el : Nat) (r : Reaction) : Prop :=
  ∃ f, (f ∈ r.reactants ∨ f ∈ r.products) ∧ ∃ e, e ∈ f.elements ∧ e.element = el

instance appears_in_decidable (el : Nat) (r : Reaction) : Decidable (appears_in el r) :=
  decidable_of_iff (∃ f ∈ r.reactants ++ r.products, ∃ e ∈ f.elements, e.element = el)
    (by unfold appears_in; simp only [List.mem_append, exists_prop])

/-- The indices, in insertion order, of the reactions of a database in which
the element `el` appears: the reactions are numbered from `i`. -/
def involving_from (el : Nat) (i : Nat) (rs : List Reaction) : List Nat :=
  ((rs.enumFrom i).filter (fun p => decide (appears_in el p.2))).map Prod.fst

/-- The indices, in insertion order, of the reactions of a database in which
the element `el` appears. -/
def involving (el : Nat) (rs : List Reaction) : List Nat :=
  involving_from el 0 rs

/-- The atomic number of the element an entry points to, 0 when the entry
points outside the catalog. -/
def atomic_number_of (e : ElementCount) : Int :=
  match PERIODIC_TABLE[e.element]? with
  | some el => el.atomic_number
  | none => 0

/-- The coefficient the balance check uses for a formula: its coefficient if
that is positive, and 1 otherwise. -/
def effective_coefficient (f : Formula) : Int :=
  if f.coefficient > 0 then f.coefficient else 1

/-- The total of the element of atomic number `z` on one side of a reaction:
the sum, over the formulas of the side and over their entries of that
element, of the count of the entry times the coefficient of the formula. -/
def side_total (side : List Formula) (z : Int) : Int :=
  (side.map (fun f =>
    ((f.elements.filter (fun e => decide (atomic_number_of e = z))).map
      (fun e => e.count * effective_coefficient f)).sum)).sum

/-- One call of `reaction_add_reactant` (`true`) or of `reaction_add_product`
(`false`) with a formula string. -/
def add_call (rxn : Reaction) (call : Bool × List Nat) : Reaction :=
  if call.1 then (reaction_add_reactant rxn call.2).1 else (reaction_add_product rxn call.2).1

/-- The descriptions of the seed calls of `reaction_db_init`, in the order of
the source. -/
def seed_descriptions : List String :=
  ["Combustion of carbon", "Combustion of hydrogen", "Combustion of methane",
   "Formation of table salt", "Rusting of iron", "Haber process for ammonia synthesis",
   "Combustion of sulfur", "Electrolysis of water", "Decomposition of hydrogen peroxide",
   "Thermal decomposition of limestone", "Neutralization reaction",
   "Neutralization with sulfuric acid", "Zinc displaces hydrogen from acid",
   "Iron displaces copper", "Precipitation of silver chloride",
   "Precipitation of barium sulfate", "Photosynthesis (simplified)",
   "Cellular respiration (simplified)", "Burning magnesium"]
/-! ## Lookup by number (`element.c`) and prediction (`reaction.c`) -/

/-- The C function `element_by_number`: the index of the table entry whose
address is returned, `none` for `NULL`. -/
def element_by_number (atomic_number : Int) : Option Nat :=
  if atomic_number < 1 ∨ atomic_number > (NUM_ELEMENTS : Int) then none
  else some (atomic_number - 1).toNat

/-- The loop `for (i = 0; i < known->product_count; i++) products[i] =
known->products[i];` of `reaction_predict`: the formulas written to
`products`, in order. -/
def copy_products : List Formula → List Formula
  | [] => []
  | f :: fs => f :: copy_products fs

/-- The C function `reaction_predict` on non-null arguments: the static
storage afterwards, the value returned, and the formulas in the first
`*product_count` slots of `products`. The address `reaction_db_find`
returns is an index into the database; the branch for an index without
reaction is never taken. -/
def reaction_predict (db : Database) (reactants : List Formula) :
    Database × Bool × List Formula :=
  match (reaction_db_find db reactants).2 with
  | some known =>
    match (reaction_db_find db reactants).1.reaction_database[known]? with
    | some r => ((reaction_db_find db reactants).1, true, copy_products r.products)
    | none => ((reaction_db_find db reactants).1, false, [])
  | none => ((reaction_db_find db reactants).1, false, [])
/-! ## Auxiliary definitions for the seed list and the array index -/

/-- The reactant strings and the product strings of the seed calls of
`reaction_db_init`, in the order of the source. -/
def seed_strings : List (List String × List String) :=
  [(["C", "O2"], ["CO2"]),
   (["2H2", "O2"], ["2H2O"]),
   (["CH4", "2O2"], ["CO2", "2H2O"]),
   (["2Na", "Cl2"], ["2NaCl"]),
   (["4Fe", "3O2"], ["2Fe2O3"]),
   (["N2", "3H2"], ["2NH3"]),
   (["S", "O2"], ["SO2"]),
   (["2H2O"], ["2H2", "O2"]),
   (["2H2O2"], ["2H2O", "O2"]),
   (["CaCO3"], ["CaO", "CO2"]),
   (["HCl", "NaOH"], ["NaCl", "H2O"]),
   (["H2SO4", "2NaOH"], ["Na2SO4", "2H2O"]),
   (["Zn", "2HCl"], ["ZnCl2", "H2"]),
   (["Fe", "CuSO4"], ["FeSO4", "Cu"]),
   (["AgNO3", "NaCl"], ["AgCl", "NaNO3"]),
   (["BaCl2", "Na2SO4"], ["BaSO4", "2NaCl"]),
   (["6CO2", "6H2O"], ["C6H12O6", "6O2"]),
   (["C6H12O6", "6O2"], ["6CO2", "6H2O"]),
   (["2Mg", "O2"], ["2MgO"])]

/-- The outcomes of `formula_parse` on a list of string literals, in order. -/
def parse_all (strings : List String) : List ParseResult :=
  strings.map (fun s => formula_parse (cstr s))

/-- The index `atomic_number - 1` that `count_atoms` computes for an entry
lies inside the array of `NUM_ELEMENTS` counters: the entry points to a
catalog element `el`, and `0 <= el.atomic_number - 1 < NUM_ELEMENTS`. -/
def index_in_bounds (e : ElementCount) : Prop :=
  ∃ el, PERIODIC_TABLE[e.element]? = some el ∧
    0 ≤ el.atomic_number - 1 ∧ el.atomic_number - 1 < (NUM_ELEMENTS : Int)

/-- The reaction `r` with its reactant list and its product list exchanged. -/
def exchange_sides (r : Reaction) : Reaction :=
  { r with reactants := r.products, products := r.reactants }

/-- The position of the first occurrence of `x` in a list, counted from 0;
the length of the list when `x` does not occur. -/
def first_index {α : Type} [DecidableEq α] (x : α) : List α → Nat
  | [] => 0
  | y :: ys => if y = x then 0 else first_index x ys + 1

/-- The entries with the elements `ids`, in this order, are in first-seen
order for the token symbols `syms`: every element is a catalog element, the
symbols of the elements are the symbols that occur, and one element stands
before another exactly when its symbol first occurs before the first
occurrence of the symbol of the other. -/
def FirstSeen (ids : List Nat) (syms : List (List Nat)) : Prop :=
  (∀ a ∈ ids, a < NUM_ELEMENTS) ∧
  (∀ x, x ∈ syms ↔ ∃ a, a ∈ ids ∧ symbol_of a = x) ∧
  ∀ a ∈ ids, ∀ b ∈ ids,
    (first_index a ids < first_index b ids ↔
      first_index (symbol_of a) syms < first_index (symbol_of b) syms)
/-! ## The parser and the balance check with `int` as a 32-bit integer

The definitions above read the C type `int` as the exact integer, which is
the value the program holds as long as no operation leaves the range of
`int`. The definitions of this section follow the same source lines with
every arithmetic result reduced to 32 bits, two's complement. -/

/-- The largest value of the C type `int`. -/
def INT_MAX : Int := 2147483647

/-- The smallest value of the C type `int`. -/
def INT_MIN : Int := -2147483648

/-- The value an `int` holds after an operation whose exact result is `x`: `x`
reduced modulo 2^32 into the range `INT_MIN .. INT_MAX`. -/
def wrap_int (x : Int) : Int := (x + 2147483648) % 4294967296 - 2147483648

/-- The loop `while (isdigit(*p)) { n = n * 10 + (*p - '0'); p++; }` with `n` an
`int`: the product and the sum are each reduced to 32 bits. -/
def parse_digits32 : Int → List Nat → Int × List Nat
  | n, [] => (n, [])
  | n, c :: p =>
    if isdigit c then parse_digits32 (wrap_int (wrap_int (n * 10) + ((c : Int) - 48))) p
    else (n, c :: p)

/-- The scan for an entry of element `el` with the statement
`result->elements[i].count += count;` on `int`. -/
def update_existing32 (el : Nat) (count : Int) :
    List ElementCount → Option (List ElementCount)
  | [] => none
  | e :: es =>
    if e.element = el then some ({ e with count := wrap_int (e.count + count) } :: es)
    else (update_existing32 el count es).map (fun es1 => e :: es1)

/-- The step "add to result or update existing" on `int`. -/
def add_entry32 (el : Nat) (count : Int) (es : List ElementCount) :
    Option (List ElementCount) :=
  match update_existing32 el count es with
  | some es1 => some es1
  | none =>
    if es.length ≥ MAX_ATOMS_PER_MOLECULE then none
    else some (es ++ [{ element := el, count := count }])

/-- The loop `while (*p) { ... }` of `formula_parse` with the `return` after
it, on `int`, for at most `fuel` iterations. -/
def parse_loop32 : Nat → List Nat → Formula → ParseResult
  | 0, _, _ => .unfinished
  | fuel + 1, p, result =>
    match skip_space p with
    | [] => finish result
    | c :: q =>
      if !isupper c then
        if c == 40 || c == 41 then parse_loop32 fuel q result
        else .reject
      else
        let sym := read_symbol c q
        match element_by_symbol sym.1 with
        | none => .reject
        | some el =>
          let num := parse_digits32 0 sym.2
          let count := if num.1 == 0 then 1 else num.1
          match add_entry32 el count result.elements with
          | none => .reject
          | some es => parse_loop32 fuel num.2 { result with elements := es }

/-- The C function `formula_parse` on a non-null string, with `int` as a
32-bit integer. -/
def formula_parse32 (formula_str : List Nat) : ParseResult :=
  let p := skip_space formula_str
  let coef := if starts_with isdigit p then parse_digits32 0 p else (1, p)
  parse_loop32 (coef.2.length + 1) coef.2 { elements := [], coefficient := coef.1 }

/-- The count the parser on 32 bits records for a token: the value of its
digit run reduced to 32 bits, then the statement
`if (count == 0) count = 1;`. -/
def recorded_count32 (t : Token) : Int := token_count (wrap_int (digits_value t.digits))

/-- The entries the parser on 32 bits holds after the element tokens `ts`,
taken in order from the entries `es`. -/
def fold_tokens32 : List Token → List ElementCount → Option (List ElementCount)
  | [], es => some es
  | t :: ts, es =>
    match element_by_symbol t.symbol with
    | none => none
    | some el =>
      match add_entry32 el (recorded_count32 t) es with
      | none => none
      | some es1 => fold_tokens32 ts es1

/-- Whether every count of the entries `es` is a value of the type `int`. -/
def counts_in_int (es : List ElementCount) : Prop :=
  ∀ e ∈ es, INT_MIN ≤ e.count ∧ e.count ≤ INT_MAX

/-- The entries as `formula_to_string` writes them: a count that is not above 1
is not written, and the text then reads as the count 1. -/
def printed_entries (es : List ElementCount) : List ElementCount :=
  es.map (fun e => ElementCount.mk e.element (if e.count > 1 then e.count else 1))
/-! ## Basic facts about the scanning loops -/

theorem skip_space_length (p : List Nat) : (skip_space p).length ≤ p.length := by
  induction p with
  | nil => simp [skip_space]
  | cons c p ih =>
    unfold skip_space
    split
    · simp only [List.length_cons]; omega
    · exact Nat.le_refl _

theorem skip_space_head (p : List Nat) (c : Nat) (q : List Nat)
    (h : skip_space p = c :: q) : isspace c = false := by
  induction p with
  | nil => simp [skip_space] at h
  | cons d p ih =>
    unfold skip_space at h
    split at h
    · exact ih h
    · rename_i hd
      cases h
      simpa using hd

theorem skip_space_of_not_space (p : List Nat) (h : starts_with isspace p = false) :
    skip_space p = p := by
  cases p with
  | nil => rfl
  | cons c p =>
    simp only [starts_with] at h
    simp [skip_space, h]

theorem skip_space_cons_space (c : Nat) (p : List Nat) (h : isspace c = true) :
    skip_space (c :: p) = skip_space p := by
  simp [skip_space, h]

theorem skip_space_cons_other (c : Nat) (p : List Nat) (h : isspace c = false) :
    skip_space (c :: p) = c :: p := by
  simp [skip_space, h]

theorem parse_digits_length (n : Int) (p : List Nat) :
    (parse_digits n p).2.length ≤ p.length := by
  induction p generalizing n with
  | nil => simp [parse_digits]
  | cons c p ih =>
    unfold parse_digits
    split
    · have := ih (n * 10 + ((c : Int) - 48))
      simp only [List.length_cons]; omega
    · exact Nat.le_refl _

theorem read_symbol_length (c : Nat) (q : List Nat) :
    (read_symbol c q).2.length ≤ q.length := by
  unfold read_symbol
  split
  · simp
  · split
    · simp
    · simp

/-- The result of the main loop does not depend on the budget once the budget
exceeds the number of characters left. -/
theorem parse_loop_fuel (fuel1 : Nat) : ∀ (fuel2 : Nat) (p : List Nat) (f : Formula),
    p.length < fuel1 → p.length < fuel2 → parse_loop fuel1 p f = parse_loop fuel2 p f := by
  induction fuel1 with
  | zero => intro fuel2 p f h; omega
  | succ n ih =>
    intro fuel2 p f h1 h2
    cases fuel2 with
    | zero => omega
    | succ m =>
      unfold parse_loop
      have hs := skip_space_length p
      cases hsp : skip_space p with
      | nil => rfl
      | cons c q =>
        rw [hsp] at hs
        simp only [List.length_cons] at hs
        simp only []
        split
        · split
          · exact ih m q f (by omega) (by omega)
          · rfl
        · have hr := read_symbol_length c q
          cases element_by_symbol (read_symbol c q).1 with
          | none => rfl
          | some el =>
            simp only []
            have hd := parse_digits_length 0 (read_symbol c q).2
            split
            · rfl
            · exact ih m _ _ (by omega) (by omega)

/-- One iteration of the main loop, with the budget hidden. -/
theorem parse_body_eq (p : List Nat) (f : Formula) :
    parse_body p f =
      match skip_space p with
      | [] => finish f
      | c :: q =>
        if !isupper c then
          if c == 40 || c == 41 then parse_body q f else .reject
        else
          match element_by_symbol (read_symbol c q).1 with
          | none => .reject
          | some el =>
            match add_entry el (token_count (parse_digits 0 (read_symbol c q).2).1) f.elements with
            | none => .reject
            | some es => parse_body (parse_digits 0 (read_symbol c q).2).2 { f with elements := es } := by
  unfold parse_body
  rw [parse_loop]
  have hs := skip_space_length p
  cases hsp : skip_space p with
  | nil => rfl
  | cons c q =>
    rw [hsp] at hs
    simp only [List.length_cons] at hs
    simp only []
    split
    · split
      · exact parse_loop_fuel _ _ q f (by omega) (by omega)
      · rfl
    · have hr := read_symbol_length c q
      cases element_by_symbol (read_symbol c q).1 with
      | none => rfl
      | some el =>
        simp only [token_count]
        have hd := parse_digits_length 0 (read_symbol c q).2
        split
        · rfl
        · exact parse_loop_fuel _ _ _ _ (by omega) (by omega)

/-! ## The main loop, one character class at a time -/

theorem parse_body_nil (f : Formula) : parse_body [] f = finish f := by
  rw [parse_body_eq]; rfl

theorem parse_body_space (c : Nat) (p : List Nat) (f : Formula) (h : isspace c = true) :
    parse_body (c :: p) f = parse_body p f := by
  rw [parse_body_eq (c :: p), parse_body_eq p, skip_space_cons_space c p h]

theorem not_space_of_paren (c : Nat) (h : c = 40 ∨ c = 41) : isspace c = false := by
  rcases h with h | h <;> subst h <;> decide

theorem not_upper_of_paren (c : Nat) (h : c = 40 ∨ c = 41) : isupper c = false := by
  rcases h with h | h <;> subst h <;> decide

theorem not_space_of_upper (c : Nat) (h : isupper c = true) : isspace c = false := by
  simp only [isupper, isspace, Bool.and_eq_true, decide_eq_true_eq] at *
  simp only [Bool.or_eq_false_iff, beq_eq_false_iff_ne, Bool.and_eq_false_iff,
    decide_eq_false_iff_not]
  omega

theorem not_space_of_digit (c : Nat) (h : isdigit c = true) : isspace c = false := by
  simp only [isdigit, isspace, Bool.and_eq_true, decide_eq_true_eq] at *
  simp only [Bool.or_eq_false_iff, beq_eq_false_iff_ne, Bool.and_eq_false_iff,
    decide_eq_false_iff_not]
  omega

theorem not_digit_of_space (c : Nat) (h : isspace c = true) : isdigit c = false := by
  cases hd : isdigit c with
  | false => rfl
  | true => rw [not_space_of_digit c hd] at h; cases h

theorem not_lower_of_space (c : Nat) (h : isspace c = true) : islower c = false := by
  simp only [islower, isspace, Bool.and_eq_true, decide_eq_true_eq, Bool.or_eq_true,
    beq_iff_eq] at *
  simp only [Bool.and_eq_false_iff, decide_eq_false_iff_not]
  omega

theorem not_lower_of_digit (c : Nat) (h : isdigit c = true) : islower c = false := by
  simp only [islower, isdigit, Bool.and_eq_true, decide_eq_true_eq] at *
  simp only [Bool.and_eq_false_iff, decide_eq_false_iff_not]
  omega

theorem not_digit_of_upper (c : Nat) (h : isupper c = true) : isdigit c = false := by
  simp only [isupper, isdigit, Bool.and_eq_true, decide_eq_true_eq] at *
  simp only [Bool.and_eq_false_iff, decide_eq_false_iff_not]
  omega

theorem not_lower_of_upper (c : Nat) (h : isupper c = true) : islower c = false := by
  simp only [isupper, islower, Bool.and_eq_true, decide_eq_true_eq] at *
  simp only [Bool.and_eq_false_iff, decide_eq_false_iff_not]
  omega

theorem not_digit_of_paren (c : Nat) (h : c = 40 ∨ c = 41) : isdigit c = false := by
  rcases h with h | h <;> subst h <;> decide

theorem parse_body_paren (c : Nat) (p : List Nat) (f : Formula) (h : c = 40 ∨ c = 41) :
    parse_body (c :: p) f = parse_body p f := by
  rw [parse_body_eq (c :: p), skip_space_cons_other c p (not_space_of_paren c h)]
  simp only [not_upper_of_paren c h]
  rcases h with h | h <;> subst h <;> rfl

theorem parse_body_other (c : Nat) (p : List Nat) (f : Formula) (hs : isspace c = false)
    (hu : isupper c = false) (h1 : c ≠ 40) (h2 : c ≠ 41) :
    parse_body (c :: p) f = .reject := by
  rw [parse_body_eq (c :: p), skip_space_cons_other c p hs]
  simp [hu, h1, h2]

theorem parse_body_upper (c : Nat) (p : List Nat) (f : Formula) (hu : isupper c = true) :
    parse_body (c :: p) f =
      match element_by_symbol (read_symbol c p).1 with
      | none => .reject
      | some el =>
        match add_entry el (token_count (parse_digits 0 (read_symbol c p).2).1) f.elements with
        | none => .reject
        | some es =>
          parse_body (parse_digits 0 (read_symbol c p).2).2 { f with elements := es } := by
  rw [parse_body_eq (c :: p), skip_space_cons_other c p (not_space_of_upper c hu)]
  simp [hu]

theorem finish_ne_unfinished (f : Formula) : finish f ≠ .unfinished := by
  unfold finish
  split <;> simp

/-- The main loop always returns: the budget `formula_parse` gives it is
never exhausted. -/
theorem parse_body_returns (n : Nat) : ∀ (p : List Nat) (f : Formula),
    p.length ≤ n → parse_body p f ≠ .unfinished := by
  induction n with
  | zero =>
    intro p f h
    have : p = [] := List.length_eq_zero.mp (by omega)
    subst this
    rw [parse_body_nil]; exact finish_ne_unfinished f
  | succ n ih =>
    intro p f h
    cases p with
    | nil => rw [parse_body_nil]; exact finish_ne_unfinished f
    | cons c p =>
      simp only [List.length_cons] at h
      by_cases hs : isspace c = true
      · rw [parse_body_space c p f hs]; exact ih p f (by omega)
      · by_cases hu : isupper c = true
        · rw [parse_body_upper c p f hu]
          have h1 := read_symbol_length c p
          have h2 := parse_digits_length 0 (read_symbol c p).2
          split
          · simp
          · split
            · simp
            · exact ih _ _ (by omega)
        · by_cases hp : c = 40 ∨ c = 41
          · rw [parse_body_paren c p f hp]; exact ih p f (by omega)
          · rw [parse_body_other c p f (by simpa using hs) (by simpa using hu)
              (fun h => hp (Or.inl h)) (fun h => hp (Or.inr h))]
            simp

/-! ## The main loop against the grammar -/

theorem parse_digits_append (ds : List Nat) : ∀ (n : Int) (r : List Nat),
    (∀ c ∈ ds, isdigit c = true) → starts_with isdigit r = false →
    parse_digits n (ds ++ r) = (digits_value_from n ds, r) := by
  induction ds with
  | nil =>
    intro n r _ hr
    cases r with
    | nil => rfl
    | cons c r =>
      simp only [starts_with] at hr
      simp [parse_digits, hr, digits_value_from]
  | cons d ds ih =>
    intro n r hd hr
    have h1 : isdigit d = true := hd d (List.mem_cons_self d ds)
    have h2 : ∀ c ∈ ds, isdigit c = true := fun c hc => hd c (List.mem_cons_of_mem d hc)
    rw [List.cons_append, parse_digits]
    simp only [h1, if_true]
    rw [ih _ r h2 hr]
    simp [digits_value_from]

theorem parse_digits_split (p : List Nat) : ∀ (n : Int),
    ∃ ds, (∀ c ∈ ds, isdigit c = true) ∧ p = ds ++ (parse_digits n p).2 ∧
      starts_with isdigit (parse_digits n p).2 = false ∧
      (parse_digits n p).1 = digits_value_from n ds := by
  induction p with
  | nil => intro n; exact ⟨[], by simp, by simp [parse_digits], by simp [parse_digits, starts_with],
      by simp [parse_digits, digits_value_from]⟩
  | cons c p ih =>
    intro n
    by_cases hc : isdigit c = true
    · obtain ⟨ds, h1, h2, h3, h4⟩ := ih (n * 10 + ((c : Int) - 48))
      refine ⟨c :: ds, ?_, ?_, ?_, ?_⟩
      · intro x hx
        rcases List.mem_cons.mp hx with hx | hx
        · subst hx; exact hc
        · exact h1 x hx
      · simp only [parse_digits, hc, if_true, List.cons_append]
        exact congrArg (List.cons c) h2
      · simpa only [parse_digits, hc, if_true] using h3
      · simp only [parse_digits, hc, if_true]
        rw [h4]; simp [digits_value_from]
    · have hc2 : isdigit c = false := by simpa using hc
      exact ⟨[], by simp, by simp [parse_digits, hc2], by simp [parse_digits, hc2, starts_with],
        by simp [parse_digits, hc2, digits_value_from]⟩

theorem read_symbol_lower (u l : Nat) (q : List Nat) (h : islower l = true) :
    read_symbol u (l :: q) = ([u, l], q) := by
  simp [read_symbol, h]

theorem read_symbol_single (u : Nat) (p : List Nat) (h : starts_with islower p = false) :
    read_symbol u p = ([u], p) := by
  cases p with
  | nil => rfl
  | cons l q =>
    simp only [starts_with] at h
    simp [read_symbol, h]

theorem formula_with_elements (f : Formula) : { f with elements := f.elements } = f := by
  cases f; rfl

/-- On a string of the grammar the main loop does what `fold_tokens` does on
its tokens, and then returns on the number of entries. -/
theorem parse_body_of_lexed (p : List Nat) (ts : List Token) (h : Lexed p ts) :
    ∀ f : Formula, parse_body p f =
      match fold_tokens ts f.elements with
      | none => .reject
      | some es => finish { f with elements := es } := by
  induction h with
  | nil => intro f; rw [parse_body_nil]; simp [fold_tokens]
  | space c p ts hc _ ih => intro f; rw [parse_body_space c p f hc]; exact ih f
  | paren c p ts hc _ ih => intro f; rw [parse_body_paren c p f hc]; exact ih f
  | upper1 u ds p ts hu hd hl hp _ ih =>
    intro f
    rw [parse_body_upper u _ f hu, read_symbol_single u _ hl]
    simp only [parse_digits_append ds 0 p hd hp, fold_tokens, digits_value]
    cases element_by_symbol [u] with
    | none => rfl
    | some el =>
      simp only []
      cases add_entry el (token_count (digits_value_from 0 ds)) f.elements with
      | none => rfl
      | some es => simp only []; exact ih _
  | upper2 u l ds p ts hu hl hd hp _ ih =>
    intro f
    rw [parse_body_upper u _ f hu, read_symbol_lower u l _ hl]
    simp only [parse_digits_append ds 0 p hd hp, fold_tokens, digits_value]
    cases element_by_symbol [u, l] with
    | none => rfl
    | some el =>
      simp only []
      cases add_entry el (token_count (digits_value_from 0 ds)) f.elements with
      | none => rfl
      | some es => simp only []; exact ih _

/-- A string the main loop does not reject is a string of the grammar. -/
theorem lexed_of_parse_body (n : Nat) : ∀ (p : List Nat) (f : Formula),
    p.length ≤ n → parse_body p f ≠ .reject → ∃ ts, Lexed p ts := by
  induction n with
  | zero =>
    intro p f h _
    have : p = [] := List.length_eq_zero.mp (by omega)
    subst this
    exact ⟨[], Lexed.nil⟩
  | succ n ih =>
    intro p f h hne
    cases p with
    | nil => exact ⟨[], Lexed.nil⟩
    | cons c p =>
      simp only [List.length_cons] at h
      by_cases hs : isspace c = true
      · rw [parse_body_space c p f hs] at hne
        obtain ⟨ts, hts⟩ := ih p f (by omega) hne
        exact ⟨ts, Lexed.space c p ts hs hts⟩
      · by_cases hu : isupper c = true
        · rw [parse_body_upper c p f hu] at hne
          have h1 := read_symbol_length c p
          have h2 := parse_digits_length 0 (read_symbol c p).2
          cases hel : element_by_symbol (read_symbol c p).1 with
          | none => rw [hel] at hne; exact absurd rfl hne
          | some el =>
            rw [hel] at hne
            simp only [] at hne
            cases hadd : add_entry el (token_count (parse_digits 0 (read_symbol c p).2).1)
                f.elements with
            | none => rw [hadd] at hne; exact absurd rfl hne
            | some es =>
              rw [hadd] at hne
              simp only [] at hne
              obtain ⟨ts, hts⟩ := ih _ _ (by omega) hne
              obtain ⟨ds, hd1, hd2, hd3, _⟩ := parse_digits_split (read_symbol c p).2 0
              by_cases hl : starts_with islower p = true
              · cases p with
                | nil => simp [starts_with] at hl
                | cons l q =>
                  simp only [starts_with] at hl
                  rw [read_symbol_lower c l q hl] at hd2 hd3 hts
                  simp only [] at hd2 hd3 hts
                  refine ⟨Token.mk [c, l] ds :: ts, ?_⟩
                  rw [hd2]
                  exact Lexed.upper2 c l ds _ ts hu hl hd1 hd3 hts
              · have hl2 : starts_with islower p = false := by simpa using hl
                rw [read_symbol_single c p hl2] at hd2 hd3 hts
                simp only [] at hd2 hd3 hts
                refine ⟨Token.mk [c] ds :: ts, ?_⟩
                have hl3 : starts_with islower (ds ++ (parse_digits 0 p).2) = false := by
                  rw [← hd2]; exact hl2
                rw [hd2]
                exact Lexed.upper1 c ds _ ts hu hd1 hl3 hd3 hts
        · by_cases hp : c = 40 ∨ c = 41
          · rw [parse_body_paren c p f hp] at hne
            obtain ⟨ts, hts⟩ := ih p f (by omega) hne
            exact ⟨ts, Lexed.paren c p ts hp hts⟩
          · rw [parse_body_other c p f (by simpa using hs) (by simpa using hu)
              (fun h => hp (Or.inl h)) (fun h => hp (Or.inr h))] at hne
            exact absurd rfl hne

theorem finish_accept_iff (f g : Formula) :
    finish f = .accept g ↔ f.elements ≠ [] ∧ g = f := by
  unfold finish
  constructor
  · intro h
    split at h
    · rename_i hpos
      cases h
      exact ⟨fun he => by simp [he] at hpos, rfl⟩
    · cases h
  · rintro ⟨h1, h2⟩
    subst h2
    have : g.elements.length > 0 := List.length_pos.mpr h1
    simp [this]

/-- The main loop accepts exactly the strings of the grammar whose tokens
`fold_tokens` can all process into at least one entry, with that result. -/
theorem parse_body_accept_iff (p : List Nat) (f g : Formula) :
    parse_body p f = .accept g ↔
      ∃ ts es, Lexed p ts ∧ fold_tokens ts f.elements = some es ∧ es ≠ [] ∧
        g = { f with elements := es } := by
  constructor
  · intro h
    obtain ⟨ts, hts⟩ := lexed_of_parse_body p.length p f (Nat.le_refl _) (by rw [h]; simp)
    rw [parse_body_of_lexed p ts hts f] at h
    cases hf : fold_tokens ts f.elements with
    | none => rw [hf] at h; cases h
    | some es =>
      rw [hf] at h
      simp only [] at h
      obtain ⟨h1, h2⟩ := (finish_accept_iff _ _).mp h
      exact ⟨ts, es, hts, hf, h1, h2⟩
  · rintro ⟨ts, es, hts, hf, h1, h2⟩
    rw [parse_body_of_lexed p ts hts f, hf]
    simp only []
    exact (finish_accept_iff _ _).mpr ⟨h1, h2⟩

/-! ## The prelude of `formula_parse`: leading whitespace and coefficient -/

theorem formula_parse_eq (s : List Nat) :
    formula_parse s =
      parse_body (if starts_with isdigit (skip_space s) then parse_digits 0 (skip_space s)
        else (1, skip_space s)).2
        { elements := [],
          coefficient := (if starts_with isdigit (skip_space s) then parse_digits 0 (skip_space s)
            else (1, skip_space s)).1 } := rfl

/-- The function `formula_parse` always returns. -/
theorem formula_parse_returns (s : List Nat) : formula_parse s ≠ .unfinished := by
  rw [formula_parse_eq]
  exact parse_body_returns _ _ _ (Nat.le_refl _)

theorem skip_space_append_spaces (ws : List Nat) (x : List Nat)
    (h : ∀ c ∈ ws, isspace c = true) : skip_space (ws ++ x) = skip_space x := by
  induction ws with
  | nil => rfl
  | cons c ws ih =>
    rw [List.cons_append, skip_space_cons_space _ _ (h c (List.mem_cons_self c ws))]
    exact ih (fun d hd => h d (List.mem_cons_of_mem c hd))

theorem skip_space_split (s : List Nat) :
    ∃ ws, (∀ c ∈ ws, isspace c = true) ∧ s = ws ++ skip_space s := by
  induction s with
  | nil => exact ⟨[], by simp, by simp [skip_space]⟩
  | cons c s ih =>
    by_cases hc : isspace c = true
    · obtain ⟨ws, h1, h2⟩ := ih
      refine ⟨c :: ws, ?_, ?_⟩
      · intro x hx
        rcases List.mem_cons.mp hx with hx | hx
        · subst hx; exact hc
        · exact h1 x hx
      · rw [skip_space_cons_space c s hc, List.cons_append]
        exact congrArg (List.cons c) h2
    · exact ⟨[], by simp, by rw [skip_space_cons_other c s (by simpa using hc)]; rfl⟩

theorem parse_body_skip_space (p : List Nat) (f : Formula) :
    parse_body (skip_space p) f = parse_body p f := by
  induction p with
  | nil => rfl
  | cons c p ih =>
    by_cases hc : isspace c = true
    · rw [skip_space_cons_space c p hc, parse_body_space c p f hc]; exact ih
    · rw [skip_space_cons_other c p (by simpa using hc)]

theorem starts_with_digit_append (ds p : List Nat) (hne : ds ≠ [])
    (hd : ∀ c ∈ ds, isdigit c = true) : starts_with isdigit (ds ++ p) = true := by
  cases ds with
  | nil => exact absurd rfl hne
  | cons d ds => exact hd d (List.mem_cons_self d ds)

theorem skip_space_digits (ds p : List Nat) (hd : ∀ c ∈ ds, isdigit c = true)
    (hne : ds ≠ []) : skip_space (ds ++ p) = ds ++ p := by
  cases ds with
  | nil => exact absurd rfl hne
  | cons d ds =>
    exact skip_space_cons_other d _ (not_space_of_digit d (hd d (List.mem_cons_self d ds)))

/-- The prelude on a string split into whitespace, digit run and the rest,
when the rest does not bring a digit under the cursor. -/
theorem formula_parse_split (ws ds q : List Nat) (hw : ∀ c ∈ ws, isspace c = true)
    (hd : ∀ c ∈ ds, isdigit c = true) (hq : starts_with isdigit (skip_space q) = false)
    (hq2 : ds ≠ [] → starts_with isdigit q = false) :
    formula_parse (ws ++ ds ++ q) =
      parse_body q { elements := [], coefficient := if ds = [] then 1 else digits_value ds } := by
  rw [formula_parse_eq, List.append_assoc, skip_space_append_spaces ws _ hw]
  by_cases hne : ds = []
  · subst hne
    simp only [List.nil_append, hq, if_true]
    exact parse_body_skip_space q _
  · rw [skip_space_digits ds q hd hne, starts_with_digit_append ds q hne hd]
    simp only [if_true, hne, if_false]
    rw [parse_digits_append ds 0 q hd (hq2 hne)]
    rfl

theorem lexed_head (p : List Nat) (ts : List Token) (h : Lexed p ts) (x : List Nat)
    (hx : starts_with isdigit (skip_space x) = false) :
    starts_with isdigit (skip_space (p ++ x)) = false := by
  induction h with
  | nil => exact hx
  | space c p ts hc _ ih => rw [List.cons_append, skip_space_cons_space _ _ hc]; exact ih
  | paren c p ts hc _ ih =>
    rw [List.cons_append, skip_space_cons_other _ _ (not_space_of_paren c hc)]
    exact not_digit_of_paren c hc
  | upper1 u ds p ts hu _ _ _ _ _ =>
    rw [List.cons_append, skip_space_cons_other _ _ (not_space_of_upper u hu)]
    exact not_digit_of_upper u hu
  | upper2 u l ds p ts hu _ _ _ _ _ =>
    rw [List.cons_append, skip_space_cons_other _ _ (not_space_of_upper u hu)]
    exact not_digit_of_upper u hu

theorem lexed_not_digit (p : List Nat) (ts : List Token) (h : Lexed p ts) :
    starts_with isdigit p = false := by
  cases h with
  | nil => rfl
  | space c p ts hc _ => exact not_digit_of_space c hc
  | paren c p ts hc _ => exact not_digit_of_paren c hc
  | upper1 u ds p ts hu _ _ _ _ => exact not_digit_of_upper u hu
  | upper2 u l ds p ts hu _ _ _ _ => exact not_digit_of_upper u hu

/-- The prelude in front of a string of the grammar. -/
theorem formula_parse_of_lexed (ws ds p : List Nat) (ts : List Token)
    (hw : ∀ c ∈ ws, isspace c = true) (hd : ∀ c ∈ ds, isdigit c = true) (hp : Lexed p ts) :
    formula_parse (ws ++ ds ++ p) =
      parse_body p { elements := [], coefficient := if ds = [] then 1 else digits_value ds } := by
  apply formula_parse_split ws ds p hw hd
  · have := lexed_head p ts hp [] rfl
    simpa using this
  · intro _; exact lexed_not_digit p ts hp

/-- Every string splits into leading whitespace, a digit run and a rest on
which `formula_parse` runs its main loop. -/
theorem formula_parse_prelude (s : List Nat) :
    ∃ ws ds q, s = ws ++ ds ++ q ∧ (∀ c ∈ ws, isspace c = true) ∧
      (∀ c ∈ ds, isdigit c = true) ∧
      formula_parse s =
        parse_body q { elements := [], coefficient := if ds = [] then 1 else digits_value ds } := by
  obtain ⟨ws, hw, hs⟩ := skip_space_split s
  by_cases hdig : starts_with isdigit (skip_space s) = true
  · obtain ⟨ds, hd1, hd2, hd3, hd4⟩ := parse_digits_split (skip_space s) 0
    have hne : ds ≠ [] := by
      intro h
      subst h
      simp only [List.nil_append] at hd2
      rw [← hd2, hdig] at hd3
      cases hd3
    refine ⟨ws, ds, (parse_digits 0 (skip_space s)).2, ?_, hw, hd1, ?_⟩
    · rw [List.append_assoc, ← hd2]; exact hs
    · rw [formula_parse_eq]
      simp only [hdig, if_true, hne, if_false]
      rw [hd4]; rfl
  · have hdig2 : starts_with isdigit (skip_space s) = false := by simpa using hdig
    refine ⟨ws, [], skip_space s, by simpa using hs, hw, by simp, ?_⟩
    rw [formula_parse_eq]
    simp only [hdig2, if_true]
    rfl

/-! ## The catalog and the symbol lookup -/

set_option maxRecDepth 100000 in
theorem table_length : PERIODIC_TABLE.length = NUM_ELEMENTS := by decide

set_option maxRecDepth 100000 in
theorem table_candidates :
    PERIODIC_TABLE.all (fun e => is_candidate (cstr e.symbol)) = true := by decide

set_option maxRecDepth 100000 in
theorem table_lookup_self :
    (List.range NUM_ELEMENTS).all (fun i => element_by_symbol (symbol_of i) == some i) = true := by
  decide

theorem ci_match_refl (a : List Nat) : ci_match a a = true := by
  induction a with
  | nil => rfl
  | cons c a ih => simp [ci_match, ih]

theorem tolower_upper_inj (a b : Nat) (ha : isupper a = true) (hb : isupper b = true)
    (h : tolower a = tolower b) : a = b := by
  simp only [tolower, ha, hb, if_true] at h
  omega

theorem tolower_lower_inj (a b : Nat) (ha : islower a = true) (hb : islower b = true)
    (h : tolower a = tolower b) : a = b := by
  have ha2 : isupper a = false := by
    cases hu : isupper a with
    | false => rfl
    | true => rw [not_lower_of_upper a hu] at ha; cases ha
  have hb2 : isupper b = false := by
    cases hu : isupper b with
    | false => rfl
    | true => rw [not_lower_of_upper b hu] at hb; cases hb
  simpa [tolower, ha2, hb2] using h

/-- On symbols of the candidate shape the case-insensitive comparison of
`element_by_symbol` is equality. -/
theorem ci_match_candidates (a b : List Nat) (ha : is_candidate a = true)
    (hb : is_candidate b = true) (h : ci_match a b = true) : a = b := by
  match a, ha with
  | [u], ha =>
    match b, hb with
    | [v], hb =>
      simp only [is_candidate] at ha hb
      simp only [ci_match, bne_iff_ne, ne_eq, ite_not, Bool.if_false_right, Bool.and_true,
        decide_eq_true_eq] at h
      rw [tolower_upper_inj u v ha hb h]
    | [v, m], hb => simp [ci_match] at h
  | [u, l], ha =>
    match b, hb with
    | [v], hb => simp [ci_match] at h
    | [v, m], hb =>
      simp only [is_candidate, Bool.and_eq_true] at ha hb
      simp only [ci_match, bne_iff_ne, ne_eq, ite_not, Bool.if_false_right, Bool.and_true,
        Bool.and_eq_true, decide_eq_true_eq] at h
      rw [tolower_upper_inj u v ha.1 hb.1 h.1, tolower_lower_inj l m ha.2 hb.2 h.2]

theorem element_by_symbol_from_some (sym : List Nat) : ∀ (tbl : List Element) (i k : Nat),
    element_by_symbol_from sym tbl i = some k →
      i ≤ k ∧ ∃ e, tbl[k - i]? = some e ∧ ci_match (cstr e.symbol) sym = true := by
  intro tbl
  induction tbl with
  | nil => intro i k h; simp [element_by_symbol_from] at h
  | cons e tbl ih =>
    intro i k h
    unfold element_by_symbol_from at h
    split at h
    · rename_i hm
      cases h
      exact ⟨Nat.le_refl _, e, by simp, hm⟩
    · obtain ⟨h1, e2, h2, h3⟩ := ih (i + 1) k h
      refine ⟨by omega, e2, ?_, h3⟩
      have : k - i = (k - (i + 1)) + 1 := by omega
      rw [this, List.getElem?_cons_succ]
      exact h2

theorem element_by_symbol_from_none (sym : List Nat) : ∀ (tbl : List Element) (i : Nat),
    element_by_symbol_from sym tbl i = none ↔
      ∀ e ∈ tbl, ci_match (cstr e.symbol) sym = false := by
  intro tbl
  induction tbl with
  | nil => intro i; simp [element_by_symbol_from]
  | cons e tbl ih =>
    intro i
    unfold element_by_symbol_from
    by_cases hm : ci_match (cstr e.symbol) sym = true
    · simp [hm]
    · have hm2 : ci_match (cstr e.symbol) sym = false := by simpa using hm
      simp [hm2, ih (i + 1)]

theorem table_candidate_of_get (k : Nat) (e : Element) (h : PERIODIC_TABLE[k]? = some e) :
    is_candidate (cstr e.symbol) = true := by
  have hmem : e ∈ PERIODIC_TABLE := List.getElem?_mem h
  exact (List.all_eq_true.mp table_candidates) e hmem

/-- A successful lookup of a candidate returns a catalog element whose
symbol is exactly the candidate. -/
theorem element_by_symbol_sound (sym : List Nat) (k : Nat) (hc : is_candidate sym = true)
    (h : element_by_symbol sym = some k) : k < NUM_ELEMENTS ∧ symbol_of k = sym := by
  obtain ⟨_, e, he, hm⟩ := element_by_symbol_from_some sym PERIODIC_TABLE 0 k h
  simp only [Nat.sub_zero] at he
  constructor
  · rw [← table_length]
    by_contra hlt
    rw [List.getElem?_eq_none (by omega)] at he
    cases he
  · unfold symbol_of
    rw [he]
    exact ci_match_candidates _ _ (table_candidate_of_get k e he) hc hm

/-- The lookup of a candidate fails exactly when no catalog element has that
exact symbol. -/
theorem element_by_symbol_none_iff (sym : List Nat) (hc : is_candidate sym = true) :
    element_by_symbol sym = none ↔ is_catalog_symbol sym = false := by
  unfold element_by_symbol is_catalog_symbol
  rw [element_by_symbol_from_none]
  constructor
  · intro h
    rw [List.any_eq_false]
    intro e he hm
    have heq : cstr e.symbol = sym := by simpa using hm
    have := h e he
    rw [heq, ci_match_refl] at this
    cases this
  · intro h e he
    rw [List.any_eq_false] at h
    cases hm : ci_match (cstr e.symbol) sym with
    | false => rfl
    | true =>
      have hce := (List.all_eq_true.mp table_candidates) e he
      exact absurd (by simpa using ci_match_candidates _ _ hce hc hm) (h e he)

/-- Each catalog element is found again through its own symbol. -/
theorem element_by_symbol_symbol_of (k : Nat) (h : k < NUM_ELEMENTS) :
    element_by_symbol (symbol_of k) = some k := by
  have := (List.all_eq_true.mp table_lookup_self) k (List.mem_range.mpr h)
  simpa using this

theorem symbol_of_candidate (k : Nat) (h : k < NUM_ELEMENTS) :
    is_candidate (symbol_of k) = true := by
  unfold symbol_of
  rw [← table_length] at h
  rw [List.getElem?_eq_getElem h]
  exact table_candidate_of_get k _ (List.getElem?_eq_getElem h)

/-! ## Merging an entry -/

theorem update_existing_none_iff (el : Nat) (n : Int) (es : List ElementCount) :
    update_existing el n es = none ↔ el ∉ es.map ElementCount.element := by
  induction es with
  | nil => simp [update_existing]
  | cons e es ih =>
    unfold update_existing
    by_cases h : e.element = el
    · simp [h]
    · simp only [h, if_false, Option.map_eq_none', ih, List.map_cons, List.mem_cons, not_or]
      constructor
      · intro h2; exact ⟨fun h3 => h h3.symm, h2⟩
      · intro h2; exact h2.2

theorem update_existing_elements (el : Nat) (n : Int) (es es1 : List ElementCount)
    (h : update_existing el n es = some es1) :
    es1.map ElementCount.element = es.map ElementCount.element ∧
      el ∈ es.map ElementCount.element := by
  induction es generalizing es1 with
  | nil => simp [update_existing] at h
  | cons e es ih =>
    unfold update_existing at h
    split at h
    · rename_i he
      cases h
      simp [he]
    · cases hu : update_existing el n es with
      | none => rw [hu] at h; cases h
      | some es2 =>
        rw [hu] at h
        simp only [Option.map_some'] at h
        cases h
        obtain ⟨h1, h2⟩ := ih es2 hu
        simp [h1, h2]

theorem update_existing_counts (el : Nat) (n : Int) (hn : 0 ≤ n) (es es1 : List ElementCount)
    (h : update_existing el n es = some es1) (hpos : ∀ e ∈ es, 1 ≤ e.count) :
    ∀ e ∈ es1, 1 ≤ e.count := by
  induction es generalizing es1 with
  | nil => simp [update_existing] at h
  | cons e es ih =>
    unfold update_existing at h
    split at h
    · cases h
      intro x hx
      rcases List.mem_cons.mp hx with hx | hx
      · subst hx
        have := hpos e (List.mem_cons_self e es)
        simp only; omega
      · exact hpos x (List.mem_cons_of_mem e hx)
    · cases hu : update_existing el n es with
      | none => rw [hu] at h; cases h
      | some es2 =>
        rw [hu] at h
        simp only [Option.map_some'] at h
        cases h
        intro x hx
        rcases List.mem_cons.mp hx with hx | hx
        · subst hx; exact hpos x (List.mem_cons_self x es)
        · exact ih es2 hu (fun y hy => hpos y (List.mem_cons_of_mem e hy)) x hx

/-- The two ways `add_entry` succeeds: the element is present and keeps its
place, or it is new, fits, and goes to the end. -/
theorem add_entry_cases (el : Nat) (n : Int) (es es1 : List ElementCount)
    (h : add_entry el n es = some es1) :
    (el ∈ es.map ElementCount.element ∧ update_existing el n es = some es1 ∧
        es1.map ElementCount.element = es.map ElementCount.element) ∨
    (el ∉ es.map ElementCount.element ∧ es.length < MAX_ATOMS_PER_MOLECULE ∧
        es1 = es ++ [{ element := el, count := n }]) := by
  unfold add_entry at h
  cases hu : update_existing el n es with
  | some es2 =>
    rw [hu] at h
    cases h
    obtain ⟨h1, h2⟩ := update_existing_elements el n es es1 hu
    exact Or.inl ⟨h2, rfl, h1⟩
  | none =>
    rw [hu] at h
    simp only [] at h
    split at h
    · cases h
    · rename_i hlen
      cases h
      exact Or.inr ⟨(update_existing_none_iff el n es).mp hu, by omega, rfl⟩

theorem add_entry_none_iff (el : Nat) (n : Int) (es : List ElementCount) :
    add_entry el n es = none ↔
      el ∉ es.map ElementCount.element ∧ MAX_ATOMS_PER_MOLECULE ≤ es.length := by
  unfold add_entry
  cases hu : update_existing el n es with
  | some es2 =>
    have := (update_existing_elements el n es es2 hu).2
    simp [this]
  | none =>
    have := (update_existing_none_iff el n es).mp hu
    simp only [this, not_false_eq_true, true_and]
    constructor
    · intro h
      split at h
      · assumption
      · cases h
    · intro h
      simp [h]

theorem add_entry_nodup (el : Nat) (n : Int) (es es1 : List ElementCount)
    (h : add_entry el n es = some es1) (hnd : (es.map ElementCount.element).Nodup) :
    (es1.map ElementCount.element).Nodup := by
  rcases add_entry_cases el n es es1 h with ⟨_, _, h3⟩ | ⟨h1, _, h3⟩
  · rw [h3]; exact hnd
  · subst h3
    rw [List.map_append, List.nodup_append]
    refine ⟨hnd, by simp, ?_⟩
    intro a ha hb
    simp only [List.map_cons, List.map_nil, List.mem_singleton] at hb
    subst hb
    exact h1 ha

theorem add_entry_counts (el : Nat) (n : Int) (hn : 1 ≤ n) (es es1 : List ElementCount)
    (h : add_entry el n es = some es1) (hpos : ∀ e ∈ es, 1 ≤ e.count) :
    ∀ e ∈ es1, 1 ≤ e.count := by
  rcases add_entry_cases el n es es1 h with ⟨_, h2, _⟩ | ⟨_, _, h3⟩
  · exact update_existing_counts el n (by omega) es es1 h2 hpos
  · subst h3
    intro e he
    rcases List.mem_append.mp he with he | he
    · exact hpos e he
    · simp only [List.mem_singleton] at he
      subst he; exact hn

theorem add_entry_length (el : Nat) (n : Int) (es es1 : List ElementCount)
    (h : add_entry el n es = some es1) (hlen : es.length ≤ MAX_ATOMS_PER_MOLECULE) :
    es1.length ≤ MAX_ATOMS_PER_MOLECULE ∧ es1 ≠ [] := by
  rcases add_entry_cases el n es es1 h with ⟨h1, _, h3⟩ | ⟨_, h2, h3⟩
  · have hl : es1.length = es.length := by
      have := congrArg List.length h3
      simpa using this
    refine ⟨by omega, ?_⟩
    intro he
    subst he
    cases es with
    | nil => simp at h1
    | cons e es => simp at hl
  · subst h3
    simp only [List.length_append, List.length_singleton]
    exact ⟨by omega, by simp⟩

theorem add_entry_valid (el : Nat) (n : Int) (es es1 : List ElementCount)
    (h : add_entry el n es = some es1) (hel : el < NUM_ELEMENTS)
    (hv : ∀ e ∈ es, e.element < NUM_ELEMENTS) : ∀ e ∈ es1, e.element < NUM_ELEMENTS := by
  have key : ∀ x ∈ es1.map ElementCount.element, x < NUM_ELEMENTS := by
    rcases add_entry_cases el n es es1 h with ⟨_, _, h3⟩ | ⟨_, _, h3⟩
    · rw [h3]
      intro x hx
      obtain ⟨e, he, rfl⟩ := List.mem_map.mp hx
      exact hv e he
    · subst h3
      intro x hx
      rw [List.map_append] at hx
      rcases List.mem_append.mp hx with hx | hx
      · obtain ⟨e, he, rfl⟩ := List.mem_map.mp hx
        exact hv e he
      · simp only [List.map_cons, List.map_nil, List.mem_singleton] at hx
        subst hx; exact hel
  intro e he
  exact key _ (List.mem_map_of_mem _ he)

/-! ## Tokens of the grammar -/

theorem digits_value_from_nonneg (ds : List Nat) : ∀ n : Int, 0 ≤ n →
    (∀ c ∈ ds, isdigit c = true) → 0 ≤ digits_value_from n ds := by
  induction ds with
  | nil => intro n hn _; simpa [digits_value_from] using hn
  | cons d ds ih =>
    intro n hn hd
    have h1 : isdigit d = true := hd d (List.mem_cons_self d ds)
    simp only [isdigit, Bool.and_eq_true, decide_eq_true_eq] at h1
    have := ih (n * 10 + ((d : Int) - 48)) (by omega)
      (fun c hc => hd c (List.mem_cons_of_mem d hc))
    simpa [digits_value_from] using this

theorem token_count_pos (n : Int) (hn : 0 ≤ n) : 1 ≤ token_count n := by
  unfold token_count
  split
  · exact Int.le_refl 1
  · rename_i h
    have : n ≠ 0 := by simpa using h
    omega

/-- The tokens of a string of the grammar have the candidate shape and
carry digit runs. -/
theorem lexed_tokens (p : List Nat) (ts : List Token) (h : Lexed p ts) :
    ∀ t ∈ ts, is_candidate t.symbol = true ∧ ∀ c ∈ t.digits, isdigit c = true := by
  induction h with
  | nil => intro t ht; cases ht
  | space c p ts _ _ ih => exact ih
  | paren c p ts _ _ ih => exact ih
  | upper1 u ds p ts hu hd _ _ _ ih =>
    intro t ht
    rcases List.mem_cons.mp ht with ht | ht
    · subst ht; exact ⟨by simpa [is_candidate] using hu, hd⟩
    · exact ih t ht
  | upper2 u l ds p ts hu hl hd _ _ ih =>
    intro t ht
    rcases List.mem_cons.mp ht with ht | ht
    · subst ht; exact ⟨by simp [is_candidate, hu, hl], hd⟩
    · exact ih t ht

/-- An invariant of the entry list that every successful merge of a token
preserves holds after all the tokens. -/
theorem fold_tokens_invariant (P : List ElementCount → Prop) (ts : List Token)
    (hstep : ∀ t ∈ ts, ∀ (es es1 : List ElementCount) (el : Nat), P es →
      element_by_symbol t.symbol = some el →
      add_entry el (token_count (digits_value t.digits)) es = some es1 → P es1) :
    ∀ es es1 : List ElementCount, P es → fold_tokens ts es = some es1 → P es1 := by
  induction ts with
  | nil => intro es es1 h0 h; simp only [fold_tokens] at h; cases h; exact h0
  | cons t ts ih =>
    intro es es1 h0 h
    unfold fold_tokens at h
    cases hel : element_by_symbol t.symbol with
    | none => rw [hel] at h; cases h
    | some el =>
      rw [hel] at h
      simp only [] at h
      cases hadd : add_entry el (token_count (digits_value t.digits)) es with
      | none => rw [hadd] at h; cases h
      | some es2 =>
        rw [hadd] at h
        simp only [] at h
        exact ih (fun t2 ht2 => hstep t2 (List.mem_cons_of_mem t ht2)) es2 es1
          (hstep t (List.mem_cons_self t ts) es es2 el h0 hel hadd) h

/-- What a successful `formula_parse` has done, in terms of the grammar. -/
theorem formula_parse_accept (s : List Nat) (f : Formula) (h : formula_parse s = .accept f) :
    ∃ ws ds p ts, s = ws ++ ds ++ p ∧ (∀ c ∈ ws, isspace c = true) ∧
      (∀ c ∈ ds, isdigit c = true) ∧ Lexed p ts ∧
      fold_tokens ts [] = some f.elements ∧ f.elements ≠ [] ∧
      f.coefficient = if ds = [] then 1 else digits_value ds := by
  obtain ⟨ws, ds, q, hs, hw, hd, hq⟩ := formula_parse_prelude s
  rw [hq] at h
  obtain ⟨ts, es, hts, hf, hne, hg⟩ := (parse_body_accept_iff _ _ _).mp h
  subst hg
  exact ⟨ws, ds, q, ts, hs, hw, hd, hts, hf, hne, rfl⟩

/-- The invariants of the entries of a parsed formula. -/
theorem fold_tokens_entries (p : List Nat) (ts : List Token) (hts : Lexed p ts)
    (es : List ElementCount) (h : fold_tokens ts [] = some es) :
    (es.map ElementCount.element).Nodup ∧ (∀ e ∈ es, 1 ≤ e.count) ∧
      es.length ≤ MAX_ATOMS_PER_MOLECULE ∧ ∀ e ∈ es, e.element < NUM_ELEMENTS := by
  refine fold_tokens_invariant
    (fun es => (es.map ElementCount.element).Nodup ∧ (∀ e ∈ es, 1 ≤ e.count) ∧
      es.length ≤ MAX_ATOMS_PER_MOLECULE ∧ ∀ e ∈ es, e.element < NUM_ELEMENTS)
    ts ?_ [] es ⟨by simp, by simp, by simp [MAX_ATOMS_PER_MOLECULE], by simp⟩ h
  intro t ht es0 es1 el ⟨h1, h2, h3, h4⟩ hel hadd
  obtain ⟨hc, hd⟩ := lexed_tokens p ts hts t ht
  have hn : 1 ≤ token_count (digits_value t.digits) :=
    token_count_pos _ (digits_value_from_nonneg _ 0 (Int.le_refl 0) hd)
  exact ⟨add_entry_nodup el _ es0 es1 hadd h1, add_entry_counts el _ hn es0 es1 hadd h2,
    (add_entry_length el _ es0 es1 hadd h3).1,
    add_entry_valid el _ es0 es1 hadd (element_by_symbol_sound _ _ hc hel).1 h4⟩

/-! ## The leading coefficient -/

theorem parse_digits_value (q : List Nat) : ∀ n : Int,
    (parse_digits n q).1 = digits_value_from n (q.takeWhile isdigit) := by
  induction q with
  | nil => intro n; rfl
  | cons c q ih =>
    intro n
    by_cases hc : isdigit c = true
    · simp only [parse_digits, hc, if_true, List.takeWhile_cons_of_pos]
      rw [ih]; simp [digits_value_from]
    · have hc2 : isdigit c = false := by simpa using hc
      simp [parse_digits, hc2, List.takeWhile_cons, digits_value_from]

theorem takeWhile_digit_nil_iff (q : List Nat) :
    q.takeWhile isdigit = [] ↔ starts_with isdigit q = false := by
  cases q with
  | nil => simp [starts_with]
  | cons c q =>
    by_cases hc : isdigit c = true
    · simp [starts_with, hc, List.takeWhile_cons]
    · have hc2 : isdigit c = false := by simpa using hc
      simp [starts_with, hc2, List.takeWhile_cons]

theorem digits_value_from_zero_iff (ds : List Nat) : ∀ n : Int, 0 ≤ n →
    (∀ c ∈ ds, isdigit c = true) →
    (digits_value_from n ds = 0 ↔ n = 0 ∧ ∀ c ∈ ds, c = 48) := by
  induction ds with
  | nil => intro n _ _; simp [digits_value_from]
  | cons d ds ih =>
    intro n hn hd
    have h1 : isdigit d = true := hd d (List.mem_cons_self d ds)
    simp only [isdigit, Bool.and_eq_true, decide_eq_true_eq] at h1
    have h2 := ih (n * 10 + ((d : Int) - 48)) (by omega)
      (fun c hc => hd c (List.mem_cons_of_mem d hc))
    have h3 : digits_value_from n (d :: ds) = digits_value_from (n * 10 + ((d : Int) - 48)) ds := by
      simp [digits_value_from]
    rw [h3, h2]
    simp only [List.mem_cons, forall_eq_or_imp]
    constructor
    · rintro ⟨h4, h5⟩
      exact ⟨by omega, by omega, h5⟩
    · rintro ⟨h4, h5, h6⟩
      exact ⟨by omega, h6⟩

/-- The main loop never changes the coefficient. -/
theorem parse_body_coefficient (p : List Nat) (f g : Formula) (h : parse_body p f = .accept g) :
    g.coefficient = f.coefficient := by
  obtain ⟨_, _, _, _, _, hg⟩ := (parse_body_accept_iff p f g).mp h
  rw [hg]

/-! ## Trailing text: whitespace, and a further token -/

theorem starts_with_append_false (P : Nat → Bool) (a b : List Nat)
    (ha : starts_with P a = false) (hb : starts_with P b = false) :
    starts_with P (a ++ b) = false := by
  cases a with
  | nil => exact hb
  | cons c a => exact ha

theorem starts_with_spaces (P : Nat → Bool) (w : List Nat)
    (hP : ∀ c, isspace c = true → P c = false) (hw : ∀ c ∈ w, isspace c = true) :
    starts_with P w = false := by
  cases w with
  | nil => rfl
  | cons c w => exact hP c (hw c (List.mem_cons_self c w))

theorem parse_body_spaces (w : List Nat) (f : Formula) (hw : ∀ c ∈ w, isspace c = true) :
    parse_body w f = finish f := by
  induction w with
  | nil => exact parse_body_nil f
  | cons c w ih =>
    rw [parse_body_space c w f (hw c (List.mem_cons_self c w))]
    exact ih (fun d hd => hw d (List.mem_cons_of_mem c hd))

theorem read_symbol_append_spaces (c : Nat) (r w : List Nat) (hw : ∀ c ∈ w, isspace c = true) :
    read_symbol c (r ++ w) = ((read_symbol c r).1, (read_symbol c r).2 ++ w) := by
  cases r with
  | nil =>
    rw [List.nil_append, read_symbol_single c w (starts_with_spaces _ w not_lower_of_space hw)]
    rfl
  | cons l q =>
    by_cases hl : islower l = true
    · rw [List.cons_append, read_symbol_lower c l _ hl, read_symbol_lower c l _ hl]
    · have hl2 : starts_with islower (l :: q) = false := by simpa [starts_with] using hl
      have hl3 : starts_with islower (l :: q ++ w) = false := by simpa [starts_with] using hl
      rw [read_symbol_single c _ hl2, read_symbol_single c _ hl3]

theorem parse_digits_append_spaces (q w : List Nat) (n : Int)
    (hw : ∀ c ∈ w, isspace c = true) :
    parse_digits n (q ++ w) = ((parse_digits n q).1, (parse_digits n q).2 ++ w) := by
  obtain ⟨ds, h1, h2, h3, h4⟩ := parse_digits_split q n
  have h5 : starts_with isdigit ((parse_digits n q).2 ++ w) = false :=
    starts_with_append_false _ _ _ h3 (starts_with_spaces _ w not_digit_of_space hw)
  have h6 : q ++ w = ds ++ ((parse_digits n q).2 ++ w) := by
    rw [← List.append_assoc, ← h2]
  rw [h6, parse_digits_append ds n _ h1 h5, h4]

/-- Whitespace at the end of the text does not change what the main loop
returns. -/
theorem parse_body_append_spaces (w : List Nat) (hw : ∀ c ∈ w, isspace c = true) (n : Nat) :
    ∀ (p : List Nat) (f : Formula), p.length ≤ n →
      parse_body (p ++ w) f = parse_body p f := by
  induction n with
  | zero =>
    intro p f h
    have : p = [] := List.length_eq_zero.mp (by omega)
    subst this
    rw [List.nil_append, parse_body_spaces w f hw, parse_body_nil]
  | succ n ih =>
    intro p f h
    cases p with
    | nil => rw [List.nil_append, parse_body_spaces w f hw, parse_body_nil]
    | cons c p =>
      simp only [List.length_cons] at h
      rw [List.cons_append]
      by_cases hs : isspace c = true
      · rw [parse_body_space c _ f hs, parse_body_space c _ f hs]; exact ih p f (by omega)
      · by_cases hu : isupper c = true
        · rw [parse_body_upper c _ f hu, parse_body_upper c _ f hu,
            read_symbol_append_spaces c p w hw]
          simp only [parse_digits_append_spaces _ w 0 hw]
          have h1 := read_symbol_length c p
          have h2 := parse_digits_length 0 (read_symbol c p).2
          cases element_by_symbol (read_symbol c p).1 with
          | none => rfl
          | some el =>
            simp only []
            cases add_entry el (token_count (parse_digits 0 (read_symbol c p).2).1) f.elements with
            | none => rfl
            | some es => simp only []; exact ih _ _ (by omega)
        · by_cases hp : c = 40 ∨ c = 41
          · rw [parse_body_paren c _ f hp, parse_body_paren c _ f hp]; exact ih p f (by omega)
          · rw [parse_body_other c _ f (by simpa using hs) (by simpa using hu)
              (fun h => hp (Or.inl h)) (fun h => hp (Or.inr h)),
              parse_body_other c _ f (by simpa using hs) (by simpa using hu)
              (fun h => hp (Or.inl h)) (fun h => hp (Or.inr h))]

theorem skip_space_spaces (w : List Nat) (hw : ∀ c ∈ w, isspace c = true) :
    skip_space w = [] := by
  have := skip_space_append_spaces w [] hw
  simpa [skip_space] using this

/-- Whitespace at the end of the text does not change what `formula_parse`
returns. -/
theorem formula_parse_append_spaces (s w : List Nat) (hw : ∀ c ∈ w, isspace c = true) :
    formula_parse (s ++ w) = formula_parse s := by
  obtain ⟨ws, hws, hs⟩ := skip_space_split s
  have hskip : skip_space (s ++ w) = skip_space (skip_space s ++ w) := by
    conv_lhs => rw [hs, List.append_assoc, skip_space_append_spaces ws _ hws]
  rw [formula_parse_eq (s ++ w), formula_parse_eq s, hskip]
  cases hq : skip_space s with
  | nil =>
    rw [List.nil_append, skip_space_spaces w hw]
  | cons c q =>
    have hc : isspace c = false := skip_space_head s c q hq
    rw [List.cons_append, skip_space_cons_other c _ hc]
    by_cases hd : isdigit c = true
    · have e1 : starts_with isdigit (c :: (q ++ w)) = true := hd
      have e2 : starts_with isdigit (c :: q) = true := hd
      simp only [e1, e2, if_true]
      have := parse_digits_append_spaces (c :: q) w 0 hw
      rw [List.cons_append] at this
      rw [this]
      exact parse_body_append_spaces w hw _ _ _ (Nat.le_refl _)
    · have hd2 : isdigit c = false := by simpa using hd
      have e1 : starts_with isdigit (c :: (q ++ w)) = false := hd2
      have e2 : starts_with isdigit (c :: q) = false := hd2
      simp only [e1, e2, Bool.false_eq_true, if_false]
      have := parse_body_append_spaces w hw _ (c :: q) { elements := [], coefficient := 1 }
        (Nat.le_refl _)
      rw [List.cons_append] at this
      exact this

theorem starts_with_upper_not (x : List Nat) (hx : starts_with isupper x = true) :
    starts_with islower x = false ∧ starts_with isdigit x = false ∧
      starts_with isspace x = false := by
  cases x with
  | nil => cases hx
  | cons c x =>
    exact ⟨not_lower_of_upper c hx, not_digit_of_upper c hx, not_space_of_upper c hx⟩

theorem starts_with_digits_append (P : Nat → Bool) (ds p x : List Nat)
    (h : starts_with P (ds ++ p) = false) (hx : starts_with P x = false) :
    starts_with P (ds ++ (p ++ x)) = false := by
  rw [← List.append_assoc]
  exact starts_with_append_false P _ _ h hx

/-- A string of the grammar followed by text that starts a new token: the
main loop processes the tokens of the string and goes on at that text. -/
theorem parse_body_lexed_append (p : List Nat) (ts : List Token) (h : Lexed p ts)
    (x : List Nat) (hx : starts_with isupper x = true) :
    ∀ f : Formula, parse_body (p ++ x) f =
      match fold_tokens ts f.elements with
      | none => .reject
      | some es => parse_body x { f with elements := es } := by
  obtain ⟨hx1, hx2, _⟩ := starts_with_upper_not x hx
  induction h with
  | nil => intro f; simp [fold_tokens]
  | space c p ts hc _ ih =>
    intro f; rw [List.cons_append, parse_body_space c _ f hc]; exact ih f
  | paren c p ts hc _ ih =>
    intro f; rw [List.cons_append, parse_body_paren c _ f hc]; exact ih f
  | upper1 u ds p ts hu hd hl hp _ ih =>
    intro f
    rw [List.cons_append, List.append_assoc, parse_body_upper u _ f hu,
      read_symbol_single u _ (starts_with_digits_append _ ds p x hl hx1)]
    simp only [parse_digits_append ds 0 (p ++ x) hd (starts_with_append_false _ _ _ hp hx2),
      fold_tokens, digits_value]
    cases element_by_symbol [u] with
    | none => rfl
    | some el =>
      simp only []
      cases add_entry el (token_count (digits_value_from 0 ds)) f.elements with
      | none => rfl
      | some es => simp only []; exact ih _
  | upper2 u l ds p ts hu hl hd hp _ ih =>
    intro f
    rw [List.cons_append, List.cons_append, List.append_assoc, parse_body_upper u _ f hu,
      read_symbol_lower u l _ hl]
    simp only [parse_digits_append ds 0 (p ++ x) hd (starts_with_append_false _ _ _ hp hx2),
      fold_tokens, digits_value]
    cases element_by_symbol [u, l] with
    | none => rfl
    | some el =>
      simp only []
      cases add_entry el (token_count (digits_value_from 0 ds)) f.elements with
      | none => rfl
      | some es => simp only []; exact ih _

/-- The main loop returns `false` at a symbol candidate that no catalog
element has. -/
theorem parse_body_unknown (cand rest : List Nat) (f : Formula)
    (hc : is_candidate cand = true)
    (hg : cand.length = 1 → starts_with islower rest = false)
    (hu : is_catalog_symbol cand = false) : parse_body (cand ++ rest) f = .reject := by
  have hnone := (element_by_symbol_none_iff cand hc).mpr hu
  match cand, hc, hg, hnone with
  | [u], hc, hg, hnone =>
    simp only [is_candidate] at hc
    rw [List.singleton_append, parse_body_upper u rest f hc,
      read_symbol_single u rest (hg rfl)]
    simp only [hnone]
  | [u, l], hc, hg, hnone =>
    simp only [is_candidate, Bool.and_eq_true] at hc
    rw [List.cons_append, List.cons_append, List.nil_append, parse_body_upper u _ f hc.1,
      read_symbol_lower u l rest hc.2]
    simp only [hnone]

theorem candidate_starts_upper (cand rest : List Nat) (hc : is_candidate cand = true) :
    starts_with isupper (cand ++ rest) = true := by
  match cand, hc with
  | [u], hc => simpa [is_candidate, starts_with] using hc
  | [u, l], hc =>
    simp only [is_candidate, Bool.and_eq_true] at hc
    simpa [starts_with] using hc.1

theorem lexed_of_blank (r : List Nat) (h : ∀ c ∈ r, isspace c = true ∨ c = 40 ∨ c = 41) :
    Lexed r [] := by
  induction r with
  | nil => exact Lexed.nil
  | cons c r ih =>
    have hr := ih (fun d hd => h d (List.mem_cons_of_mem c hd))
    rcases h c (List.mem_cons_self c r) with hc | hc
    · exact Lexed.space c r [] hc hr
    · exact Lexed.paren c r [] hc hr

/-! ## Comparison of a formula with itself -/

theorem first_count_of_mem (es : List ElementCount) (e : ElementCount)
    (hnd : (es.map ElementCount.element).Nodup) (he : e ∈ es) :
    first_count e.element es = some e.count := by
  induction es with
  | nil => cases he
  | cons a es ih =>
    rw [List.map_cons, List.nodup_cons] at hnd
    unfold first_count
    rcases List.mem_cons.mp he with h | h
    · subst h; simp
    · have hne : a.element ≠ e.element := by
        intro heq
        exact hnd.1 (heq ▸ List.mem_map_of_mem _ h)
      simp only [hne, if_false]
      exact ih hnd.2 h

theorem equals_from_of_subset (es2 : List ElementCount)
    (hnd : (es2.map ElementCount.element).Nodup) (es1 : List ElementCount)
    (hsub : ∀ e ∈ es1, e ∈ es2) : equals_from es2 es1 = true := by
  induction es1 with
  | nil => rfl
  | cons e es1 ih =>
    unfold equals_from
    rw [first_count_of_mem es2 e hnd (hsub e (List.mem_cons_self e es1))]
    simp only [bne_self_eq_false, Bool.false_eq_true, if_false]
    exact ih (fun x hx => hsub x (List.mem_cons_of_mem e hx))

/-- Two formulas with the same entries, no element twice, compare equal,
whatever their coefficients. -/
theorem formula_equals_same_entries (f g : Formula) (h : g.elements = f.elements)
    (hnd : (f.elements.map ElementCount.element).Nodup) : formula_equals f g = true := by
  unfold formula_equals
  rw [h]
  simp only [bne_self_eq_false, Bool.false_eq_true, if_false]
  exact equals_from_of_subset f.elements hnd f.elements (fun e he => he)

theorem formula_parse_nodup (s : List Nat) (f : Formula) (h : formula_parse s = .accept f) :
    (f.elements.map ElementCount.element).Nodup := by
  obtain ⟨ws, ds, p, ts, _, _, _, hts, hf, _, _⟩ := formula_parse_accept s f h
  exact (fold_tokens_entries p ts hts f.elements hf).1

/-! ## When the tokens fit: success of `fold_tokens` -/

theorem symbol_of_injective (i j : Nat) (hi : i < NUM_ELEMENTS) (hj : j < NUM_ELEMENTS)
    (h : symbol_of i = symbol_of j) : i = j := by
  have h1 := element_by_symbol_symbol_of i hi
  have h2 := element_by_symbol_symbol_of j hj
  rw [h, h2] at h1
  exact (Option.some.inj h1).symm

theorem catalog_symbol_lookup (sym : List Nat) (hc : is_candidate sym = true)
    (hk : is_catalog_symbol sym = true) :
    ∃ el, element_by_symbol sym = some el ∧ el < NUM_ELEMENTS ∧ symbol_of el = sym := by
  cases h : element_by_symbol sym with
  | none =>
    rw [(element_by_symbol_none_iff sym hc).mp h] at hk
    cases hk
  | some el => exact ⟨el, rfl, element_by_symbol_sound sym el hc h⟩

theorem entry_symbols_nodup (es : List ElementCount)
    (hnd : (es.map ElementCount.element).Nodup) (hv : ∀ e ∈ es, e.element < NUM_ELEMENTS) :
    (es.map (fun e => symbol_of e.element)).Nodup := by
  have : es.map (fun e => symbol_of e.element) = (es.map ElementCount.element).map symbol_of := by
    simp
  rw [this]
  apply List.Nodup.map_on _ hnd
  intro x hx y hy hxy
  obtain ⟨a, ha, rfl⟩ := List.mem_map.mp hx
  obtain ⟨b, hb, rfl⟩ := List.mem_map.mp hy
  exact symbol_of_injective _ _ (hv a ha) (hv b hb) hxy

/-- After a successful `fold_tokens` every token's element has an entry, and
the entries present before are still there. -/
theorem fold_tokens_covers (ts : List Token) : ∀ acc es : List ElementCount,
    fold_tokens ts acc = some es →
      (∀ x ∈ acc.map ElementCount.element, x ∈ es.map ElementCount.element) ∧
      ∀ t ∈ ts, ∃ el, element_by_symbol t.symbol = some el ∧
        el ∈ es.map ElementCount.element := by
  induction ts with
  | nil =>
    intro acc es h
    simp only [fold_tokens] at h
    cases h
    exact ⟨fun x hx => hx, fun t ht => by cases ht⟩
  | cons t ts ih =>
    intro acc es h
    unfold fold_tokens at h
    cases hel : element_by_symbol t.symbol with
    | none => rw [hel] at h; cases h
    | some el =>
      rw [hel] at h
      simp only [] at h
      cases hadd : add_entry el (token_count (digits_value t.digits)) acc with
      | none => rw [hadd] at h; cases h
      | some es2 =>
        rw [hadd] at h
        simp only [] at h
        obtain ⟨h1, h2⟩ := ih es2 es h
        have hstep : (∀ x ∈ acc.map ElementCount.element, x ∈ es2.map ElementCount.element) ∧
            el ∈ es2.map ElementCount.element := by
          rcases add_entry_cases el _ acc es2 hadd with ⟨a1, _, a3⟩ | ⟨_, _, a3⟩
          · rw [a3]; exact ⟨fun x hx => hx, a1⟩
          · subst a3
            simp only [List.map_append, List.map_cons, List.map_nil, List.mem_append,
              List.mem_singleton]
            exact ⟨fun x hx => Or.inl hx, Or.inr trivial⟩
        refine ⟨fun x hx => h1 x (hstep.1 x hx), ?_⟩
        intro t2 ht2
        rcases List.mem_cons.mp ht2 with ht2 | ht2
        · subst ht2
          exact ⟨el, hel, h1 el hstep.2⟩
        · exact h2 t2 ht2

/-- The tokens can all be processed as soon as their symbols are catalog
symbols and, with the elements already present, they name at most
`MAX_ATOMS_PER_MOLECULE` elements. -/
theorem fold_tokens_fits (ts : List Token) : ∀ acc : List ElementCount,
    (acc.map ElementCount.element).Nodup → (∀ e ∈ acc, e.element < NUM_ELEMENTS) →
    (∀ t ∈ ts, is_candidate t.symbol = true ∧ is_catalog_symbol t.symbol = true) →
    ((acc.map (fun e => symbol_of e.element)).toFinset ∪
        (ts.map Token.symbol).toFinset).card ≤ MAX_ATOMS_PER_MOLECULE →
    ∃ es, fold_tokens ts acc = some es := by
  induction ts with
  | nil => intro acc _ _ _ _; exact ⟨acc, rfl⟩
  | cons t ts ih =>
    intro acc hnd hv hts hcard
    obtain ⟨hc, hk⟩ := hts t (List.mem_cons_self t ts)
    obtain ⟨el, hel, hlt, hsym⟩ := catalog_symbol_lookup t.symbol hc hk
    unfold fold_tokens
    rw [hel]
    simp only []
    have hA : (acc.map (fun e => symbol_of e.element)).toFinset.card = acc.length := by
      rw [List.toFinset_card_of_nodup (entry_symbols_nodup acc hnd hv), List.length_map]
    cases hadd : add_entry el (token_count (digits_value t.digits)) acc with
    | none =>
      exfalso
      obtain ⟨hnot, hfull⟩ := (add_entry_none_iff _ _ _).mp hadd
      have hnew : t.symbol ∉ (acc.map (fun e => symbol_of e.element)).toFinset := by
        intro hmem
        rw [List.mem_toFinset] at hmem
        obtain ⟨e, he, hes⟩ := List.mem_map.mp hmem
        have : e.element = el :=
          symbol_of_injective _ _ (hv e he) hlt (by rw [hes, hsym])
        exact hnot (this ▸ List.mem_map_of_mem _ he)
      have hsub : insert t.symbol (acc.map (fun e => symbol_of e.element)).toFinset ⊆
          (acc.map (fun e => symbol_of e.element)).toFinset ∪
            ((t :: ts).map Token.symbol).toFinset := by
        intro x hx
        rcases Finset.mem_insert.mp hx with hx | hx
        · subst hx
          exact Finset.mem_union_right _ (by simp)
        · exact Finset.mem_union_left _ hx
      have h1 := Finset.card_le_card hsub
      rw [Finset.card_insert_of_not_mem hnew, hA] at h1
      omega
    | some es2 =>
      simp only []
      apply ih es2 (add_entry_nodup el _ acc es2 hadd hnd)
        (add_entry_valid el _ acc es2 hadd hlt hv)
        (fun t2 ht2 => hts t2 (List.mem_cons_of_mem t ht2))
      refine le_trans (Finset.card_le_card ?_) hcard
      intro x hx
      rcases Finset.mem_union.mp hx with hx | hx
      · rw [List.mem_toFinset] at hx
        obtain ⟨e, he, hes⟩ := List.mem_map.mp hx
        have hmem : e.element ∈ es2.map ElementCount.element := List.mem_map_of_mem _ he
        rcases add_entry_cases el _ acc es2 hadd with ⟨_, _, a3⟩ | ⟨_, _, a3⟩
        · rw [a3] at hmem
          obtain ⟨e0, he0, heq⟩ := List.mem_map.mp hmem
          apply Finset.mem_union_left
          rw [List.mem_toFinset]
          exact List.mem_map.mpr ⟨e0, he0, by rw [← hes, heq]⟩
        · subst a3
          rcases List.mem_append.mp he with he | he
          · apply Finset.mem_union_left
            rw [List.mem_toFinset]
            exact List.mem_map.mpr ⟨e, he, hes⟩
          · simp only [List.mem_singleton] at he
            subst he
            apply Finset.mem_union_right
            rw [← hes, hsym]
            simp
      · apply Finset.mem_union_right
        rw [List.mem_toFinset] at hx ⊢
        exact List.mem_cons_of_mem _ hx

theorem fold_tokens_nonempty (t : Token) (ts : List Token) (es : List ElementCount)
    (h : fold_tokens (t :: ts) [] = some es) : es ≠ [] := by
  unfold fold_tokens at h
  cases hel : element_by_symbol t.symbol with
  | none => rw [hel] at h; cases h
  | some el =>
    rw [hel] at h
    simp only [] at h
    cases hadd : add_entry el (token_count (digits_value t.digits)) [] with
    | none => rw [hadd] at h; cases h
    | some es2 =>
      rw [hadd] at h
      simp only [] at h
      have h2 := (add_entry_length el _ [] es2 hadd (by simp)).2
      obtain ⟨h3, _⟩ := fold_tokens_covers ts es2 es h
      intro he
      subst he
      cases es2 with
      | nil => exact h2 rfl
      | cons e es2 =>
        have := h3 e.element (by simp)
        simp at this

/-- The tokens of a string of the grammar are processed into at least one
entry exactly when there is a token, every symbol is a catalog symbol and
the distinct symbols number at most `MAX_ATOMS_PER_MOLECULE`. -/
theorem fold_tokens_some_iff (p : List Nat) (ts : List Token) (hp : Lexed p ts) :
    (∃ es, fold_tokens ts [] = some es ∧ es ≠ []) ↔
      ts ≠ [] ∧ (∀ t ∈ ts, is_catalog_symbol t.symbol = true) ∧
        ((ts.map Token.symbol).dedup).length ≤ MAX_ATOMS_PER_MOLECULE := by
  have hcand := lexed_tokens p ts hp
  constructor
  · rintro ⟨es, hf, hne⟩
    obtain ⟨hnd, _, hlen, hv⟩ := fold_tokens_entries p ts hp es hf
    obtain ⟨_, hcov⟩ := fold_tokens_covers ts [] es hf
    refine ⟨?_, ?_, ?_⟩
    · intro h0
      subst h0
      simp only [fold_tokens] at hf
      cases hf
      exact hne rfl
    · intro t ht
      obtain ⟨el, hel, _⟩ := hcov t ht
      cases hk : is_catalog_symbol t.symbol with
      | true => rfl
      | false =>
        rw [(element_by_symbol_none_iff _ (hcand t ht).1).mpr hk] at hel
        cases hel
    · rw [← List.card_toFinset]
      have hsub : (ts.map Token.symbol).toFinset ⊆
          (es.map (fun e => symbol_of e.element)).toFinset := by
        intro x hx
        rw [List.mem_toFinset] at hx ⊢
        obtain ⟨t, ht, rfl⟩ := List.mem_map.mp hx
        obtain ⟨el, hel, hmem⟩ := hcov t ht
        obtain ⟨e, he, heq⟩ := List.mem_map.mp hmem
        refine List.mem_map.mpr ⟨e, he, ?_⟩
        show symbol_of e.element = t.symbol
        rw [heq]
        exact (element_by_symbol_sound _ _ (hcand t ht).1 hel).2
      refine le_trans (Finset.card_le_card hsub) ?_
      refine le_trans (List.toFinset_card_le _) ?_
      rw [List.length_map]; exact hlen
  · rintro ⟨hne, hk, hlen⟩
    obtain ⟨es, hf⟩ := fold_tokens_fits ts [] (by simp) (by simp)
      (fun t ht => ⟨(hcand t ht).1, hk t ht⟩)
      (by simpa [List.card_toFinset] using hlen)
    refine ⟨es, hf, ?_⟩
    cases ts with
    | nil => exact absurd rfl hne
    | cons t ts => exact fold_tokens_nonempty t ts es hf

/-! ## Counts as sums over the tokens -/

theorem count_of_cons (el : Nat) (e : ElementCount) (es : List ElementCount) :
    count_of el (e :: es) = (if e.element = el then e.count else 0) + count_of el es := by
  unfold count_of
  by_cases h : e.element = el
  · simp [List.filter_cons, h]
  · simp [List.filter_cons, h]

theorem count_of_append (el : Nat) (es1 es2 : List ElementCount) :
    count_of el (es1 ++ es2) = count_of el es1 + count_of el es2 := by
  unfold count_of
  simp [List.filter_append]

theorem update_existing_count_of (el : Nat) (n : Int) (es es1 : List ElementCount)
    (h : update_existing el n es = some es1) (x : Nat) :
    count_of x es1 = count_of x es + (if x = el then n else 0) := by
  induction es generalizing es1 with
  | nil => simp [update_existing] at h
  | cons e es ih =>
    unfold update_existing at h
    split at h
    · rename_i he
      cases h
      rw [count_of_cons, count_of_cons]
      by_cases hx : x = el
      · subst hx
        simp only [he, if_true]; omega
      · have : ¬ e.element = x := fun h2 => hx (h2 ▸ he)
        simp only [this, if_false, hx]; omega
    · rename_i he
      cases hu : update_existing el n es with
      | none => rw [hu] at h; cases h
      | some es2 =>
        rw [hu] at h
        simp only [Option.map_some'] at h
        cases h
        rw [count_of_cons, count_of_cons, ih es2 hu]
        omega

theorem add_entry_count_of (el : Nat) (n : Int) (es es1 : List ElementCount)
    (h : add_entry el n es = some es1) (x : Nat) :
    count_of x es1 = count_of x es + (if x = el then n else 0) := by
  rcases add_entry_cases el n es es1 h with ⟨_, h2, _⟩ | ⟨_, _, h3⟩
  · exact update_existing_count_of el n es es1 h2 x
  · subst h3
    rw [count_of_append, count_of_cons]
    by_cases hx : x = el
    · subst hx; simp [count_of]
    · have : ¬ el = x := fun h2 => hx h2.symm
      simp [count_of, this, hx]

theorem recorded_count_eq (t : Token) :
    recorded_count t = token_count (digits_value t.digits) := by
  unfold recorded_count token_count
  by_cases h1 : t.digits = []
  · simp [h1, digits_value, digits_value_from]
  · by_cases h2 : digits_value t.digits = 0
    · simp [h2]
    · simp [h1, h2]

theorem token_total_cons (count : Token → Int) (t : Token) (ts : List Token) (el : Nat) :
    token_total count (t :: ts) el =
      (if t.symbol = symbol_of el then count t else 0) + token_total count ts el := by
  unfold token_total
  by_cases h : t.symbol = symbol_of el
  · simp [List.filter_cons, h]
  · simp [List.filter_cons, h]

/-- After the tokens are processed, the total stored for a catalog element has
grown by the sum of the recorded counts of its tokens. -/
theorem fold_tokens_count_of (ts : List Token) : ∀ acc es : List ElementCount,
    (∀ t ∈ ts, is_candidate t.symbol = true) → fold_tokens ts acc = some es →
    ∀ x, x < NUM_ELEMENTS →
      count_of x es = count_of x acc + token_total recorded_count ts x := by
  induction ts with
  | nil =>
    intro acc es _ h x _
    simp only [fold_tokens] at h
    cases h
    simp [token_total]
  | cons t ts ih =>
    intro acc es hc h x hx
    unfold fold_tokens at h
    cases hel : element_by_symbol t.symbol with
    | none => rw [hel] at h; cases h
    | some el =>
      rw [hel] at h
      simp only [] at h
      cases hadd : add_entry el (token_count (digits_value t.digits)) acc with
      | none => rw [hadd] at h; cases h
      | some es2 =>
        rw [hadd] at h
        simp only [] at h
        have hsound := element_by_symbol_sound t.symbol el (hc t (List.mem_cons_self t ts)) hel
        rw [ih es2 es (fun t2 ht2 => hc t2 (List.mem_cons_of_mem t ht2)) h x hx,
          add_entry_count_of el _ acc es2 hadd x, token_total_cons, recorded_count_eq]
        have hiff : x = el ↔ t.symbol = symbol_of x := by
          constructor
          · intro h1; subst h1; exact hsound.2.symm
          · intro h1
            exact symbol_of_injective x el hx hsound.1 (by rw [← h1, hsound.2])
        by_cases h1 : x = el
        · simp only [h1, if_true, hiff.mp h1 ▸ hsound.2.symm]
          have : t.symbol = symbol_of el := hsound.2.symm
          simp only [this, if_true]; omega
        · have h2 : ¬ t.symbol = symbol_of x := fun h3 => h1 (hiff.mpr h3)
          simp only [h1, h2, if_false]; omega

theorem count_of_absent (el : Nat) (es : List ElementCount)
    (h : ∀ e ∈ es, e.element ≠ el) : count_of el es = 0 := by
  induction es with
  | nil => rfl
  | cons e es ih =>
    rw [count_of_cons, ih (fun x hx => h x (List.mem_cons_of_mem e hx))]
    simp [h e (List.mem_cons_self e es)]

theorem count_of_mem (es : List ElementCount) (e : ElementCount)
    (hnd : (es.map ElementCount.element).Nodup) (he : e ∈ es) :
    count_of e.element es = e.count := by
  induction es with
  | nil => cases he
  | cons a es ih =>
    rw [List.map_cons, List.nodup_cons] at hnd
    rw [count_of_cons]
    rcases List.mem_cons.mp he with h | h
    · subst h
      rw [count_of_absent]
      · simp
      · intro x hx heq
        exact hnd.1 (heq ▸ List.mem_map_of_mem _ hx)
    · have hne : ¬ a.element = e.element := by
        intro heq
        exact hnd.1 (heq ▸ List.mem_map_of_mem _ h)
      simp only [hne, if_false, zero_add]
      exact ih hnd.2 h

/-- Whichever way an accepted string is read as whitespace, digit run and a
string of the grammar, the entries of the result are those `fold_tokens`
makes of its tokens. -/
theorem formula_parse_accept_tokens (ws ds p : List Nat) (ts : List Token) (f : Formula)
    (h : formula_parse (ws ++ ds ++ p) = .accept f) (hw : ∀ c ∈ ws, isspace c = true)
    (hd : ∀ c ∈ ds, isdigit c = true) (hp : Lexed p ts) :
    fold_tokens ts [] = some f.elements := by
  rw [formula_parse_of_lexed ws ds p ts hw hd hp, parse_body_of_lexed p ts hp] at h
  simp only [] at h
  cases hf : fold_tokens ts [] with
  | none => rw [hf] at h; cases h
  | some es =>
    rw [hf] at h
    simp only [] at h
    obtain ⟨_, h2⟩ := (finish_accept_iff _ _).mp h
    rw [h2]

/-! ## Serialisation and re-parsing -/

theorem digits_value_from_append (ds : List Nat) (d : Nat) (n : Int) :
    digits_value_from n (ds ++ [d]) = digits_value_from n ds * 10 + ((d : Int) - 48) := by
  simp [digits_value_from, List.foldl_append]

/-- The text of `%d` for a non-negative number is a non-empty digit run whose
value is the number. -/
theorem decimal_aux_spec (fuel : Nat) : ∀ n : Nat, n < fuel →
    ∃ ds : List Nat, ds ≠ [] ∧ (∀ c ∈ ds, isdigit c = true) ∧
      digits_value_from 0 ds = (n : Int) ∧ ∀ acc, decimal_aux fuel n acc = ds ++ acc := by
  induction fuel with
  | zero => intro n h; omega
  | succ fuel ih =>
    intro n h
    by_cases hn : n < 10
    · refine ⟨[48 + n], by simp, ?_, ?_, ?_⟩
      · intro c hc
        simp only [List.mem_singleton] at hc
        subst hc
        simp only [isdigit, Bool.and_eq_true, decide_eq_true_eq]
        omega
      · show (0 : Int) * 10 + (((48 + n : Nat) : Int) - 48) = (n : Int)
        omega
      · intro acc
        simp [decimal_aux, hn]
    · obtain ⟨ds, h1, h2, h3, h4⟩ := ih (n / 10) (by omega)
      refine ⟨ds ++ [48 + n % 10], by simp, ?_, ?_, ?_⟩
      · intro c hc
        rcases List.mem_append.mp hc with hc | hc
        · exact h2 c hc
        · simp only [List.mem_singleton] at hc
          subst hc
          simp only [isdigit, Bool.and_eq_true, decide_eq_true_eq]
          omega
      · rw [digits_value_from_append, h3]
        omega
      · intro acc
        simp only [decimal_aux, hn, if_false]
        rw [h4]
        simp

theorem decimal_spec (n : Nat) :
    decimal n ≠ [] ∧ (∀ c ∈ decimal n, isdigit c = true) ∧
      digits_value (decimal n) = (n : Int) := by
  obtain ⟨ds, h1, h2, h3, h4⟩ := decimal_aux_spec (n + 1) n (by omega)
  have : decimal n = ds := by
    unfold decimal
    rw [h4]; simp
  rw [this]
  exact ⟨h1, h2, h3⟩

theorem write_entries_text (es : List ElementCount) : ∀ (out : List Nat) (remaining : Nat)
    (text : List Nat), write_entries es out remaining = some text →
    text = out ++ entries_text es := by
  induction es with
  | nil =>
    intro out remaining text h
    simp only [write_entries] at h
    cases h
    simp [entries_text]
  | cons e es ih =>
    intro out remaining text h
    unfold write_entries at h
    split at h
    · cases h
    · rw [ih _ _ _ h, entries_text, List.append_assoc]

/-- The string `formula_to_string` leaves in the buffer when it succeeds:
the coefficient when it exceeds 1, then the entries. -/
theorem formula_to_string_text (f : Formula) (n : Nat) (text : List Nat)
    (h : formula_to_string f n = some text) :
    text = (if f.coefficient > 1 then decimal f.coefficient.toNat else []) ++
      entries_text f.elements := by
  unfold formula_to_string at h
  split at h
  · cases h
  · split at h
    · rename_i hc
      split at h
      · cases h
      · rw [write_entries_text _ _ _ _ h]
        simp [hc]
    · rename_i hc
      rw [write_entries_text _ _ _ _ h]
      simp [hc]

theorem candidate_cases (sym : List Nat) (h : is_candidate sym = true) :
    (∃ u, sym = [u] ∧ isupper u = true) ∨
      ∃ u l, sym = [u, l] ∧ isupper u = true ∧ islower l = true := by
  match sym, h with
  | [u], h => exact Or.inl ⟨u, rfl, by simpa [is_candidate] using h⟩
  | [u, l], h =>
    simp only [is_candidate, Bool.and_eq_true] at h
    exact Or.inr ⟨u, l, rfl, h.1, h.2⟩

theorem entry_token_symbol (e : ElementCount) :
    (entry_token e).symbol = symbol_of e.element := by
  unfold entry_token
  rfl

theorem entry_text_eq (e : ElementCount) :
    entry_text e = (entry_token e).symbol ++ (entry_token e).digits := by
  unfold entry_text entry_token
  split <;> simp

theorem entry_token_digits (e : ElementCount) :
    ∀ c ∈ (entry_token e).digits, isdigit c = true := by
  unfold entry_token
  simp only []
  split
  · exact (decimal_spec _).2.1
  · intro c hc; cases hc

theorem starts_with_digits (P : Nat → Bool) (ds : List Nat)
    (hP : ∀ c, isdigit c = true → P c = false) (hd : ∀ c ∈ ds, isdigit c = true) :
    starts_with P ds = false := by
  cases ds with
  | nil => rfl
  | cons c ds => exact hP c (hd c (List.mem_cons_self c ds))

theorem entries_text_head (es : List ElementCount)
    (hv : ∀ e ∈ es, e.element < NUM_ELEMENTS) :
    starts_with islower (entries_text es) = false ∧
      starts_with isdigit (entries_text es) = false := by
  cases es with
  | nil => exact ⟨rfl, rfl⟩
  | cons e es =>
    have hc := symbol_of_candidate e.element (hv e (List.mem_cons_self e es))
    have hup : starts_with isupper (entries_text (e :: es)) = true := by
      rw [entries_text, entry_text_eq, List.append_assoc, entry_token_symbol]
      exact candidate_starts_upper _ _ hc
    exact ⟨(starts_with_upper_not _ hup).1, (starts_with_upper_not _ hup).2.1⟩

/-- The text written for the entries is a string of the grammar, with one
token for each entry. -/
theorem lexed_entries_text (es : List ElementCount)
    (hv : ∀ e ∈ es, e.element < NUM_ELEMENTS) :
    Lexed (entries_text es) (es.map entry_token) := by
  induction es with
  | nil => exact Lexed.nil
  | cons e es ih =>
    have hv2 : ∀ x ∈ es, x.element < NUM_ELEMENTS := fun x hx => hv x (List.mem_cons_of_mem e hx)
    have hrest := ih hv2
    obtain ⟨hl, hd⟩ := entries_text_head es hv2
    have hdig := entry_token_digits e
    have hc := symbol_of_candidate e.element (hv e (List.mem_cons_self e es))
    rw [entries_text, entry_text_eq, List.map_cons, List.append_assoc]
    have hsym := entry_token_symbol e
    generalize entry_token e = t at hsym hdig
    cases t with
    | mk sym dg =>
      simp only [] at hsym hdig ⊢
      subst hsym
      rcases candidate_cases _ hc with ⟨u, hu1, hu2⟩ | ⟨u, l, hu1, hu2, hu3⟩
      · rw [hu1]
        exact Lexed.upper1 u _ _ _ hu2 hdig
          (starts_with_append_false _ _ _ (starts_with_digits _ _ not_lower_of_digit hdig) hl)
          hd hrest
      · rw [hu1]
        exact Lexed.upper2 u l _ _ _ hu2 hu3 hdig hd hrest

theorem add_entry_new (el : Nat) (n : Int) (es : List ElementCount)
    (h1 : el ∉ es.map ElementCount.element) (h2 : es.length < MAX_ATOMS_PER_MOLECULE) :
    add_entry el n es = some (es ++ [{ element := el, count := n }]) := by
  unfold add_entry
  rw [(update_existing_none_iff el n es).mpr h1]
  simp only []
  have : ¬ es.length ≥ MAX_ATOMS_PER_MOLECULE := by omega
  simp [this]

theorem entry_token_count (e : ElementCount) (h : 1 ≤ e.count) :
    token_count (digits_value (entry_token e).digits) = e.count := by
  unfold entry_token token_count
  simp only []
  by_cases hc : e.count > 1
  · simp only [hc, if_true]
    rw [(decimal_spec _).2.2]
    have : ((e.count.toNat : Nat) : Int) = e.count := Int.toNat_of_nonneg (by omega)
    rw [this]
    have : ¬ e.count = 0 := by omega
    simp [this]
  · simp only [hc, if_false]
    have : e.count = 1 := by omega
    simp [digits_value, digits_value_from, this]

/-- Processing the tokens written for entries of distinct elements appends
exactly these entries. -/
theorem fold_tokens_entry_tokens (es : List ElementCount) : ∀ acc : List ElementCount,
    ((acc ++ es).map ElementCount.element).Nodup →
    (acc ++ es).length ≤ MAX_ATOMS_PER_MOLECULE →
    (∀ e ∈ es, 1 ≤ e.count ∧ e.element < NUM_ELEMENTS) →
    fold_tokens (es.map entry_token) acc = some (acc ++ es) := by
  induction es with
  | nil => intro acc _ _ _; simp [fold_tokens]
  | cons e es ih =>
    intro acc hnd hlen hv
    obtain ⟨hcount, hvalid⟩ := hv e (List.mem_cons_self e es)
    rw [List.map_cons, fold_tokens, entry_token_symbol, element_by_symbol_symbol_of _ hvalid]
    simp only []
    rw [entry_token_count e hcount]
    have hnot : e.element ∉ acc.map ElementCount.element := by
      intro hmem
      rw [List.map_append, List.map_cons] at hnd
      have := (List.nodup_append.mp hnd).2.2
      exact this hmem (List.mem_cons_self _ _)
    have hlt : acc.length < MAX_ATOMS_PER_MOLECULE := by
      simp only [List.length_append, List.length_cons] at hlen
      omega
    rw [add_entry_new _ _ _ hnot hlt]
    simp only []
    have he : ({ element := e.element, count := e.count } : ElementCount) = e := by
      cases e; rfl
    rw [he]
    have happ : acc ++ [e] ++ es = acc ++ e :: es := by simp
    rw [ih (acc ++ [e]) (by rw [happ]; exact hnd) (by rw [happ]; exact hlen)
      (fun x hx => hv x (List.mem_cons_of_mem e hx)), happ]

/-! ## The lookup as an exact match -/

theorem ci_match_candidates_iff (a b : List Nat) (ha : is_candidate a = true)
    (hb : is_candidate b = true) : ci_match a b = true ↔ a = b := by
  constructor
  · exact ci_match_candidates a b ha hb
  · intro h
    rw [h]
    exact ci_match_refl b

theorem element_by_symbol_from_exact (sym : List Nat) (hc : is_candidate sym = true) :
    ∀ (tbl : List Element) (i : Nat), (∀ e ∈ tbl, is_candidate (cstr e.symbol) = true) →
      element_by_symbol_from sym tbl i = exact_match_from sym tbl i := by
  intro tbl
  induction tbl with
  | nil => intro i _; rfl
  | cons e tbl ih =>
    intro i h
    have he := h e (List.mem_cons_self e tbl)
    unfold element_by_symbol_from exact_match_from
    by_cases hm : cstr e.symbol = sym
    · rw [(ci_match_candidates_iff _ _ he hc).mpr hm]
      simp [hm]
    · have hm2 : ci_match (cstr e.symbol) sym = false := by
        cases hcm : ci_match (cstr e.symbol) sym with
        | false => rfl
        | true => exact absurd ((ci_match_candidates_iff _ _ he hc).mp hcm) hm
      rw [hm2]
      simp only [Bool.false_eq_true, if_false, hm]
      exact ih (i + 1) (fun x hx => h x (List.mem_cons_of_mem e hx))

/-! ## The scan of the reaction database -/

theorem find_from_some (q : List Formula) : ∀ (rs : List Reaction) (i k : Nat),
    find_from q rs i = some k ↔
      i ≤ k ∧ (∃ r, rs[k - i]? = some r ∧ formulas_match_set q r.reactants = true) ∧
        ∀ j, j < k - i → ∀ r, rs[j]? = some r → formulas_match_set q r.reactants = false := by
  intro rs
  induction rs with
  | nil =>
    intro i k
    simp [find_from]
  | cons r rs ih =>
    intro i k
    unfold find_from
    by_cases hm : formulas_match_set q r.reactants = true
    · simp only [hm, if_true, Option.some.injEq]
      constructor
      · intro h
        subst h
        refine ⟨Nat.le_refl _, ⟨r, by simp, hm⟩, ?_⟩
        intro j hj
        omega
      · rintro ⟨h1, _, h3⟩
        by_contra hne
        have hpos : 0 < k - i := by omega
        have := h3 0 hpos r (by simp)
        rw [hm] at this
        cases this
    · have hm2 : formulas_match_set q r.reactants = false := by simpa using hm
      simp only [hm2, Bool.false_eq_true, if_false]
      rw [ih (i + 1) k]
      constructor
      · rintro ⟨h1, ⟨r2, h2, h3⟩, h4⟩
        have hk : k - i = (k - (i + 1)) + 1 := by omega
        refine ⟨by omega, ⟨r2, by rw [hk, List.getElem?_cons_succ]; exact h2, h3⟩, ?_⟩
        intro j hj r3 hr3
        cases j with
        | zero =>
          simp only [List.getElem?_cons_zero, Option.some.injEq] at hr3
          subst hr3; exact hm2
        | succ j =>
          rw [List.getElem?_cons_succ] at hr3
          exact h4 j (by omega) r3 hr3
      · rintro ⟨h1, ⟨r2, h2, h3⟩, h4⟩
        have hne : k ≠ i := by
          intro h
          subst h
          simp only [Nat.sub_self, List.getElem?_cons_zero, Option.some.injEq] at h2
          subst h2
          rw [h3] at hm2
          cases hm2
        have hk : k - i = (k - (i + 1)) + 1 := by omega
        rw [hk, List.getElem?_cons_succ] at h2
        refine ⟨by omega, ⟨r2, h2, h3⟩, ?_⟩
        intro j hj r3 hr3
        exact h4 (j + 1) (by omega) r3 (by rw [List.getElem?_cons_succ]; exact hr3)

theorem find_from_none (q : List Formula) : ∀ (rs : List Reaction) (i : Nat),
    find_from q rs i = none ↔ ∀ r ∈ rs, formulas_match_set q r.reactants = false := by
  intro rs
  induction rs with
  | nil => intro i; simp [find_from]
  | cons r rs ih =>
    intro i
    unfold find_from
    by_cases hm : formulas_match_set q r.reactants = true
    · simp [hm]
    · have hm2 : formulas_match_set q r.reactants = false := by simpa using hm
      simp [hm2, ih (i + 1)]

/-! ## `formula_equals` as a matching of entries -/

theorem same_entry_eq (a b : ElementCount) (h : same_entry a b) : a = b := by
  cases a; cases b
  obtain ⟨h1, h2⟩ := h
  simp only [] at h1 h2
  subst h1; subst h2; rfl

theorem forall₂_same_entry (es ms : List ElementCount)
    (h : List.Forall₂ same_entry es ms) : ms = es := by
  induction h with
  | nil => rfl
  | cons hab _ ih => rw [ih, same_entry_eq _ _ hab]

theorem forall₂_same_entry_refl (es : List ElementCount) :
    List.Forall₂ same_entry es es := by
  induction es with
  | nil => exact List.Forall₂.nil
  | cons e es ih => exact List.Forall₂.cons ⟨rfl, rfl⟩ ih

theorem one_to_one_matching_iff (es1 es2 : List ElementCount) :
    one_to_one_matching es1 es2 ↔ es1.Subperm es2 := by
  constructor
  · rintro ⟨ms, h1, h2⟩
    rw [forall₂_same_entry es1 ms h1] at h2
    exact h2
  · intro h
    exact ⟨es1, forall₂_same_entry_refl es1, h⟩

theorem first_count_some_mem (el : Nat) (c : Int) (es : List ElementCount)
    (h : first_count el es = some c) : ElementCount.mk el c ∈ es := by
  induction es with
  | nil => simp [first_count] at h
  | cons e es ih =>
    unfold first_count at h
    split at h
    · rename_i he
      cases h
      cases e
      simp only [] at he
      subst he
      exact List.mem_cons_self _ _
    · exact List.mem_cons_of_mem e (ih h)

theorem equals_from_iff (es2 : List ElementCount) (es1 : List ElementCount) :
    equals_from es2 es1 = true ↔
      ∀ e ∈ es1, first_count e.element es2 = some e.count := by
  induction es1 with
  | nil => simp [equals_from]
  | cons e es1 ih =>
    unfold equals_from
    cases hfc : first_count e.element es2 with
    | none =>
      simp only [Bool.false_eq_true, false_iff]
      intro h
      have := h e (List.mem_cons_self e es1)
      rw [hfc] at this
      cases this
    | some c =>
      simp only []
      by_cases hc : e.count = c
      · subst hc
        simp only [bne_self_eq_false, Bool.false_eq_true, if_false, ih, List.mem_cons,
          forall_eq_or_imp, hfc, true_and]
      · have hne : (e.count != c) = true := by simpa using hc
        simp only [hne, if_true, Bool.false_eq_true, false_iff]
        intro h
        have := h e (List.mem_cons_self e es1)
        rw [hfc] at this
        exact hc (Option.some.inj this).symm

/-- What `formula_equals` computes on any two formulas: the same number of
entries, and for every entry of `f1` the first entry of `f2` with that
element has the same count. -/
theorem formula_equals_iff (f1 f2 : Formula) :
    formula_equals f1 f2 = true ↔
      f1.elements.length = f2.elements.length ∧
        ∀ e ∈ f1.elements, first_count e.element f2.elements = some e.count := by
  unfold formula_equals
  by_cases hl : f1.elements.length = f2.elements.length
  · simp only [hl, bne_self_eq_false, Bool.false_eq_true, if_false, true_and]
    exact equals_from_iff _ _
  · have hne : (f1.elements.length != f2.elements.length) = true := by simpa using hl
    simp [hne, hl]

theorem first_count_mem (es1 es2 : List ElementCount)
    (h : ∀ e ∈ es1, first_count e.element es2 = some e.count) : es1 ⊆ es2 := by
  intro e he
  have := first_count_some_mem _ _ _ (h e he)
  cases e
  exact this

/-- When `f1` and `f2` have no duplicate elements, `formula_equals` holds
exactly when they have the same entries as sets. -/
theorem formula_equals_iff_same_set (f1 f2 : Formula) (h1 : no_duplicates f1)
    (h2 : no_duplicates f2) :
    formula_equals f1 f2 = true ↔ ∀ e, e ∈ f1.elements ↔ e ∈ f2.elements := by
  rw [formula_equals_iff]
  have n1 : f1.elements.Nodup := List.Nodup.of_map _ h1
  have n2 : f2.elements.Nodup := List.Nodup.of_map _ h2
  constructor
  · rintro ⟨hl, hf⟩
    have hsub := first_count_mem _ _ hf
    have hperm := (List.subperm_of_subset n1 hsub).perm_of_length_le (by omega)
    exact fun e => hperm.mem_iff
  · intro h
    have hperm := (List.perm_ext_iff_of_nodup n1 n2).mpr h
    exact ⟨hperm.length_eq, fun e he => first_count_of_mem _ e h2 ((h e).mp he)⟩

/-! ## The greedy matching of `formulas_match_set` -/

theorem element_found_iff (el : Nat) (es : List ElementCount) :
    element_found el es = true ↔ el ∈ es.map ElementCount.element := by
  induction es with
  | nil => simp [element_found]
  | cons e es ih =>
    unfold element_found
    by_cases h : el = e.element
    · simp [h]
    · simp [h, ih]

theorem all_elements_found_iff (es2 es1 : List ElementCount) :
    all_elements_found es2 es1 = true ↔
      ∀ e ∈ es1, e.element ∈ es2.map ElementCount.element := by
  induction es1 with
  | nil => simp [all_elements_found]
  | cons e es1 ih =>
    unfold all_elements_found
    by_cases h : element_found e.element es2 = true
    · simp only [h, Bool.not_true, Bool.false_eq_true, if_false, ih, List.mem_cons,
        forall_eq_or_imp, (element_found_iff _ _).mp h, true_and]
    · have h2 : element_found e.element es2 = false := by simpa using h
      have h3 : ¬ e.element ∈ es2.map ElementCount.element :=
        fun hm => h ((element_found_iff _ _).mpr hm)
      simp only [h2, Bool.not_false, if_true, Bool.false_eq_true, false_iff]
      intro hall
      exact h3 (hall e (List.mem_cons_self e es1))

/-- On formulas without duplicate elements the comparison made by
`formulas_match_set` is equality of the sets of elements. -/
theorem composition_matches_iff (f g : Formula) (hf : no_duplicates f) (hg : no_duplicates g) :
    composition_matches f g = true ↔ same_elements f g := by
  unfold composition_matches
  by_cases hl : f.elements.length = g.elements.length
  · simp only [hl, if_true]
    rw [all_elements_found_iff]
    constructor
    · intro hsub
      have hss : f.elements.map ElementCount.element ⊆ g.elements.map ElementCount.element := by
        intro x hx
        obtain ⟨e, he, rfl⟩ := List.mem_map.mp hx
        exact hsub e he
      have hperm := (List.subperm_of_subset hf hss).perm_of_length_le
        (by rw [List.length_map, List.length_map]; omega)
      exact fun x => hperm.mem_iff
    · intro hS e he
      exact (hS e.element).mp (List.mem_map_of_mem _ he)
  · simp only [hl, if_false, Bool.false_eq_true, false_iff]
    intro hS
    have hperm := (List.perm_ext_iff_of_nodup hf hg).mpr hS
    have := hperm.length_eq
    rw [List.length_map, List.length_map] at this
    exact hl this

theorem unused_subset : ∀ (set2 : List Formula) (used : List Bool),
    ∀ g ∈ unused set2 used, g ∈ set2 := by
  intro set2
  induction set2 with
  | nil => intro used g hg; cases used <;> simp [unused] at hg
  | cons a set2 ih =>
    intro used g hg
    cases used with
    | nil => simp [unused] at hg
    | cons u used =>
      unfold unused at hg
      split at hg
      · exact List.mem_cons_of_mem a (ih used g hg)
      · rcases List.mem_cons.mp hg with h | h
        · rw [h]; exact List.mem_cons_self a set2
        · exact List.mem_cons_of_mem a (ih used g h)

theorem unused_replicate : ∀ (set2 : List Formula) (n : Nat), set2.length ≤ n →
    unused set2 (List.replicate n false) = set2 := by
  intro set2
  induction set2 with
  | nil => intro n _; cases n <;> rfl
  | cons a set2 ih =>
    intro n h
    cases n with
    | zero => simp at h
    | succ n =>
      simp only [List.length_cons] at h
      simp only [List.replicate_succ, unused, Bool.false_eq_true, if_false,
        ih n (by omega)]

theorem mark_match_none (f : Formula) : ∀ (set2 : List Formula) (used : List Bool),
    mark_match f set2 used = none →
      ∀ g ∈ unused set2 used, composition_matches f g = false := by
  intro set2
  induction set2 with
  | nil => intro used _ g hg; cases used <;> simp [unused] at hg
  | cons a set2 ih =>
    intro used h g hg
    cases used with
    | nil => simp [unused] at hg
    | cons u used =>
      unfold mark_match at h
      unfold unused at hg
      by_cases hu : u = true
      · simp only [hu, if_true, Option.map_eq_none'] at h hg
        exact ih used h g hg
      · have hu2 : u = false := by simpa using hu
        subst hu2
        simp only [Bool.false_eq_true, if_false] at h hg
        by_cases hc : composition_matches f a = true
        · simp [hc] at h
        · have hc2 : composition_matches f a = false := by simpa using hc
          simp only [hc2, Bool.false_eq_true, if_false, Option.map_eq_none'] at h
          rcases List.mem_cons.mp hg with hga | hga
          · rw [hga]; exact hc2
          · exact ih used h g hga

theorem mark_match_some (f : Formula) : ∀ (set2 : List Formula) (used used1 : List Bool),
    mark_match f set2 used = some used1 →
      ∃ l1 g l2, unused set2 used = l1 ++ g :: l2 ∧ composition_matches f g = true ∧
        unused set2 used1 = l1 ++ l2 := by
  intro set2
  induction set2 with
  | nil => intro used used1 h; cases used <;> simp [mark_match] at h
  | cons a set2 ih =>
    intro used used1 h
    cases used with
    | nil => simp [mark_match] at h
    | cons u used =>
      unfold mark_match at h
      by_cases hu : u = true
      · subst hu
        simp only [if_true, Option.map_eq_some'] at h
        obtain ⟨r, hr, hr2⟩ := h
        subst hr2
        obtain ⟨l1, g, l2, h1, h2, h3⟩ := ih used r hr
        exact ⟨l1, g, l2, by simpa [unused] using h1, h2, by simpa [unused] using h3⟩
      · have hu2 : u = false := by simpa using hu
        subst hu2
        simp only [Bool.false_eq_true, if_false] at h
        by_cases hc : composition_matches f a = true
        · simp only [hc, if_true, Option.some.injEq] at h
          subst h
          exact ⟨[], a, unused set2 used, by simp [unused], hc, by simp [unused]⟩
        · have hc2 : composition_matches f a = false := by simpa using hc
          simp only [hc2, Bool.false_eq_true, if_false, Option.map_eq_some'] at h
          obtain ⟨r, hr, hr2⟩ := h
          subst hr2
          obtain ⟨l1, g, l2, h1, h2, h3⟩ := ih used r hr
          exact ⟨a :: l1, g, l2, by simp [unused, h1], h2, by simp [unused, h3]⟩

theorem perm_cons_erase_ne (a b : Formula) (X Y : List Formula)
    (h : (a :: X).Perm (b :: Y)) (hne : a ≠ b) : X.Perm (b :: Y.erase a) := by
  have := h.erase a
  rw [List.erase_cons_head] at this
  have hba : ¬ (b == a) = true := by
    intro hb
    have hba2 : b = a := by simpa using hb
    exact hne hba2.symm
  rw [List.erase_cons_tail hba] at this
  exact this

/-- In a pairing, a partner `g` can be exchanged for `g2` when everything
paired with `g` may be paired with `g2`. -/
theorem forall₂_exchange (g g2 : Formula)
    (hx : ∀ x, same_elements x g → same_elements x g2) :
    ∀ (A L : List Formula), List.Forall₂ same_elements A L → g ∈ L →
      ∃ L1, List.Forall₂ same_elements A L1 ∧ (g2 :: L.erase g).Perm L1 := by
  intro A L h
  induction h with
  | nil => intro hg; cases hg
  | @cons x y A L hxy hrest ih =>
    intro hg
    by_cases hy : y = g
    · subst hy
      exact ⟨g2 :: L, List.Forall₂.cons (hx x hxy) hrest, by rw [List.erase_cons_head]⟩
    · have hg2 : g ∈ L := by
        rcases List.mem_cons.mp hg with h | h
        · exact absurd h.symm hy
        · exact h
      obtain ⟨L1, h1, h2⟩ := ih hg2
      refine ⟨y :: L1, List.Forall₂.cons hxy h1, ?_⟩
      have hyg : ¬ (y == g) = true := by
        intro hb
        exact hy (by simpa using hb)
      rw [List.erase_cons_tail hyg]
      exact (List.Perm.swap y g2 _).trans (h2.cons y)

/-- The greedy loop succeeds exactly when the formulas of `A` can be paired
with distinct unused formulas of `set2`. -/
theorem match_from_iff (set2 : List Formula) (hs2 : ∀ g ∈ set2, no_duplicates g) :
    ∀ (A : List Formula) (used : List Bool), (∀ f ∈ A, no_duplicates f) →
      (match_from set2 A used = true ↔
        ∃ L M, (unused set2 used).Perm (L ++ M) ∧ List.Forall₂ same_elements A L) := by
  intro A
  induction A with
  | nil =>
    intro used _
    simp only [match_from, true_iff]
    exact ⟨[], unused set2 used, by simp, List.Forall₂.nil⟩
  | cons f A ih =>
    intro used hA
    have hf := hA f (List.mem_cons_self f A)
    have hA2 : ∀ x ∈ A, no_duplicates x := fun x hx => hA x (List.mem_cons_of_mem f hx)
    unfold match_from
    cases hm : mark_match f set2 used with
    | none =>
      simp only [Bool.false_eq_true, false_iff]
      rintro ⟨L, M, hp, hfa⟩
      cases hfa with
      | @cons _ g2 _ L0 hfg hrest =>
        have hmem : g2 ∈ unused set2 used := hp.mem_iff.mpr (by simp)
        have h1 := mark_match_none f set2 used hm g2 hmem
        have h2 := (composition_matches_iff f g2 hf
          (hs2 g2 (unused_subset set2 used g2 hmem))).mpr hfg
        rw [h1] at h2
        cases h2
    | some used1 =>
      simp only []
      obtain ⟨l1, g, l2, hu, hfg, hu1⟩ := mark_match_some f set2 used used1 hm
      have hgmem : g ∈ unused set2 used := by rw [hu]; simp
      have hS : same_elements f g :=
        (composition_matches_iff f g hf (hs2 g (unused_subset set2 used g hgmem))).mp hfg
      rw [ih used1 hA2, hu, hu1]
      constructor
      · rintro ⟨L, M, hp, hfa⟩
        exact ⟨g :: L, M, List.perm_middle.trans (hp.cons g), List.Forall₂.cons hS hfa⟩
      · rintro ⟨L, M, hp, hfa⟩
        cases hfa with
        | @cons _ g2 _ L0 hfg2 hrest =>
          have hp2 : (g :: (l1 ++ l2)).Perm (g2 :: (L0 ++ M)) := List.perm_middle.symm.trans hp
          by_cases hgg : g = g2
          · subst hgg
            exact ⟨L0, M, hp2.cons_inv, hrest⟩
          · have hX := perm_cons_erase_ne g g2 _ _ hp2 hgg
            by_cases hin : g ∈ L0
            · obtain ⟨L1, h1, h2⟩ := forall₂_exchange g g2
                (fun x hxg y => (hxg y).trans ((hS y).symm.trans (hfg2 y))) A L0 hrest hin
              rw [List.erase_append_left _ hin] at hX
              exact ⟨L1, M, hX.trans (h2.append_right M), h1⟩
            · rw [List.erase_append_right _ hin] at hX
              exact ⟨L0, g2 :: M.erase g, hX.trans List.perm_middle.symm, hrest⟩

/-- The function `formulas_match_set` on formulas without duplicate elements:
equal lengths and a bijection that pairs formulas with the same set of
elements. -/
theorem formulas_match_set_iff (A B : List Formula) (hlen : B.length ≤ MAX_REACTANTS)
    (hA : ∀ f ∈ A, no_duplicates f) (hB : ∀ g ∈ B, no_duplicates g) :
    formulas_match_set A B = true ↔ A.length = B.length ∧ set_bijection A B := by
  unfold formulas_match_set set_bijection
  by_cases hl : A.length = B.length
  · simp only [hl, ne_eq, not_true_eq_false, if_false, true_and]
    rw [match_from_iff B hB A _ hA, unused_replicate B _ hlen]
    constructor
    · rintro ⟨L, M, hp, hfa⟩
      have h1 := hp.length_eq
      have h2 := hfa.length_eq
      rw [List.length_append] at h1
      have hM : M = [] := List.length_eq_zero.mp (by omega)
      subst hM
      rw [List.append_nil] at hp
      exact ⟨L, hp.symm, hfa⟩
    · rintro ⟨L, hp, hfa⟩
      exact ⟨L, [], by rw [List.append_nil]; exact hp.symm, hfa⟩
  · simp [hl]

/-! ## The seeded database -/

theorem ensure_init_start : ensure_init db_start = db_seeded := rfl

theorem ensure_init_seeded : ensure_init db_seeded = db_seeded := rfl

theorem ensure_init_reachable (db : Database) (h : db = db_start ∨ db = db_seeded) :
    ensure_init db = db_seeded := by
  rcases h with h | h <;> subst h
  · exact ensure_init_start
  · exact ensure_init_seeded

theorem ensure_init_idem (db : Database) : ensure_init (ensure_init db) = ensure_init db := by
  unfold ensure_init reaction_db_init
  cases h : db.reaction_db_initialized <;> simp [h]

set_option maxRecDepth 1000000 in
theorem seeded_reactants_ok :
    db_seeded.reaction_database.all (fun r =>
      decide (r.reactants.length ≤ MAX_REACTANTS) &&
        r.reactants.all (fun f => decide (no_duplicates f))) = true := by
  decide

theorem seeded_reactants (r : Reaction) (hr : r ∈ db_seeded.reaction_database) :
    r.reactants.length ≤ MAX_REACTANTS ∧ ∀ f ∈ r.reactants, no_duplicates f := by
  have := (List.all_eq_true.mp seeded_reactants_ok) r hr
  simp only [Bool.and_eq_true, decide_eq_true_eq, List.all_eq_true] at this
  exact this

theorem find_from_congr (q q2 : List Formula) : ∀ (rs : List Reaction) (i : Nat),
    (∀ r ∈ rs, formulas_match_set q r.reactants = formulas_match_set q2 r.reactants) →
      find_from q rs i = find_from q2 rs i := by
  intro rs
  induction rs with
  | nil => intro i _; rfl
  | cons r rs ih =>
    intro i h
    unfold find_from
    rw [h r (List.mem_cons_self r rs), ih (i + 1) (fun x hx => h x (List.mem_cons_of_mem r hx))]

theorem set_bijection_perm (q q2 B : List Formula) (hp : q.Perm q2)
    (h : set_bijection q B) : set_bijection q2 B := by
  obtain ⟨P, hPB, hfa⟩ := h
  obtain ⟨w, hw1, hw2⟩ := List.perm_comp_forall₂ hp.symm hfa
  exact ⟨w, hw2.trans hPB, hw1⟩

/-- On formulas without duplicate elements, `formulas_match_set` does not
depend on the order of its first list. -/
theorem formulas_match_set_perm (q q2 B : List Formula) (hp : q.Perm q2)
    (hq : ∀ f ∈ q, no_duplicates f) (hlen : B.length ≤ MAX_REACTANTS)
    (hB : ∀ g ∈ B, no_duplicates g) :
    formulas_match_set q B = formulas_match_set q2 B := by
  have hq2 : ∀ f ∈ q2, no_duplicates f := fun f hf => hq f (hp.mem_iff.mpr hf)
  rw [Bool.eq_iff_iff, formulas_match_set_iff q B hlen hq hB,
    formulas_match_set_iff q2 B hlen hq2 hB, hp.length_eq]
  constructor
  · rintro ⟨h1, h2⟩
    exact ⟨h1, set_bijection_perm q q2 B hp h2⟩
  · rintro ⟨h1, h2⟩
    exact ⟨h1, set_bijection_perm q2 q B hp.symm h2⟩

/-! ## The tokens of a reactant string -/

theorem skip_space_idem (t : List Nat) : skip_space (skip_space t) = skip_space t := by
  cases h : skip_space t with
  | nil => rfl
  | cons c q => exact skip_space_cons_other c q (skip_space_head t c q h)

theorem formula_parse_skip_space (t : List Nat) :
    formula_parse (skip_space t) = formula_parse t := by
  rw [formula_parse_eq (skip_space t), formula_parse_eq t, skip_space_idem]

theorem strip_split (r : List Nat) :
    ∃ w, (∀ x ∈ w, isspace x = true) ∧ r = (skip_space r.reverse).reverse ++ w := by
  obtain ⟨ws, h1, h2⟩ := skip_space_split r.reverse
  refine ⟨ws.reverse, fun x hx => h1 x (List.mem_reverse.mp hx), ?_⟩
  have := congrArg List.reverse h2
  rw [List.reverse_reverse, List.reverse_append] at this
  exact this

theorem formula_parse_trim_token (t : List Nat) :
    formula_parse (trim_token t) = formula_parse t := by
  unfold trim_token
  cases h : skip_space t with
  | nil =>
    simp only []
    rw [← formula_parse_skip_space t, h]
  | cons c r =>
    simp only []
    obtain ⟨w, hw, hr⟩ := strip_split r
    rw [← formula_parse_skip_space t, h]
    conv_rhs => rw [hr, ← List.cons_append]
    rw [formula_parse_append_spaces _ w hw]

theorem formula_parse_trim_both (t : List Nat) :
    formula_parse (trim_both t) = formula_parse t := by
  unfold trim_both
  obtain ⟨w, hw, hr⟩ := strip_split (skip_space t)
  rw [← formula_parse_skip_space t]
  conv_rhs => rw [hr]
  rw [formula_parse_append_spaces _ w hw]

theorem parse_option_trim_both (t : List Nat) :
    parse_option (trim_both t) = parse_option t := by
  unfold parse_option
  rw [formula_parse_trim_both]

theorem split_plus_plus (s : List Nat) : split_plus (43 :: s) = [] :: split_plus s := by
  simp [split_plus]

theorem split_plus_token (tok rest : List Nat) (h : ∀ c ∈ tok, c ≠ 43) :
    split_plus (tok ++ 43 :: rest) = tok :: split_plus rest := by
  induction tok with
  | nil => exact split_plus_plus rest
  | cons c tok ih =>
    have hc : c ≠ 43 := h c (List.mem_cons_self c tok)
    rw [List.cons_append, split_plus]
    simp only [hc, if_false]
    rw [ih (fun x hx => h x (List.mem_cons_of_mem c hx))]

theorem split_plus_single (tok : List Nat) (h : ∀ c ∈ tok, c ≠ 43) :
    split_plus tok = [tok] := by
  induction tok with
  | nil => rfl
  | cons c tok ih =>
    have hc : c ≠ 43 := h c (List.mem_cons_self c tok)
    rw [split_plus]
    simp only [hc, if_false]
    rw [ih (fun x hx => h x (List.mem_cons_of_mem c hx))]

theorem parse_option_nil : parse_option [] = none := by decide

theorem parsed_tokens_nil : parsed_tokens [] = [] := by
  simp [parsed_tokens, split_plus, parse_option_trim_both, parse_option_nil]

theorem parsed_tokens_plus (s : List Nat) : parsed_tokens (43 :: s) = parsed_tokens s := by
  simp [parsed_tokens, split_plus_plus, parse_option_trim_both, parse_option_nil]

theorem parsed_tokens_token (tok rest : List Nat) (h : ∀ c ∈ tok, c ≠ 43) :
    parsed_tokens (tok ++ 43 :: rest) =
      (match parse_option tok with
        | some f => [f]
        | none => []) ++ parsed_tokens rest := by
  unfold parsed_tokens
  rw [split_plus_token tok rest h, List.map_cons, List.filterMap_cons, parse_option_trim_both]
  cases parse_option tok <;> rfl

theorem parsed_tokens_single (tok : List Nat) (h : ∀ c ∈ tok, c ≠ 43) :
    parsed_tokens tok =
      (match parse_option tok with
        | some f => [f]
        | none => []) := by
  unfold parsed_tokens
  rw [split_plus_single tok h, List.map_cons, List.filterMap_cons, parse_option_trim_both]
  cases parse_option tok <;> rfl

theorem parsed_tokens_drop (p : List Nat) :
    parsed_tokens (p.dropWhile (fun c => c == 43)) = parsed_tokens p := by
  induction p with
  | nil => rfl
  | cons c p ih =>
    by_cases hc : c = 43
    · subst hc
      rw [parsed_tokens_plus]
      simpa [List.dropWhile_cons] using ih
    · simp [List.dropWhile_cons, hc]

theorem length_dropWhile_le_self (q : Nat → Bool) (l : List Nat) :
    (l.dropWhile q).length ≤ l.length := by
  induction l with
  | nil => simp
  | cons c l ih =>
    rw [List.dropWhile_cons]
    split
    · simp only [List.length_cons]; omega
    · exact Nat.le_refl _

theorem dropWhile_head (q : Nat → Bool) (l : List Nat) :
    l.dropWhile q = [] ∨ ∃ c r, l.dropWhile q = c :: r ∧ q c = false := by
  induction l with
  | nil => exact Or.inl rfl
  | cons c l ih =>
    rw [List.dropWhile_cons]
    by_cases hc : q c = true
    · simp only [hc, if_true]; exact ih
    · have hc2 : q c = false := by simpa using hc
      simp only [hc2, Bool.false_eq_true, if_false]
      exact Or.inr ⟨c, l, rfl, hc2⟩

/-- What one call of `strtok` finds: the token has no delimiter, the
position saved is shorter than the one it started from, and the formulas of
the text are the formula of the token, when it parses, followed by those of
the rest. -/
theorem strtok_some (p tok rest : List Nat) (h : strtok p = some (tok, rest)) :
    rest.length < p.length ∧
      parsed_tokens p =
        (match parse_option tok with
          | some f => [f]
          | none => []) ++ parsed_tokens rest := by
  unfold strtok at h
  have hlen := length_dropWhile_le_self (fun c => c == 43) p
  rw [← parsed_tokens_drop p]
  cases hl : p.dropWhile (fun c => c == 43) with
  | nil => rw [hl] at h; cases h
  | cons c q =>
    rw [hl] at h hlen
    simp only [Option.some.injEq, Prod.mk.injEq] at h
    obtain ⟨h1, h2⟩ := h
    have happ := List.takeWhile_append_dropWhile (fun d => d != 43) (c :: q)
    have htok : ∀ x ∈ tok, x ≠ 43 := by
      intro x hx
      rw [← h1] at hx
      simpa using List.mem_takeWhile_imp hx
    have hlen2 := length_dropWhile_le_self (fun d => d != 43) (c :: q)
    rw [h1] at happ
    rcases dropWhile_head (fun d => d != 43) (c :: q) with hd | ⟨d, r, hd, hq⟩
    · rw [hd] at happ h2
      simp only [List.tail_nil] at h2
      subst h2
      rw [List.append_nil] at happ
      rw [← happ, parsed_tokens_nil, List.append_nil]
      refine ⟨?_, parsed_tokens_single tok htok⟩
      simp only [List.length_nil]
      simp only [List.length_cons] at hlen
      omega
    · rw [hd] at happ h2 hlen2
      simp only [List.tail_cons] at h2
      subst h2
      have hd43 : d = 43 := by simpa using hq
      subst hd43
      rw [← happ]
      refine ⟨?_, parsed_tokens_token tok r htok⟩
      simp only [List.length_cons] at hlen hlen2
      omega

theorem strtok_none (p : List Nat) (h : strtok p = none) : parsed_tokens p = [] := by
  unfold strtok at h
  rw [← parsed_tokens_drop p]
  cases hl : p.dropWhile (fun c => c == 43) with
  | nil => exact parsed_tokens_nil
  | cons c q => rw [hl] at h; cases h

/-- The loop of `reaction_db_find_by_string` collects the formulas of the
tokens that parse, up to `MAX_REACTANTS` in all, and never runs out of
budget. -/
theorem collect_formulas_eq (fuel : Nat) : ∀ (p : List Nat) (acc : List Formula),
    p.length < fuel → acc.length ≤ MAX_REACTANTS →
      collect_formulas fuel p acc = some ((acc ++ parsed_tokens p).take MAX_REACTANTS) := by
  induction fuel with
  | zero => intro p acc h; omega
  | succ fuel ih =>
    intro p acc hp hacc
    unfold collect_formulas
    cases hs : strtok p with
    | none =>
      simp only []
      rw [strtok_none p hs, List.append_nil, List.take_of_length_le hacc]
    | some tr =>
      obtain ⟨tok, rest⟩ := tr
      simp only []
      obtain ⟨hlen, hP⟩ := strtok_some p tok rest hs
      by_cases hfull : acc.length ≥ MAX_REACTANTS
      · simp only [hfull, if_true]
        rw [List.take_append_of_le_length hfull, List.take_of_length_le hacc]
      · simp only [hfull, if_false]
        rw [formula_parse_trim_token, hP]
        unfold parse_option
        cases hf : formula_parse tok with
        | accept f =>
          simp only []
          rw [ih rest (acc ++ [f]) (by omega)
            (by simp only [List.length_append, List.length_singleton]; omega)]
          simp
        | reject =>
          simp only []
          rw [ih rest acc (by omega) hacc]
          simp
        | unfinished =>
          simp only []
          rw [ih rest acc (by omega) hacc]
          simp

theorem ensure_init_find (db : Database) (q : List Formula) :
    reaction_db_find (ensure_init db) q = reaction_db_find db q := by
  unfold reaction_db_find
  rw [ensure_init_idem]

/-- The function `reaction_db_find_by_string` always returns. -/
theorem reaction_db_find_by_string_returns (db : Database) (text : List Nat) :
    ∃ r, reaction_db_find_by_string db text = some r := by
  unfold reaction_db_find_by_string
  simp only []
  rw [collect_formulas_eq _ _ [] (Nat.lt_succ_self _) (by simp [MAX_REACTANTS])]
  exact ⟨_, rfl⟩

/-! ## The scan of `reaction_db_find_by_element` -/

theorem entries_have_iff (el : Nat) (es : List ElementCount) :
    entries_have el es = true ↔ ∃ e, e ∈ es ∧ e.element = el := by
  induction es with
  | nil => simp [entries_have]
  | cons e es ih =>
    unfold entries_have
    by_cases h : e.element = el
    · simp only [h, if_true, true_iff]
      exact ⟨e, List.mem_cons_self e es, h⟩
    · simp only [h, if_false, ih, List.mem_cons]
      constructor
      · rintro ⟨x, hx, hxe⟩
        exact ⟨x, Or.inr hx, hxe⟩
      · rintro ⟨x, hx | hx, hxe⟩
        · exact absurd (hx ▸ hxe) h
        · exact ⟨x, hx, hxe⟩

theorem formulas_have_iff (el : Nat) (fs : List Formula) :
    formulas_have el fs = true ↔ ∃ f, f ∈ fs ∧ ∃ e, e ∈ f.elements ∧ e.element = el := by
  induction fs with
  | nil => simp [formulas_have]
  | cons f fs ih =>
    unfold formulas_have
    by_cases h : entries_have el f.elements = true
    · simp only [h, if_true, true_iff]
      exact ⟨f, List.mem_cons_self f fs, (entries_have_iff el _).mp h⟩
    · rw [if_neg h, ih]
      constructor
      · rintro ⟨x, hx, hxe⟩
        exact ⟨x, List.mem_cons_of_mem f hx, hxe⟩
      · rintro ⟨x, hx, hxe⟩
        rcases List.mem_cons.mp hx with hx | hx
        · exact absurd ((entries_have_iff el _).mpr (hx ▸ hxe)) h
        · exact ⟨x, hx, hxe⟩

theorem reaction_has_iff (el : Nat) (r : Reaction) :
    reaction_has el r = true ↔ appears_in el r := by
  unfold reaction_has appears_in
  by_cases h : formulas_have el r.reactants = true
  · simp only [h, if_true, true_iff]
    obtain ⟨f, hf, he⟩ := (formulas_have_iff el _).mp h
    exact ⟨f, Or.inl hf, he⟩
  · rw [if_neg h, formulas_have_iff]
    constructor
    · rintro ⟨f, hf, he⟩
      exact ⟨f, Or.inr hf, he⟩
    · rintro ⟨f, hf | hf, he⟩
      · exact absurd ((formulas_have_iff el _).mpr ⟨f, hf, he⟩) h
      · exact ⟨f, hf, he⟩

theorem involving_from_cons (el i : Nat) (r : Reaction) (rs : List Reaction) :
    involving_from el i (r :: rs) =
      if appears_in el r then i :: involving_from el (i + 1) rs
      else involving_from el (i + 1) rs := by
  unfold involving_from
  by_cases h : appears_in el r
  · simp [List.enumFrom, List.filter_cons, h]
  · simp [List.enumFrom, List.filter_cons, h]

theorem find_by_element_from_full (el : Nat) (m : Int) : ∀ (rs : List Reaction) (i : Nat)
    (acc : List Nat), ¬ ((acc.length : Int) < m) → find_by_element_from el m rs i acc = acc := by
  intro rs i acc h
  cases rs with
  | nil => rfl
  | cons r rs => unfold find_by_element_from; simp only [h, if_false]

/-- The scan collects, after what it already holds, the indices of the
reactions in which the element appears, until `max_results` are held. -/
theorem find_by_element_from_eq (el : Nat) (m : Nat) : ∀ (rs : List Reaction) (i : Nat)
    (acc : List Nat), acc.length ≤ m →
      find_by_element_from el (m : Int) rs i acc =
        acc ++ (involving_from el i rs).take (m - acc.length) := by
  intro rs
  induction rs with
  | nil =>
    intro i acc _
    simp [find_by_element_from, involving_from]
  | cons r rs ih =>
    intro i acc hacc
    by_cases hlt : acc.length < m
    · have hlt2 : ((acc.length : Int) < (m : Int)) := by exact_mod_cast hlt
      unfold find_by_element_from
      simp only [hlt2, if_true]
      rw [involving_from_cons]
      by_cases h : appears_in el r
      · have hr : reaction_has el r = true := (reaction_has_iff el r).mpr h
        simp only [hr, if_true, h]
        rw [ih (i + 1) (acc ++ [i]) (by simp only [List.length_append, List.length_singleton]; omega)]
        have hm : m - acc.length = (m - (acc ++ [i]).length) + 1 := by
          simp only [List.length_append, List.length_singleton]; omega
        rw [hm, List.take_succ_cons, List.append_assoc]
        rfl
      · have hr : ¬ (reaction_has el r = true) := fun hh => h ((reaction_has_iff el r).mp hh)
        simp only [hr, if_false, h]
        exact ih (i + 1) acc hacc
    · have hlt2 : ¬ ((acc.length : Int) < (m : Int)) := by exact_mod_cast hlt
      rw [find_by_element_from_full el m _ i acc hlt2]
      have hz : m - acc.length = 0 := by omega
      rw [hz, List.take_zero, List.append_nil]

theorem reaction_db_find_by_element_eq (db : Database) (el : Nat) (max_results : Int)
    (h : 0 < max_results) :
    reaction_db_find_by_element db el max_results =
      (ensure_init db,
        (involving el (ensure_init db).reaction_database).take max_results.toNat) := by
  unfold reaction_db_find_by_element
  have h1 : ¬ (max_results ≤ 0) := by omega
  simp only [h1, if_false]
  obtain ⟨m, rfl⟩ : ∃ m : Nat, max_results = (m : Int) :=
    ⟨max_results.toNat, (Int.toNat_of_nonneg (by omega)).symm⟩
  rw [find_by_element_from_eq el m _ 0 [] (by simp)]
  simp [involving]
/-! ## The atom totals of `count_atoms` -/

theorem add_at_length : ∀ (l : List Int) (i : Nat) (v : Int), (add_at l i v).length = l.length
  | [], _, _ => rfl
  | _ :: _, 0, _ => rfl
  | c :: cs, i + 1, v => by
    unfold add_at
    simp only [List.length_cons, add_at_length cs i v]

theorem add_at_get : ∀ (l : List Int) (i : Nat) (v : Int) (j : Nat),
    (add_at l i v)[j]? = if j = i then (l[j]?).map (fun x => x + v) else l[j]?
  | [], _, _, _ => by simp [add_at]
  | c :: cs, 0, v, 0 => by simp [add_at]
  | c :: cs, 0, v, j + 1 => by simp [add_at]
  | c :: cs, i + 1, v, 0 => by simp [add_at]
  | c :: cs, i + 1, v, j + 1 => by
    unfold add_at
    simp only [List.getElem?_cons_succ, add_at_get cs i v j, Nat.add_right_cancel_iff]

/-- The part of one formula in the total of the element of atomic number `z`. -/
theorem count_entries_get (coef : Int) : ∀ (es : List ElementCount) (acc : List Int) (j : Nat),
    (count_entries coef es acc)[j]? =
      (acc[j]?).map (fun x => x +
        ((es.filter (fun e => decide (atomic_number_of e = (j : Int) + 1))).map
          (fun e => e.count * coef)).sum) := by
  intro es
  induction es with
  | nil =>
    intro acc j
    simp [count_entries]
  | cons e es ih =>
    intro acc j
    unfold count_entries
    cases hel : PERIODIC_TABLE[e.element]? with
    | none =>
      have hz : ¬ (atomic_number_of e = (j : Int) + 1) := by
        unfold atomic_number_of
        rw [hel]
        show ¬ ((0 : Int) = (j : Int) + 1)
        omega
      simp only [ih, List.filter_cons, hz, decide_False, Bool.false_eq_true, if_false]
    | some el =>
      have han : atomic_number_of e = el.atomic_number := by
        unfold atomic_number_of
        rw [hel]
      simp only []
      by_cases hneg : el.atomic_number - 1 < 0
      · have hz : ¬ (atomic_number_of e = (j : Int) + 1) := by
          rw [han]; omega
        simp only [hneg, if_true, ih, List.filter_cons, hz, decide_False, Bool.false_eq_true,
          if_false]
      · simp only [hneg, if_false, ih, add_at_get]
        by_cases hj : j = (el.atomic_number - 1).toNat
        · have hz : atomic_number_of e = (j : Int) + 1 := by
            rw [han, hj, Int.toNat_of_nonneg (by omega)]; omega
          rw [if_pos hj]
          simp only [List.filter_cons, hz, decide_True, if_true, List.map_cons, List.sum_cons]
          cases acc[j]? with
          | none => rfl
          | some x =>
            simp only [Option.map_some', add_assoc]
        · have hz : ¬ (atomic_number_of e = (j : Int) + 1) := by
            rw [han]
            intro h
            apply hj
            omega
          rw [if_neg hj]
          simp only [List.filter_cons, hz, decide_False, Bool.false_eq_true, if_false]

theorem count_entries_length (coef : Int) : ∀ (es : List ElementCount) (acc : List Int),
    (count_entries coef es acc).length = acc.length := by
  intro es
  induction es with
  | nil => intro acc; rfl
  | cons e es ih =>
    intro acc
    unfold count_entries
    cases hel : PERIODIC_TABLE[e.element]? with
    | none => exact ih acc
    | some el =>
      simp only []
      by_cases hneg : el.atomic_number - 1 < 0
      · simp only [hneg, if_true]; exact ih acc
      · simp only [hneg, if_false, ih, add_at_length]

theorem count_atoms_length : ∀ (fs : List Formula) (acc : List Int),
    (count_atoms fs acc).length = acc.length := by
  intro fs
  induction fs with
  | nil => intro acc; rfl
  | cons f fs ih =>
    intro acc
    unfold count_atoms
    rw [ih, count_entries_length]

/-- What `count_atoms` adds to slot `j`: the total of the side for the atomic
number `j + 1`. -/
theorem count_atoms_get : ∀ (fs : List Formula) (acc : List Int) (j : Nat),
    (count_atoms fs acc)[j]? = (acc[j]?).map (fun x => x + side_total fs ((j : Int) + 1)) := by
  intro fs
  induction fs with
  | nil =>
    intro acc j
    simp [count_atoms, side_total]
  | cons f fs ih =>
    intro acc j
    unfold count_atoms
    rw [ih, count_entries_get, Option.map_map]
    congr 1
    funext x
    simp only [Function.comp, side_total, List.map_cons, List.sum_cons, effective_coefficient]
    omega

theorem counts_equal_iff : ∀ (as bs : List Int), as.length = bs.length →
    (counts_equal as bs = true ↔ ∀ j, j < as.length → as[j]? = bs[j]?)
  | [], [], _ => by simp [counts_equal]
  | [], _ :: _, h => by simp at h
  | _ :: _, [], h => by simp at h
  | a :: as, b :: bs, h => by
    unfold counts_equal
    have hl : as.length = bs.length := by simpa using h
    by_cases hab : a = b
    · subst hab
      simp only [bne_self_eq_false, Bool.false_eq_true, if_false, counts_equal_iff as bs hl]
      constructor
      · intro hh j hj
        cases j with
        | zero => simp
        | succ j =>
          simp only [List.getElem?_cons_succ]
          exact hh j (by simpa using hj)
      · intro hh j hj
        have := hh (j + 1) (by simpa using hj)
        simpa using this
    · have hne : (a != b) = true := by simpa using hab
      simp only [hne, if_true, Bool.false_eq_true, false_iff]
      intro hh
      have := hh 0 (by simp)
      simp at this
      exact hab this

/-- The balance check compares the totals of the two sides for each of the
atomic numbers 1 to 118. -/
theorem reaction_check_balanced_iff (rxn : Reaction) :
    (reaction_check_balanced rxn).2 = true ↔
      ∀ j : Nat, j < NUM_ELEMENTS →
        side_total rxn.reactants ((j : Int) + 1) = side_total rxn.products ((j : Int) + 1) := by
  have hiff := counts_equal_iff (count_atoms rxn.reactants (List.replicate NUM_ELEMENTS 0))
    (count_atoms rxn.products (List.replicate NUM_ELEMENTS 0))
    (by rw [count_atoms_length, count_atoms_length])
  have hret : (reaction_check_balanced rxn).2 =
      counts_equal (count_atoms rxn.reactants (List.replicate NUM_ELEMENTS 0))
        (count_atoms rxn.products (List.replicate NUM_ELEMENTS 0)) := by
    unfold reaction_check_balanced
    simp only []
    split <;> simp_all
  rw [hret, hiff, count_atoms_length, List.length_replicate]
  constructor
  · intro h j hj
    have := h j hj
    rw [count_atoms_get, count_atoms_get, List.getElem?_replicate] at this
    simpa [hj] using this
  · intro h j hj
    rw [count_atoms_get, count_atoms_get, List.getElem?_replicate]
    simp [hj, h j hj]
/-! ## Building a reaction, and the seeded reactions -/

theorem reaction_add_reactant_cases (rxn : Reaction) (formula : List Nat) :
    (MAX_REACTANTS ≤ rxn.reactants.length ∨ formula_parse formula = .reject) ∧
        reaction_add_reactant rxn formula = (rxn, false) ∨
      ∃ f, rxn.reactants.length < MAX_REACTANTS ∧ formula_parse formula = .accept f ∧
        reaction_add_reactant rxn formula =
          ({ rxn with reactants := rxn.reactants ++ [f] }, true) := by
  unfold reaction_add_reactant
  by_cases hfull : rxn.reactants.length ≥ MAX_REACTANTS
  · left
    exact ⟨Or.inl hfull, by simp only [hfull, if_true]⟩
  · simp only [hfull, if_false]
    cases hp : formula_parse formula with
    | accept f => right; exact ⟨f, by omega, rfl, rfl⟩
    | reject => left; exact ⟨Or.inr rfl, rfl⟩
    | unfinished => exact absurd hp (formula_parse_returns formula)

theorem reaction_add_product_cases (rxn : Reaction) (formula : List Nat) :
    (MAX_PRODUCTS ≤ rxn.products.length ∨ formula_parse formula = .reject) ∧
        reaction_add_product rxn formula = (rxn, false) ∨
      ∃ f, rxn.products.length < MAX_PRODUCTS ∧ formula_parse formula = .accept f ∧
        reaction_add_product rxn formula =
          ({ rxn with products := rxn.products ++ [f] }, true) := by
  unfold reaction_add_product
  by_cases hfull : rxn.products.length ≥ MAX_PRODUCTS
  · left
    exact ⟨Or.inl hfull, by simp only [hfull, if_true]⟩
  · simp only [hfull, if_false]
    cases hp : formula_parse formula with
    | accept f => right; exact ⟨f, by omega, rfl, rfl⟩
    | reject => left; exact ⟨Or.inr rfl, rfl⟩
    | unfinished => exact absurd hp (formula_parse_returns formula)

theorem add_call_bounds (rxn : Reaction) (call : Bool × List Nat)
    (h : rxn.reactants.length ≤ MAX_REACTANTS ∧ rxn.products.length ≤ MAX_PRODUCTS) :
    (add_call rxn call).reactants.length ≤ MAX_REACTANTS ∧
      (add_call rxn call).products.length ≤ MAX_PRODUCTS := by
  unfold add_call
  cases hc : call.1 with
  | true =>
    simp only [if_true]
    rcases reaction_add_reactant_cases rxn call.2 with ⟨_, he⟩ | ⟨f, hlt, _, he⟩
    · rw [he]; exact h
    · rw [he]
      refine ⟨?_, h.2⟩
      simp only [List.length_append, List.length_singleton]
      omega
  | false =>
    simp only [Bool.false_eq_true, if_false]
    rcases reaction_add_product_cases rxn call.2 with ⟨_, he⟩ | ⟨f, hlt, _, he⟩
    · rw [he]; exact h
    · rw [he]
      refine ⟨h.1, ?_⟩
      simp only [List.length_append, List.length_singleton]
      omega

theorem add_calls_bounds (calls : List (Bool × List Nat)) : ∀ rxn : Reaction,
    rxn.reactants.length ≤ MAX_REACTANTS ∧ rxn.products.length ≤ MAX_PRODUCTS →
    (calls.foldl add_call rxn).reactants.length ≤ MAX_REACTANTS ∧
      (calls.foldl add_call rxn).products.length ≤ MAX_PRODUCTS := by
  induction calls with
  | nil => intro rxn h; exact h
  | cons c cs ih =>
    intro rxn h
    rw [List.foldl_cons]
    exact ih _ (add_call_bounds rxn c h)

set_option maxRecDepth 1000000 in
theorem seeded_all_balanced :
    db_seeded.reaction_database.all
      (fun r => r.is_balanced && (reaction_check_balanced r).2) = true := by
  decide

theorem reaction_db_init_of_initialized (db : Database)
    (h : db.reaction_db_initialized = true) : reaction_db_init db = db := by
  unfold reaction_db_init
  simp only [h, if_true]

theorem reaction_db_init_initialized (db : Database) :
    (reaction_db_init db).reaction_db_initialized = true := by
  unfold reaction_db_init
  cases h : db.reaction_db_initialized <;> simp [h]
/-! ## Atomic numbers of the catalog, prediction, and the seeded formulas -/

set_option maxRecDepth 1000000 in
theorem table_atomic_number_map :
    PERIODIC_TABLE.map Element.atomic_number =
      (List.range NUM_ELEMENTS).map (fun (i : Nat) => (i : Int) + 1) := by
  decide

theorem table_atomic_number (i : Nat) (el : Element) (h : PERIODIC_TABLE[i]? = some el) :
    el.atomic_number = (i : Int) + 1 ∧ i < NUM_ELEMENTS := by
  have hi : i < NUM_ELEMENTS := by
    rw [← table_length]
    by_contra hge
    rw [List.getElem?_eq_none (by omega)] at h
    cases h
  have h1 : (PERIODIC_TABLE.map Element.atomic_number)[i]? = some el.atomic_number := by
    rw [List.getElem?_map, h]
    rfl
  rw [table_atomic_number_map, List.getElem?_map, List.getElem?_range hi] at h1
  exact ⟨(Option.some.inj h1).symm, hi⟩

theorem table_get (i : Nat) (h : i < NUM_ELEMENTS) : ∃ el, PERIODIC_TABLE[i]? = some el := by
  rw [← table_length] at h
  exact ⟨_, List.getElem?_eq_getElem h⟩

theorem index_in_bounds_of_lt (e : ElementCount) (h : e.element < NUM_ELEMENTS) :
    index_in_bounds e := by
  obtain ⟨el, hel⟩ := table_get e.element h
  have han := (table_atomic_number e.element el hel).1
  exact ⟨el, hel, by omega, by omega⟩

theorem formula_parse_valid (s : List Nat) (f : Formula) (h : formula_parse s = .accept f) :
    ∀ e ∈ f.elements, e.element < NUM_ELEMENTS := by
  obtain ⟨ws, ds, p, ts, _, _, _, hp, hf, _, _⟩ := formula_parse_accept s f h
  exact (fold_tokens_entries p ts hp f.elements hf).2.2.2

theorem add_call_parsed (rxn : Reaction) (call : Bool × List Nat)
    (h : ∀ f, f ∈ rxn.reactants ∨ f ∈ rxn.products → ∃ s, formula_parse s = .accept f) :
    ∀ f, f ∈ (add_call rxn call).reactants ∨ f ∈ (add_call rxn call).products →
      ∃ s, formula_parse s = .accept f := by
  unfold add_call
  cases hc : call.1 with
  | true =>
    simp only [if_true]
    rcases reaction_add_reactant_cases rxn call.2 with ⟨_, he⟩ | ⟨g, _, hp, he⟩
    · rw [he]; exact h
    · rw [he]
      intro f hf
      simp only [List.mem_append, List.mem_singleton] at hf
      rcases hf with (hf | hf) | hf
      · exact h f (Or.inl hf)
      · exact ⟨call.2, hf ▸ hp⟩
      · exact h f (Or.inr hf)
  | false =>
    simp only [Bool.false_eq_true, if_false]
    rcases reaction_add_product_cases rxn call.2 with ⟨_, he⟩ | ⟨g, _, hp, he⟩
    · rw [he]; exact h
    · rw [he]
      intro f hf
      simp only [List.mem_append, List.mem_singleton] at hf
      rcases hf with hf | hf | hf
      · exact h f (Or.inl hf)
      · exact h f (Or.inr hf)
      · exact ⟨call.2, hf ▸ hp⟩

theorem add_calls_parsed (calls : List (Bool × List Nat)) : ∀ rxn : Reaction,
    (∀ f, f ∈ rxn.reactants ∨ f ∈ rxn.products → ∃ s, formula_parse s = .accept f) →
    ∀ f, f ∈ (calls.foldl add_call rxn).reactants ∨ f ∈ (calls.foldl add_call rxn).products →
      ∃ s, formula_parse s = .accept f := by
  induction calls with
  | nil => intro rxn h; exact h
  | cons c cs ih =>
    intro rxn h
    rw [List.foldl_cons]
    exact ih _ (add_call_parsed rxn c h)

theorem copy_products_eq (fs : List Formula) : copy_products fs = fs := by
  induction fs with
  | nil => rfl
  | cons f fs ih => unfold copy_products; rw [ih]

theorem reaction_db_find_valid (db : Database) (q : List Formula) (k : Nat)
    (h : (reaction_db_find db q).2 = some k) :
    ∃ r, (ensure_init db).reaction_database[k]? = some r := by
  unfold reaction_db_find at h
  obtain ⟨_, ⟨r, hr, _⟩, _⟩ := (find_from_some q _ 0 k).mp h
  exact ⟨r, by simpa using hr⟩

/-! ## Entries of the database with the same elements -/

theorem all_elements_found_congr (es2 es3 : List ElementCount)
    (h : es2.map ElementCount.element = es3.map ElementCount.element)
    (es1 : List ElementCount) : all_elements_found es2 es1 = all_elements_found es3 es1 := by
  rw [Bool.eq_iff_iff, all_elements_found_iff, all_elements_found_iff, h]

theorem composition_matches_congr (f g g2 : Formula)
    (h : g.elements.map ElementCount.element = g2.elements.map ElementCount.element) :
    composition_matches f g = composition_matches f g2 := by
  have hlen : g.elements.length = g2.elements.length := by
    have := congrArg List.length h
    simpa using this
  unfold composition_matches
  rw [hlen, all_elements_found_congr g.elements g2.elements h]

theorem mark_match_congr (f : Formula) (set2 set3 : List Formula)
    (h : List.Forall₂ (fun g g2 => g.elements.map ElementCount.element =
      g2.elements.map ElementCount.element) set2 set3) :
    ∀ used : List Bool, mark_match f set2 used = mark_match f set3 used := by
  induction h with
  | nil => intro used; rfl
  | cons hg _ ih =>
    intro used
    cases used with
    | nil => rfl
    | cons u used =>
      unfold mark_match
      rw [ih used, composition_matches_congr f _ _ hg]

theorem match_from_congr (set2 set3 : List Formula)
    (h : List.Forall₂ (fun g g2 => g.elements.map ElementCount.element =
      g2.elements.map ElementCount.element) set2 set3) :
    ∀ (A : List Formula) (used : List Bool), match_from set2 A used = match_from set3 A used := by
  intro A
  induction A with
  | nil => intro used; rfl
  | cons f A ih =>
    intro used
    unfold match_from
    rw [mark_match_congr f set2 set3 h used]
    cases mark_match f set3 used with
    | none => rfl
    | some used1 => exact ih used1

/-- The outcome of `formulas_match_set` depends on the formulas of the second
list only through their number and the elements of their entries. -/
theorem formulas_match_set_congr (set2 set3 : List Formula)
    (h : List.Forall₂ (fun g g2 => g.elements.map ElementCount.element =
      g2.elements.map ElementCount.element) set2 set3) (q : List Formula) :
    formulas_match_set q set2 = formulas_match_set q set3 := by
  unfold formulas_match_set
  rw [h.length_eq, match_from_congr set2 set3 h]

set_option maxRecDepth 1000000 in
theorem seeded_water_and_peroxide :
    (db_seeded.reaction_database[7]?).map Reaction.reactants =
      some [Formula.mk [ElementCount.mk 0 2, ElementCount.mk 7 1] 2] ∧
    (db_seeded.reaction_database[8]?).map Reaction.reactants =
      some [Formula.mk [ElementCount.mk 0 2, ElementCount.mk 7 2] 2] := by
  decide

theorem peroxide_matches_water (q : List Formula) :
    formulas_match_set q [Formula.mk [ElementCount.mk 0 2, ElementCount.mk 7 2] 2] =
      formulas_match_set q [Formula.mk [ElementCount.mk 0 2, ElementCount.mk 7 1] 2] :=
  formulas_match_set_congr [Formula.mk [ElementCount.mk 0 2, ElementCount.mk 7 2] 2]
    [Formula.mk [ElementCount.mk 0 2, ElementCount.mk 7 1] 2]
    (List.Forall₂.cons rfl List.Forall₂.nil) q

theorem find_from_seeded_ne_eight (q : List Formula) :
    find_from q db_seeded.reaction_database 0 ≠ some 8 := by
  intro h
  obtain ⟨_, ⟨r, hr, hm⟩, hlow⟩ := (find_from_some q _ 0 8).mp h
  have h8 := seeded_water_and_peroxide.2
  have h7 := seeded_water_and_peroxide.1
  simp only [Nat.sub_zero] at hr hlow
  rw [hr] at h8
  have hr8 : r.reactants = [Formula.mk [ElementCount.mk 0 2, ElementCount.mk 7 2] 2] := by
    simpa using h8
  cases h7r : db_seeded.reaction_database[7]? with
  | none => rw [h7r] at h7; cases h7
  | some r7 =>
    rw [h7r] at h7
    have hr7 : r7.reactants = [Formula.mk [ElementCount.mk 0 2, ElementCount.mk 7 1] 2] := by
      simpa using h7
    have hf := hlow 7 (by decide) r7 h7r
    rw [hr7, ← peroxide_matches_water q, ← hr8, hm] at hf
    cases hf

set_option maxRecDepth 1000000 in
theorem seeded_formulas_nodup :
    db_seeded.reaction_database.all (fun r =>
      (r.reactants ++ r.products).all (fun f => decide (no_duplicates f))) = true := by
  decide

/-- The balance check does not depend on which side is which. -/
theorem reaction_check_balanced_exchange (r : Reaction) :
    (reaction_check_balanced (exchange_sides r)).2 = (reaction_check_balanced r).2 := by
  rw [Bool.eq_iff_iff, reaction_check_balanced_iff, reaction_check_balanced_iff]
  unfold exchange_sides
  constructor
  · intro h j hj; exact (h j hj).symm
  · intro h j hj; exact (h j hj).symm

/-- For an entry that points into the catalog, `count_atoms` adds to the slot
of the index of the element. -/
theorem count_entries_single (coef : Int) (e : ElementCount) (acc : List Int)
    (h : e.element < NUM_ELEMENTS) :
    count_entries coef [e] acc = add_at acc e.element (e.count * coef) := by
  obtain ⟨el, hel⟩ := table_get e.element h
  have han := (table_atomic_number e.element el hel).1
  unfold count_entries
  rw [hel]
  have hneg : ¬ (el.atomic_number - 1 < 0) := by omega
  have hidx : (el.atomic_number - 1).toNat = e.element := by omega
  simp only [hneg, if_false, hidx]
  rfl

theorem reaction_db_find_by_string_ne_eight (db : Database)
    (hdb : ensure_init db = db_seeded) (text : List Nat) (db1 : Database) :
    reaction_db_find_by_string db text ≠ some (db1, some 8) := by
  unfold reaction_db_find_by_string
  simp only []
  cases collect_formulas ((text.take (MAX_FORMULA_LENGTH - 1)).length + 1)
      (text.take (MAX_FORMULA_LENGTH - 1)) [] with
  | none => intro h; cases h
  | some formulas =>
    simp only []
    intro h
    have h2 : (reaction_db_find (ensure_init db) formulas).2 = some 8 := by
      rw [Option.some.inj h]
    unfold reaction_db_find at h2
    rw [ensure_init_idem, hdb] at h2
    exact find_from_seeded_ne_eight formulas h2
/-! ## A written count of zero -/

theorem parse_digits_zeros (zs b : List Nat) (hz : ∀ c ∈ zs, c = 48)
    (hb : starts_with isdigit b = false) : parse_digits 0 (zs ++ b) = (0, b) := by
  have hd : ∀ c ∈ zs, isdigit c = true := fun c hc => by rw [hz c hc]; decide
  rw [parse_digits_append zs 0 b hd hb,
    (digits_value_from_zero_iff zs 0 (le_refl 0) hd).mpr ⟨rfl, hz⟩]

theorem parse_digits_none (b : List Nat) (hb : starts_with isdigit b = false) :
    parse_digits 0 b = (0, b) := by
  have := parse_digits_append [] 0 b (by simp) hb
  simpa [digits_value_from] using this

/-- A run of zeros written after a symbol is read as no count at all. -/
theorem parse_body_zero_count (sym zs b : List Nat) (f : Formula)
    (hc : is_candidate sym = true) (hz : ∀ c ∈ zs, c = 48)
    (hb : starts_with isdigit b = false)
    (hl : sym.length = 1 → starts_with islower b = false) :
    parse_body (sym ++ (zs ++ b)) f = parse_body (sym ++ b) f := by
  have hd : ∀ c ∈ zs, isdigit c = true := fun c hc => by rw [hz c hc]; decide
  rcases candidate_cases sym hc with ⟨u, rfl, hu⟩ | ⟨u, l, rfl, hu, hlow⟩
  · have hlb : starts_with islower b = false := hl rfl
    have hlz : starts_with islower (zs ++ b) = false := by
      cases zs with
      | nil => exact hlb
      | cons z zs => exact not_lower_of_digit z (hd z (List.mem_cons_self z zs))
    simp only [List.singleton_append]
    rw [parse_body_upper u _ f hu, parse_body_upper u _ f hu, read_symbol_single u _ hlz,
      read_symbol_single u _ hlb]
    simp only []
    rw [parse_digits_zeros zs b hz hb, parse_digits_none b hb]
  · simp only [List.cons_append, List.nil_append]
    rw [parse_body_upper u _ f hu, parse_body_upper u _ f hu, read_symbol_lower u l _ hlow,
      read_symbol_lower u l _ hlow]
    simp only []
    rw [parse_digits_zeros zs b hz hb, parse_digits_none b hb]

theorem formula_parse_zero_count (ws ds p : List Nat) (ts : List Token) (sym zs b : List Nat)
    (hw : ∀ c ∈ ws, isspace c = true) (hd : ∀ c ∈ ds, isdigit c = true) (hp : Lexed p ts)
    (hc : is_candidate sym = true) (hz : ∀ c ∈ zs, c = 48)
    (hb : starts_with isdigit b = false)
    (hl : sym.length = 1 → starts_with islower b = false) :
    formula_parse (ws ++ ds ++ (p ++ (sym ++ (zs ++ b)))) =
      formula_parse (ws ++ ds ++ (p ++ (sym ++ b))) := by
  have key : ∀ rest : List Nat,
      formula_parse (ws ++ ds ++ (p ++ (sym ++ rest))) =
        match fold_tokens ts [] with
        | none => .reject
        | some es => parse_body (sym ++ rest)
            { elements := es, coefficient := if ds = [] then 1 else digits_value ds } := by
    intro rest
    have hx := candidate_starts_upper sym rest hc
    obtain ⟨_, hx2, hx3⟩ := starts_with_upper_not _ hx
    have hq : starts_with isdigit (skip_space (p ++ (sym ++ rest))) = false := by
      apply lexed_head p ts hp
      rw [skip_space_of_not_space _ hx3]; exact hx2
    have hq2 : starts_with isdigit (p ++ (sym ++ rest)) = false :=
      starts_with_append_false _ _ _ (lexed_not_digit p ts hp) hx2
    exact (formula_parse_split ws ds _ hw hd hq (fun _ => hq2)).trans
      (parse_body_lexed_append p ts hp _ hx _)
  rw [key, key]
  cases fold_tokens ts [] with
  | none => rfl
  | some es => exact parse_body_zero_count sym zs b _ hc hz hb hl
/-! ## First-seen order of the entries -/

theorem first_index_append_of_mem {α : Type} [DecidableEq α] (x : α) (l1 l2 : List α)
    (h : x ∈ l1) : first_index x (l1 ++ l2) = first_index x l1 := by
  induction l1 with
  | nil => cases h
  | cons y ys ih =>
    simp only [List.cons_append, first_index, List.append_eq]
    by_cases hy : y = x
    · simp only [hy, if_true]
    · simp only [hy, if_false]
      rcases List.mem_cons.mp h with hx | hx
      · exact absurd hx.symm hy
      · rw [ih hx]

theorem first_index_append_of_not_mem {α : Type} [DecidableEq α] (x : α) (l1 l2 : List α)
    (h : x ∉ l1) : first_index x (l1 ++ l2) = l1.length + first_index x l2 := by
  induction l1 with
  | nil => simp
  | cons y ys ih =>
    have hy : ¬ y = x := fun e => h (e ▸ List.mem_cons_self y ys)
    have hys : x ∉ ys := fun e => h (List.mem_cons_of_mem y e)
    simp only [List.cons_append, first_index, List.append_eq, hy, if_false, ih hys,
      List.length_cons]
    omega

theorem first_index_lt_length {α : Type} [DecidableEq α] (x : α) (l : List α) (h : x ∈ l) :
    first_index x l < l.length := by
  induction l with
  | nil => cases h
  | cons y ys ih =>
    simp only [first_index, List.length_cons]
    by_cases hy : y = x
    · simp only [hy, if_true]; omega
    · simp only [hy, if_false]
      rcases List.mem_cons.mp h with hx | hx
      · exact absurd hx.symm hy
      · have := ih hx; omega

theorem first_index_self {α : Type} [DecidableEq α] (x : α) (l : List α) :
    first_index x (x :: l) = 0 := by
  simp [first_index]

theorem first_seen_nil : FirstSeen [] [] := by
  refine ⟨?_, ?_, ?_⟩
  · intro a ha; cases ha
  · intro x; simp
  · intro a ha; cases ha

theorem first_seen_old (ids : List Nat) (syms : List (List Nat)) (h : FirstSeen ids syms)
    (el : Nat) (hel : el ∈ ids) : FirstSeen ids (syms ++ [symbol_of el]) := by
  obtain ⟨h1, h2, h3⟩ := h
  have hs : symbol_of el ∈ syms := (h2 _).mpr ⟨el, hel, rfl⟩
  refine ⟨h1, ?_, ?_⟩
  · intro x
    rw [List.mem_append, List.mem_singleton, ← h2 x]
    constructor
    · rintro (hx | hx)
      · exact hx
      · rw [hx]; exact hs
    · intro hx; exact Or.inl hx
  · intro a ha b hb
    rw [first_index_append_of_mem _ _ _ ((h2 _).mpr ⟨a, ha, rfl⟩),
      first_index_append_of_mem _ _ _ ((h2 _).mpr ⟨b, hb, rfl⟩)]
    exact h3 a ha b hb

theorem first_seen_new (ids : List Nat) (syms : List (List Nat)) (h : FirstSeen ids syms)
    (el : Nat) (hlt : el < NUM_ELEMENTS) (hel : el ∉ ids) :
    FirstSeen (ids ++ [el]) (syms ++ [symbol_of el]) := by
  obtain ⟨h1, h2, h3⟩ := h
  have hs : symbol_of el ∉ syms := by
    intro hin
    obtain ⟨a, ha, hsa⟩ := (h2 _).mp hin
    exact hel (symbol_of_injective a el (h1 a ha) hlt hsa ▸ ha)
  have hidx_el : first_index el (ids ++ [el]) = ids.length := by
    rw [first_index_append_of_not_mem _ _ _ hel, first_index_self]
    rfl
  have hidx_s : first_index (symbol_of el) (syms ++ [symbol_of el]) = syms.length := by
    rw [first_index_append_of_not_mem _ _ _ hs, first_index_self]
    rfl
  have hold : ∀ a ∈ ids, first_index a (ids ++ [el]) = first_index a ids ∧
      first_index a ids < ids.length ∧
      first_index (symbol_of a) (syms ++ [symbol_of el]) = first_index (symbol_of a) syms ∧
      first_index (symbol_of a) syms < syms.length := by
    intro a ha
    have hsa : symbol_of a ∈ syms := (h2 _).mpr ⟨a, ha, rfl⟩
    exact ⟨first_index_append_of_mem _ _ _ ha, first_index_lt_length _ _ ha,
      first_index_append_of_mem _ _ _ hsa, first_index_lt_length _ _ hsa⟩
  refine ⟨?_, ?_, ?_⟩
  · intro a ha
    rcases List.mem_append.mp ha with ha | ha
    · exact h1 a ha
    · rw [List.mem_singleton] at ha; rw [ha]; exact hlt
  · intro x
    rw [List.mem_append, List.mem_singleton, h2 x]
    constructor
    · rintro (⟨a, ha, hsa⟩ | hx)
      · exact ⟨a, List.mem_append_left _ ha, hsa⟩
      · exact ⟨el, List.mem_append_right _ (List.mem_singleton_self el), hx.symm⟩
    · rintro ⟨a, ha, hsa⟩
      rcases List.mem_append.mp ha with ha | ha
      · exact Or.inl ⟨a, ha, hsa⟩
      · rw [List.mem_singleton] at ha
        right; rw [← hsa, ha]
  · intro a ha b hb
    rcases List.mem_append.mp ha with ha1 | ha1 <;>
      rcases List.mem_append.mp hb with hb1 | hb1
    · obtain ⟨e1, _, e2, _⟩ := hold a ha1
      obtain ⟨e3, _, e4, _⟩ := hold b hb1
      rw [e1, e2, e3, e4]
      exact h3 a ha1 b hb1
    · rw [List.mem_singleton] at hb1
      obtain ⟨e1, e5, e2, e6⟩ := hold a ha1
      rw [hb1, e1, e2, hidx_el, hidx_s]
      exact ⟨fun _ => e6, fun _ => e5⟩
    · rw [List.mem_singleton] at ha1
      obtain ⟨e1, e5, e2, e6⟩ := hold b hb1
      rw [ha1, e1, e2, hidx_el, hidx_s]
      constructor
      · intro hh; omega
      · intro hh; omega
    · rw [List.mem_singleton] at ha1 hb1
      rw [ha1, hb1]
      constructor
      · intro hh; omega
      · intro hh; omega

/-- The main loop keeps the entries in first-seen order. -/
theorem fold_tokens_first_seen (ts : List Token) :
    ∀ (acc es : List ElementCount) (syms : List (List Nat)),
      (∀ t ∈ ts, is_candidate t.symbol = true) →
      FirstSeen (acc.map ElementCount.element) syms → fold_tokens ts acc = some es →
      FirstSeen (es.map ElementCount.element) (syms ++ ts.map Token.symbol) := by
  induction ts with
  | nil =>
    intro acc es syms _ hinv h
    simp only [fold_tokens] at h
    cases h
    simpa using hinv
  | cons t ts ih =>
    intro acc es syms hc hinv h
    unfold fold_tokens at h
    cases hel : element_by_symbol t.symbol with
    | none => rw [hel] at h; cases h
    | some el =>
      rw [hel] at h
      simp only [] at h
      cases hadd : add_entry el (token_count (digits_value t.digits)) acc with
      | none => rw [hadd] at h; cases h
      | some es2 =>
        rw [hadd] at h
        simp only [] at h
        have hsound := element_by_symbol_sound t.symbol el (hc t (List.mem_cons_self t ts)) hel
        have hstep : FirstSeen (es2.map ElementCount.element) (syms ++ [t.symbol]) := by
          rw [← hsound.2]
          rcases add_entry_cases el _ acc es2 hadd with ⟨hin, _, hids⟩ | ⟨hnot, _, hes2⟩
          · rw [hids]
            exact first_seen_old _ _ hinv el hin
          · rw [hes2, List.map_append]
            exact first_seen_new _ _ hinv el hsound.1 hnot
        have := ih es2 es (syms ++ [t.symbol])
          (fun t2 ht2 => hc t2 (List.mem_cons_of_mem t ht2)) hstep h
        simpa using this

theorem formula_parse_first_seen (ws ds p : List Nat) (ts : List Token) (f : Formula)
    (h : formula_parse (ws ++ ds ++ p) = .accept f) (hw : ∀ c ∈ ws, isspace c = true)
    (hd : ∀ c ∈ ds, isdigit c = true) (hp : Lexed p ts) :
    FirstSeen (f.elements.map ElementCount.element) (ts.map Token.symbol) := by
  have hf := formula_parse_accept_tokens ws ds p ts f h hw hd hp
  have := fold_tokens_first_seen ts [] f.elements []
    (fun t ht => (lexed_tokens p ts hp t ht).1) first_seen_nil hf
  simpa using this
/-! ## Concatenation of formula strings -/

theorem not_lower_of_paren (c : Nat) (h : c = 40 ∨ c = 41) : islower c = false := by
  rcases h with h | h <;> subst h <;> decide

theorem lexed_not_lower (p : List Nat) (ts : List Token) (h : Lexed p ts) :
    starts_with islower p = false := by
  cases h with
  | nil => rfl
  | space c p ts hc _ => exact not_lower_of_space c hc
  | paren c p ts hc _ => exact not_lower_of_paren c hc
  | upper1 u ds p ts hu _ _ _ _ => exact not_lower_of_upper u hu
  | upper2 u l ds p ts hu _ _ _ _ => exact not_lower_of_upper u hu

/-- Two strings of the grammar, one after the other, form a string of the
grammar, and its tokens are the tokens of the first followed by those of
the second. -/
theorem lexed_append (p q : List Nat) (ts us : List Token) (hp : Lexed p ts)
    (hq : Lexed q us) : Lexed (p ++ q) (ts ++ us) := by
  have hql := lexed_not_lower q us hq
  have hqd := lexed_not_digit q us hq
  induction hp with
  | nil => exact hq
  | space c p ts hc _ ih => exact Lexed.space c _ _ hc ih
  | paren c p ts hc _ ih => exact Lexed.paren c _ _ hc ih
  | upper1 u ds p ts hu hd hl hdig _ ih =>
    have e : u :: (ds ++ p) ++ q = u :: (ds ++ (p ++ q)) := by simp
    rw [e]
    exact Lexed.upper1 u ds (p ++ q) (ts ++ us) hu hd
      (starts_with_digits_append islower ds p q hl hql)
      (starts_with_append_false isdigit p q hdig hqd) ih
  | upper2 u l ds p ts hu hl hd hdig _ ih =>
    have e : u :: l :: (ds ++ p) ++ q = u :: l :: (ds ++ (p ++ q)) := by simp
    rw [e]
    exact Lexed.upper2 u l ds (p ++ q) (ts ++ us) hu hl hd
      (starts_with_append_false isdigit p q hdig hqd) ih

theorem lexed_spaces_prefix (ws q : List Nat) (us : List Token)
    (hw : ∀ c ∈ ws, isspace c = true) (hq : Lexed q us) : Lexed (ws ++ q) us := by
  induction ws with
  | nil => exact hq
  | cons c ws ih =>
    exact Lexed.space c _ _ (hw c (List.mem_cons_self c ws))
      (ih (fun d hd => hw d (List.mem_cons_of_mem c hd)))

theorem fold_tokens_append (ts us : List Token) : ∀ acc : List ElementCount,
    fold_tokens (ts ++ us) acc = (fold_tokens ts acc).bind (fold_tokens us) := by
  induction ts with
  | nil => intro acc; rfl
  | cons t ts ih =>
    intro acc
    simp only [List.cons_append, fold_tokens]
    cases element_by_symbol t.symbol with
    | none => rfl
    | some el =>
      simp only []
      cases add_entry el (token_count (digits_value t.digits)) acc with
      | none => rfl
      | some es1 => exact ih es1

/-- The reading of an accepted string without leading coefficient. -/
theorem formula_parse_accept_plain (b : List Nat) (fb : Formula)
    (h : formula_parse b = .accept fb) (hb : starts_with isdigit (skip_space b) = false) :
    ∃ us, Lexed b us ∧ fold_tokens us [] = some fb.elements := by
  obtain ⟨ws, ds, p, ts, hs, hw, hd, hp, hf, _, _⟩ := formula_parse_accept b fb h
  have hds : ds = [] := by
    by_contra hne
    rw [hs, List.append_assoc, skip_space_append_spaces ws _ hw, skip_space_digits ds p hd hne,
      starts_with_digit_append ds p hne hd] at hb
    cases hb
  subst hds
  rw [List.append_nil] at hs
  exact ⟨ts, hs ▸ lexed_spaces_prefix ws p ts hw hp, hf⟩

theorem count_of_invalid (x : Nat) (es : List ElementCount)
    (hv : ∀ e ∈ es, e.element < NUM_ELEMENTS) (hx : ¬ x < NUM_ELEMENTS) : count_of x es = 0 :=
  count_of_absent x es (fun e he heq => hx (heq ▸ hv e he))

/-- Parsing a string followed by a string without leading coefficient. -/
theorem formula_parse_concat (a b : List Nat) (fa fb : Formula)
    (ha : formula_parse a = .accept fa) (hb : formula_parse b = .accept fb)
    (hnd : starts_with isdigit (skip_space b) = false)
    (hfit : (((fa.elements ++ fb.elements).map ElementCount.element).dedup).length ≤
      MAX_ATOMS_PER_MOLECULE) :
    ∃ f, formula_parse (a ++ b) = .accept f ∧ f.coefficient = fa.coefficient ∧
      ∀ x, count_of x f.elements = count_of x fa.elements + count_of x fb.elements := by
  obtain ⟨wsa, dsa, pa, tsa, hsa, hwa, hda, hpa, hfa, hne, hcoef⟩ := formula_parse_accept a fa ha
  obtain ⟨tsb, hqb, hfb⟩ := formula_parse_accept_plain b fb hb hnd
  have hEa := fold_tokens_entries pa tsa hpa fa.elements hfa
  have hEb := fold_tokens_entries b tsb hqb fb.elements hfb
  have hcb : ∀ t ∈ tsb, is_candidate t.symbol = true :=
    fun t ht => (lexed_tokens b tsb hqb t ht).1
  have hFSb := fold_tokens_first_seen tsb [] fb.elements [] hcb first_seen_nil hfb
  simp only [List.nil_append] at hFSb
  have hcat : ∀ t ∈ tsb, is_catalog_symbol t.symbol = true := by
    have hfbne : fb.elements ≠ [] := by
      obtain ⟨_, _, _, _, _, _, _, _, _, h1, _⟩ := formula_parse_accept b fb hb
      exact h1
    exact ((fold_tokens_some_iff b tsb hqb).mp ⟨fb.elements, hfb, hfbne⟩).2.1
  have hcard : ((fa.elements.map (fun e => symbol_of e.element)).toFinset ∪
      (tsb.map Token.symbol).toFinset).card ≤ MAX_ATOMS_PER_MOLECULE := by
    have hsub : ((fa.elements.map (fun e => symbol_of e.element)).toFinset ∪
        (tsb.map Token.symbol).toFinset) ⊆
        (((fa.elements ++ fb.elements).map ElementCount.element).toFinset).image symbol_of := by
      intro x hx
      rw [Finset.mem_union, List.mem_toFinset, List.mem_toFinset] at hx
      rw [Finset.mem_image]
      rcases hx with hx | hx
      · obtain ⟨e, he, hxe⟩ := List.mem_map.mp hx
        refine ⟨e.element, ?_, hxe⟩
        rw [List.mem_toFinset]
        exact List.mem_map.mpr ⟨e, List.mem_append_left _ he, rfl⟩
      · obtain ⟨i, hi, hxi⟩ := (hFSb.2.1 x).mp hx
        refine ⟨i, ?_, hxi⟩
        rw [List.mem_toFinset, List.map_append]
        exact List.mem_append_right _ hi
    calc _ ≤ _ := Finset.card_le_card hsub
      _ ≤ (((fa.elements ++ fb.elements).map ElementCount.element).toFinset).card :=
        Finset.card_image_le
      _ = _ := List.card_toFinset _
      _ ≤ _ := hfit
  obtain ⟨es, hes⟩ := fold_tokens_fits tsb fa.elements hEa.1 hEa.2.2.2
    (fun t ht => ⟨hcb t ht, hcat t ht⟩) hcard
  have hfold : fold_tokens (tsa ++ tsb) [] = some es := by
    rw [fold_tokens_append, hfa]
    exact hes
  have hesne : es ≠ [] := by
    intro h0
    have hcov := (fold_tokens_covers tsb fa.elements es hes).1
    cases hfe : fa.elements with
    | nil => exact hne hfe
    | cons e rest =>
      have := hcov e.element (by rw [hfe]; simp)
      rw [h0] at this
      cases this
  have hparse : formula_parse (a ++ b) =
      .accept { elements := es, coefficient := if dsa = [] then 1 else digits_value dsa } := by
    have hsplit : a ++ b = wsa ++ dsa ++ (pa ++ b) := by rw [hsa]; simp
    rw [hsplit, formula_parse_of_lexed wsa dsa (pa ++ b) (tsa ++ tsb) hwa hda
      (lexed_append pa b tsa tsb hpa hqb), parse_body_of_lexed _ _ (lexed_append pa b tsa tsb hpa hqb)]
    simp only [hfold]
    unfold finish
    have hlen : es.length > 0 := List.length_pos.mpr hesne
    simp only [hlen, if_true]
  refine ⟨_, hparse, hcoef.symm, ?_⟩
  intro x
  simp only []
  by_cases hx : x < NUM_ELEMENTS
  · have h1 := fold_tokens_count_of tsb fa.elements es hcb hes x hx
    have h2 := fold_tokens_count_of tsb [] fb.elements hcb hfb x hx
    have h3 : count_of x [] = 0 := rfl
    rw [h1, h2, h3]
    omega
  · have hves := formula_parse_valid (a ++ b) _ hparse
    rw [count_of_invalid x es hves hx, count_of_invalid x fa.elements hEa.2.2.2 hx,
      count_of_invalid x fb.elements hEb.2.2.2 hx]
    rfl
/-! ## Arithmetic on 32 bits -/

theorem wrap_int_range (x : Int) : INT_MIN ≤ wrap_int x ∧ wrap_int x ≤ INT_MAX := by
  unfold wrap_int INT_MIN INT_MAX
  omega

theorem wrap_int_of_range (x : Int) (h1 : INT_MIN ≤ x) (h2 : x ≤ INT_MAX) : wrap_int x = x := by
  unfold wrap_int
  unfold INT_MIN at h1
  unfold INT_MAX at h2
  omega

theorem wrap_int_add_left (a b : Int) : wrap_int (wrap_int a + b) = wrap_int (a + b) := by
  unfold wrap_int
  omega

theorem wrap_int_add_right (a b : Int) : wrap_int (a + wrap_int b) = wrap_int (a + b) := by
  unfold wrap_int
  omega

theorem wrap_int_congr (a b : Int) (h : wrap_int a = wrap_int b) (c : Int) :
    wrap_int (a + c) = wrap_int (b + c) := by
  unfold wrap_int at h ⊢
  omega

theorem wrap_int_digit (n m : Int) (d : Int) (h : wrap_int n = wrap_int m) :
    wrap_int (wrap_int (wrap_int (n * 10) + d)) = wrap_int (m * 10 + d) := by
  unfold wrap_int at h ⊢
  omega

theorem isdigit_value (c : Nat) (h : isdigit c = true) :
    0 ≤ (c : Int) - 48 ∧ (c : Int) - 48 ≤ 9 := by
  simp only [isdigit, Bool.and_eq_true, decide_eq_true_eq] at h
  omega

/-! ## The digit loop on 32 bits -/

theorem parse_digits32_cursor (p : List Nat) : ∀ n m : Int,
    (parse_digits32 n p).2 = (parse_digits m p).2 := by
  induction p with
  | nil => intro n m; rfl
  | cons c p ih =>
    intro n m
    unfold parse_digits32 parse_digits
    by_cases hc : isdigit c = true
    · simp only [hc, if_true]
      exact ih _ _
    · simp only [hc, Bool.false_eq_true, if_false]

theorem parse_digits_ge (p : List Nat) : ∀ n : Int, 0 ≤ n → n ≤ (parse_digits n p).1 := by
  induction p with
  | nil => intro n _; exact le_refl n
  | cons c p ih =>
    intro n hn
    unfold parse_digits
    by_cases hc : isdigit c = true
    · simp only [hc, if_true]
      have hd := isdigit_value c hc
      have := ih (n * 10 + ((c : Int) - 48)) (by omega)
      omega
    · simp only [hc, Bool.false_eq_true, if_false]
      exact le_refl n

/-- While the value read stays within `int`, the digit loop on 32 bits reads
the exact value. -/
theorem parse_digits32_exact (p : List Nat) : ∀ n : Int, 0 ≤ n →
    (parse_digits n p).1 ≤ INT_MAX → parse_digits32 n p = parse_digits n p := by
  induction p with
  | nil => intro n _ _; rfl
  | cons c p ih =>
    intro n hn hb
    unfold parse_digits at hb ⊢
    unfold parse_digits32
    by_cases hc : isdigit c = true
    · simp only [hc, if_true] at hb ⊢
      have hd := isdigit_value c hc
      have hge := parse_digits_ge p (n * 10 + ((c : Int) - 48)) (by omega)
      have h1 : wrap_int (n * 10) = n * 10 :=
        wrap_int_of_range _ (by unfold INT_MIN; omega) (by omega)
      have h2 : wrap_int (n * 10 + ((c : Int) - 48)) = n * 10 + ((c : Int) - 48) :=
        wrap_int_of_range _ (by unfold INT_MIN; omega) (by omega)
      rw [h1, h2]
      exact ih _ (by omega) hb
    · simp only [hc, Bool.false_eq_true, if_false]

theorem parse_digits32_wrap (p : List Nat) : ∀ n m : Int, wrap_int n = wrap_int m →
    wrap_int (parse_digits32 n p).1 = wrap_int (parse_digits m p).1 := by
  induction p with
  | nil => intro n m h; exact h
  | cons c p ih =>
    intro n m h
    unfold parse_digits32 parse_digits
    by_cases hc : isdigit c = true
    · simp only [hc, if_true]
      exact ih _ _ (wrap_int_digit n m _ h)
    · simp only [hc, Bool.false_eq_true, if_false]
      exact h

theorem parse_digits32_range (p : List Nat) : ∀ n : Int, INT_MIN ≤ n → n ≤ INT_MAX →
    INT_MIN ≤ (parse_digits32 n p).1 ∧ (parse_digits32 n p).1 ≤ INT_MAX := by
  induction p with
  | nil => intro n h1 h2; exact ⟨h1, h2⟩
  | cons c p ih =>
    intro n h1 h2
    unfold parse_digits32
    by_cases hc : isdigit c = true
    · simp only [hc, if_true]
      exact ih _ (wrap_int_range _).1 (wrap_int_range _).2
    · simp only [hc, Bool.false_eq_true, if_false]
      exact ⟨h1, h2⟩

/-- The value the digit loop on 32 bits reads from 0 is the exact value
reduced to 32 bits. -/
theorem parse_digits32_value (p : List Nat) :
    (parse_digits32 0 p).1 = wrap_int (digits_value (p.takeWhile isdigit)) := by
  have hr := parse_digits32_range p 0 (by decide) (by decide)
  rw [← wrap_int_of_range _ hr.1 hr.2, parse_digits32_wrap p 0 0 rfl, parse_digits_value]
  rfl

/-! ## Entries on 32 bits -/

theorem update_existing32_none_iff (el : Nat) (n : Int) (es : List ElementCount) :
    update_existing32 el n es = none ↔ el ∉ es.map ElementCount.element := by
  induction es with
  | nil => simp [update_existing32]
  | cons e es ih =>
    unfold update_existing32
    by_cases h : e.element = el
    · simp [h]
    · simp only [h, if_false, Option.map_eq_none', ih, List.map_cons, List.mem_cons, not_or]
      constructor
      · intro h2; exact ⟨fun h3 => h h3.symm, h2⟩
      · intro h2; exact h2.2

theorem update_existing32_elements (el : Nat) (n : Int) (es es1 : List ElementCount)
    (h : update_existing32 el n es = some es1) :
    es1.map ElementCount.element = es.map ElementCount.element ∧
      el ∈ es.map ElementCount.element := by
  induction es generalizing es1 with
  | nil => simp [update_existing32] at h
  | cons e es ih =>
    unfold update_existing32 at h
    split at h
    · rename_i he
      cases h
      simp [he]
    · cases hu : update_existing32 el n es with
      | none => rw [hu] at h; cases h
      | some es2 =>
        rw [hu] at h
        simp only [Option.map_some'] at h
        cases h
        obtain ⟨h1, h2⟩ := ih es2 hu
        simp [h1, h2]

theorem add_entry32_cases (el : Nat) (n : Int) (es es1 : List ElementCount)
    (h : add_entry32 el n es = some es1) :
    (el ∈ es.map ElementCount.element ∧ update_existing32 el n es = some es1 ∧
        es1.map ElementCount.element = es.map ElementCount.element) ∨
    (el ∉ es.map ElementCount.element ∧ es.length < MAX_ATOMS_PER_MOLECULE ∧
        es1 = es ++ [{ element := el, count := n }]) := by
  unfold add_entry32 at h
  cases hu : update_existing32 el n es with
  | some es2 =>
    rw [hu] at h
    cases h
    obtain ⟨h1, h2⟩ := update_existing32_elements el n es es1 hu
    exact Or.inl ⟨h2, rfl, h1⟩
  | none =>
    rw [hu] at h
    simp only [] at h
    have hnot := (update_existing32_none_iff el n es).mp hu
    by_cases hlen : es.length ≥ MAX_ATOMS_PER_MOLECULE
    · simp only [hlen, if_true] at h
      cases h
    · simp only [hlen, if_false] at h
      cases h
      exact Or.inr ⟨hnot, by omega, rfl⟩

theorem add_entry32_none_iff (el : Nat) (n : Int) (es : List ElementCount) :
    add_entry32 el n es = none ↔
      el ∉ es.map ElementCount.element ∧ MAX_ATOMS_PER_MOLECULE ≤ es.length := by
  unfold add_entry32
  cases hu : update_existing32 el n es with
  | some es2 =>
    have := (update_existing32_elements el n es es2 hu).2
    simp [this]
  | none =>
    have := (update_existing32_none_iff el n es).mp hu
    simp only [this, not_false_eq_true, true_and]
    constructor
    · intro h
      split at h
      · assumption
      · cases h
    · intro h
      simp [h]

/-- Whether an entry is added, and for which elements the entries stand
afterwards, does not depend on the counts. -/
theorem add_entry32_shape (el : Nat) (n m : Int) (es32 es es2 : List ElementCount)
    (hids : es32.map ElementCount.element = es.map ElementCount.element)
    (h : add_entry32 el n es32 = some es2) :
    ∃ es1, add_entry el m es = some es1 ∧
      es2.map ElementCount.element = es1.map ElementCount.element := by
  have hlen : es32.length = es.length := by
    have := congrArg List.length hids
    simpa using this
  cases ha : add_entry el m es with
  | none =>
    have h1 := (add_entry_none_iff el m es).mp ha
    have h2 := (add_entry32_none_iff el n es32).mpr ⟨by rw [hids]; exact h1.1, by omega⟩
    rw [h2] at h
    cases h
  | some es1 =>
    refine ⟨es1, rfl, ?_⟩
    rcases add_entry32_cases el n es32 es2 h with ⟨h1, _, h3⟩ | ⟨h1, _, h3⟩ <;>
      rcases add_entry_cases el m es es1 ha with ⟨g1, _, g3⟩ | ⟨g1, _, g3⟩
    · rw [h3, g3, hids]
    · rw [hids] at h1; exact absurd h1 g1
    · rw [hids] at h1; exact absurd g1 h1
    · rw [h3, g3]
      simp [hids]

theorem update_existing32_exact (el : Nat) (n : Int) (hn : 1 ≤ n) :
    ∀ es es1 : List ElementCount, update_existing el n es = some es1 →
      (∀ e ∈ es1, e.count ≤ INT_MAX) → (∀ e ∈ es, 1 ≤ e.count) →
      update_existing32 el n es = some es1 := by
  intro es
  induction es with
  | nil => intro es1 h; simp [update_existing] at h
  | cons e es ih =>
    intro es1 h hb hpos
    unfold update_existing at h
    unfold update_existing32
    by_cases he : e.element = el
    · simp only [he, if_true] at h ⊢
      cases h
      have h1 := hb _ (List.mem_cons_self _ _)
      have h2 := hpos e (List.mem_cons_self _ _)
      simp only [] at h1
      rw [wrap_int_of_range _ (by unfold INT_MIN; omega) h1]
    · simp only [he, if_false] at h ⊢
      cases hu : update_existing el n es with
      | none => rw [hu] at h; cases h
      | some es2 =>
        rw [hu] at h
        simp only [Option.map_some'] at h
        cases h
        rw [ih es2 hu (fun x hx => hb x (List.mem_cons_of_mem e hx))
          (fun x hx => hpos x (List.mem_cons_of_mem e hx))]
        rfl

/-- While the counts stay within `int`, an entry is added on 32 bits as it is
with exact integers. -/
theorem add_entry32_exact (el : Nat) (n : Int) (hn : 1 ≤ n) (es es1 : List ElementCount)
    (h : add_entry el n es = some es1) (hb : ∀ e ∈ es1, e.count ≤ INT_MAX)
    (hpos : ∀ e ∈ es, 1 ≤ e.count) : add_entry32 el n es = some es1 := by
  rcases add_entry_cases el n es es1 h with ⟨_, h2, _⟩ | ⟨h1, h2, h3⟩
  · unfold add_entry32
    rw [update_existing32_exact el n hn es es1 h2 hb hpos]
  · unfold add_entry32
    rw [(update_existing32_none_iff el n es).mpr h1]
    have hlen : ¬ (es.length ≥ MAX_ATOMS_PER_MOLECULE) := by omega
    simp only [hlen, if_false, h3]

theorem update_existing_dominates (el : Nat) (n : Int) (hn : 0 ≤ n) :
    ∀ es es1 : List ElementCount, update_existing el n es = some es1 →
      (∀ e ∈ es, 0 ≤ e.count) →
      (∀ e ∈ es, ∃ e1, e1 ∈ es1 ∧ e.count ≤ e1.count) ∧ ∃ e1, e1 ∈ es1 ∧ n ≤ e1.count := by
  intro es
  induction es with
  | nil => intro es1 h; simp [update_existing] at h
  | cons e es ih =>
    intro es1 h hpos
    unfold update_existing at h
    by_cases he : e.element = el
    · simp only [he, if_true] at h
      cases h
      have h0 := hpos e (List.mem_cons_self _ _)
      constructor
      · intro x hx
        rcases List.mem_cons.mp hx with hx | hx
        · exact ⟨_, List.mem_cons_self _ _, by rw [hx]; simp only []; omega⟩
        · exact ⟨x, List.mem_cons_of_mem _ hx, le_refl _⟩
      · exact ⟨_, List.mem_cons_self _ _, by simp only []; omega⟩
    · simp only [he, if_false] at h
      cases hu : update_existing el n es with
      | none => rw [hu] at h; cases h
      | some es2 =>
        rw [hu] at h
        simp only [Option.map_some'] at h
        cases h
        obtain ⟨h1, e1, he1, hn1⟩ := ih es2 hu (fun x hx => hpos x (List.mem_cons_of_mem e hx))
        constructor
        · intro x hx
          rcases List.mem_cons.mp hx with hx | hx
          · exact ⟨e, List.mem_cons_self _ _, by rw [hx]⟩
          · obtain ⟨y, hy, hxy⟩ := h1 x hx
            exact ⟨y, List.mem_cons_of_mem _ hy, hxy⟩
        · exact ⟨e1, List.mem_cons_of_mem _ he1, hn1⟩

theorem add_entry_dominates (el : Nat) (n : Int) (hn : 0 ≤ n) (es es1 : List ElementCount)
    (h : add_entry el n es = some es1) (hpos : ∀ e ∈ es, 0 ≤ e.count) :
    (∀ e ∈ es, ∃ e1, e1 ∈ es1 ∧ e.count ≤ e1.count) ∧ ∃ e1, e1 ∈ es1 ∧ n ≤ e1.count := by
  rcases add_entry_cases el n es es1 h with ⟨_, h2, _⟩ | ⟨_, _, h3⟩
  · exact update_existing_dominates el n hn es es1 h2 hpos
  · subst h3
    constructor
    · intro x hx
      exact ⟨x, List.mem_append_left _ hx, le_refl _⟩
    · exact ⟨_, List.mem_append_right _ (List.mem_singleton_self _), le_refl _⟩
/-! ## The parser on 32 bits against the parser on exact integers -/

theorem same_ids_length (es32 es : List ElementCount)
    (h : es32.map ElementCount.element = es.map ElementCount.element) :
    es32.length = es.length := by
  have := congrArg List.length h
  simpa using this

/-- Where the parser on 32 bits accepts, the parser on exact integers accepts,
with entries for the same elements in the same order: the path through the
main loop does not depend on the counts. The coefficient is not touched by
the loop. -/
theorem parse_loop32_shape (fuel : Nat) : ∀ (p : List Nat) (res32 res g : Formula),
    res32.elements.map ElementCount.element = res.elements.map ElementCount.element →
    parse_loop32 fuel p res32 = .accept g →
    ∃ f, parse_loop fuel p res = .accept f ∧
      g.elements.map ElementCount.element = f.elements.map ElementCount.element ∧
      g.coefficient = res32.coefficient := by
  induction fuel with
  | zero => intro p res32 res g _ h; simp [parse_loop32] at h
  | succ n ih =>
    intro p res32 res g hids h
    unfold parse_loop32 at h
    unfold parse_loop
    cases hsp : skip_space p with
    | nil =>
      rw [hsp] at h
      simp only [] at h ⊢
      obtain ⟨hne, hg⟩ := (finish_accept_iff res32 g).mp h
      refine ⟨res, (finish_accept_iff res res).mpr ⟨?_, rfl⟩, by rw [hg]; exact hids, by rw [hg]⟩
      intro h0
      apply hne
      have := same_ids_length _ _ hids
      rw [h0] at this
      exact List.length_eq_zero.mp this
    | cons c q =>
      rw [hsp] at h
      simp only [] at h ⊢
      by_cases hu : isupper c = true
      · simp only [hu, Bool.not_true, Bool.false_eq_true, if_false] at h ⊢
        cases hel : element_by_symbol (read_symbol c q).1 with
        | none => rw [hel] at h; cases h
        | some el =>
          rw [hel] at h
          simp only [] at h ⊢
          cases ha : add_entry32 el
              (if ((parse_digits32 0 (read_symbol c q).2).1 == 0) = true then 1
                else (parse_digits32 0 (read_symbol c q).2).1) res32.elements with
          | none => rw [ha] at h; cases h
          | some es2 =>
            rw [ha] at h
            simp only [] at h
            obtain ⟨es1, he1, hids1⟩ := add_entry32_shape el _
              (if ((parse_digits 0 (read_symbol c q).2).1 == 0) = true then 1
                else (parse_digits 0 (read_symbol c q).2).1) res32.elements res.elements es2
              hids ha
            rw [he1]
            simp only []
            rw [← parse_digits32_cursor (read_symbol c q).2 0 0]
            exact ih _ { res32 with elements := es2 } { res with elements := es1 } g hids1 h
      · have hu2 : isupper c = false := by simpa using hu
        simp only [hu2, Bool.not_false, if_true] at h ⊢
        by_cases hp : (c == 40 || c == 41) = true
        · simp only [hp, if_true] at h ⊢
          exact ih q res32 res g hids h
        · simp only [hp, Bool.false_eq_true, if_false] at h
          cases h

/-- The counts only grow along the main loop on exact integers. -/
theorem parse_loop_dominates (fuel : Nat) : ∀ (p : List Nat) (res f : Formula),
    parse_loop fuel p res = .accept f → (∀ e ∈ res.elements, 1 ≤ e.count) →
    ∀ e ∈ res.elements, ∃ e1, e1 ∈ f.elements ∧ e.count ≤ e1.count := by
  induction fuel with
  | zero => intro p res f h; simp [parse_loop] at h
  | succ n ih =>
    intro p res f h hpos
    unfold parse_loop at h
    cases hsp : skip_space p with
    | nil =>
      rw [hsp] at h
      simp only [] at h
      obtain ⟨_, hf⟩ := (finish_accept_iff res f).mp h
      intro e he
      exact ⟨e, by rw [hf]; exact he, le_refl _⟩
    | cons c q =>
      rw [hsp] at h
      simp only [] at h
      by_cases hu : isupper c = true
      · simp only [hu, Bool.not_true, Bool.false_eq_true, if_false] at h
        cases hel : element_by_symbol (read_symbol c q).1 with
        | none => rw [hel] at h; cases h
        | some el =>
          rw [hel] at h
          simp only [] at h
          have hv := parse_digits_ge (read_symbol c q).2 0 (le_refl 0)
          have hcnt : 1 ≤ (if ((parse_digits 0 (read_symbol c q).2).1 == 0) = true then 1
              else (parse_digits 0 (read_symbol c q).2).1) := by
            by_cases hz : ((parse_digits 0 (read_symbol c q).2).1 == 0) = true
            · simp only [hz, if_true]; exact le_refl 1
            · simp only [hz, Bool.false_eq_true, if_false]
              have : (parse_digits 0 (read_symbol c q).2).1 ≠ 0 := by simpa using hz
              omega
          cases ha : add_entry el
              (if ((parse_digits 0 (read_symbol c q).2).1 == 0) = true then 1
                else (parse_digits 0 (read_symbol c q).2).1) res.elements with
          | none => rw [ha] at h; cases h
          | some es1 =>
            rw [ha] at h
            simp only [] at h
            have hpos1 := add_entry_counts el _ hcnt res.elements es1 ha hpos
            have hdom := (add_entry_dominates el _ (by omega) res.elements es1 ha
              (fun e he => by have := hpos e he; omega)).1
            have hrest := ih _ { res with elements := es1 } f h hpos1
            intro e he
            obtain ⟨e1, he1, h1⟩ := hdom e he
            obtain ⟨e2, he2, h2⟩ := hrest e1 he1
            exact ⟨e2, he2, by omega⟩
      · have hu2 : isupper c = false := by simpa using hu
        simp only [hu2, Bool.not_false, if_true] at h
        by_cases hp : (c == 40 || c == 41) = true
        · simp only [hp, if_true] at h
          exact ih q res f h hpos
        · simp only [hp, Bool.false_eq_true, if_false] at h
          cases h

/-- When the counts the parser reaches on exact integers are all within
`int`, the parser on 32 bits reaches the same entries. -/
theorem parse_loop32_exact (fuel : Nat) : ∀ (p : List Nat) (res f : Formula) (c32 : Int),
    parse_loop fuel p res = .accept f → (∀ e ∈ res.elements, 1 ≤ e.count) →
    (∀ e ∈ f.elements, e.count ≤ INT_MAX) →
    parse_loop32 fuel p { res with coefficient := c32 } =
      .accept { f with coefficient := c32 } := by
  induction fuel with
  | zero => intro p res f c32 h; simp [parse_loop] at h
  | succ n ih =>
    intro p res f c32 h hpos hb
    unfold parse_loop at h
    unfold parse_loop32
    cases hsp : skip_space p with
    | nil =>
      rw [hsp] at h
      simp only [] at h ⊢
      obtain ⟨hne, hf⟩ := (finish_accept_iff res f).mp h
      rw [hf]
      exact (finish_accept_iff _ _).mpr ⟨hne, rfl⟩
    | cons c q =>
      rw [hsp] at h
      simp only [] at h ⊢
      by_cases hu : isupper c = true
      · simp only [hu, Bool.not_true, Bool.false_eq_true, if_false] at h ⊢
        cases hel : element_by_symbol (read_symbol c q).1 with
        | none => rw [hel] at h; cases h
        | some el =>
          rw [hel] at h
          simp only [] at h ⊢
          have hv := parse_digits_ge (read_symbol c q).2 0 (le_refl 0)
          have hcnt : 1 ≤ (if ((parse_digits 0 (read_symbol c q).2).1 == 0) = true then 1
              else (parse_digits 0 (read_symbol c q).2).1) ∧
              (parse_digits 0 (read_symbol c q).2).1 ≤
                (if ((parse_digits 0 (read_symbol c q).2).1 == 0) = true then 1
                  else (parse_digits 0 (read_symbol c q).2).1) := by
            by_cases hz : ((parse_digits 0 (read_symbol c q).2).1 == 0) = true
            · simp only [hz, if_true]
              have : (parse_digits 0 (read_symbol c q).2).1 = 0 := by simpa using hz
              omega
            · simp only [hz, Bool.false_eq_true, if_false]
              have : (parse_digits 0 (read_symbol c q).2).1 ≠ 0 := by simpa using hz
              omega
          cases ha : add_entry el
              (if ((parse_digits 0 (read_symbol c q).2).1 == 0) = true then 1
                else (parse_digits 0 (read_symbol c q).2).1) res.elements with
          | none => rw [ha] at h; cases h
          | some es1 =>
            rw [ha] at h
            simp only [] at h
            have hpos1 := add_entry_counts el _ hcnt.1 res.elements es1 ha hpos
            have hdomf := parse_loop_dominates n _ { res with elements := es1 } f h hpos1
            have hb1 : ∀ e ∈ es1, e.count ≤ INT_MAX := by
              intro e he
              obtain ⟨e1, he1, h1⟩ := hdomf e he
              have := hb e1 he1
              omega
            obtain ⟨e0, he0, h0⟩ := (add_entry_dominates el _ (by omega) res.elements es1 ha
              (fun e he => by have := hpos e he; omega)).2
            have hnum : (parse_digits 0 (read_symbol c q).2).1 ≤ INT_MAX := by
              have := hb1 e0 he0
              omega
            rw [parse_digits32_exact _ 0 (le_refl 0) hnum,
              add_entry32_exact el _ hcnt.1 res.elements es1 ha hb1 hpos]
            simp only []
            exact ih _ { res with elements := es1 } f c32 h hpos1 hb
      · have hu2 : isupper c = false := by simpa using hu
        simp only [hu2, Bool.not_false, if_true] at h ⊢
        by_cases hp : (c == 40 || c == 41) = true
        · simp only [hp, if_true] at h ⊢
          exact ih q res f c32 h hpos hb
        · simp only [hp, Bool.false_eq_true, if_false] at h
          cases h

/-- The coefficient `formula_parse` stores on 32 bits. -/
theorem formula_parse32_eq (s : List Nat) :
    formula_parse32 s =
      parse_loop32
        ((if starts_with isdigit (skip_space s) then parse_digits 0 (skip_space s)
          else (1, skip_space s)).2.length + 1)
        (if starts_with isdigit (skip_space s) then parse_digits 0 (skip_space s)
          else (1, skip_space s)).2
        { elements := [],
          coefficient := if starts_with isdigit (skip_space s) then
            (parse_digits32 0 (skip_space s)).1 else 1 } := by
  unfold formula_parse32
  by_cases hd : starts_with isdigit (skip_space s) = true
  · simp only [hd, if_true]
    rw [parse_digits32_cursor (skip_space s) 0 0]
  · simp only [hd, Bool.false_eq_true, if_false]

/-- Where `formula_parse` accepts on 32 bits, it accepts on exact integers,
with entries for the same elements in the same order. -/
theorem formula_parse32_accept_exact (s : List Nat) (g : Formula)
    (h : formula_parse32 s = .accept g) :
    ∃ f, formula_parse s = .accept f ∧
      g.elements.map ElementCount.element = f.elements.map ElementCount.element ∧
      g.coefficient = (if starts_with isdigit (skip_space s) then
        (parse_digits32 0 (skip_space s)).1 else 1) := by
  rw [formula_parse32_eq] at h
  obtain ⟨f, hf, hids, hc⟩ := parse_loop32_shape _ _
    { elements := [], coefficient := (if starts_with isdigit (skip_space s) then
        (parse_digits32 0 (skip_space s)).1 else 1) }
    { elements := [], coefficient := (if starts_with isdigit (skip_space s) then
        parse_digits 0 (skip_space s) else (1, skip_space s)).1 } g rfl h
  exact ⟨f, hf, hids, hc⟩

/-- When the counts `formula_parse` computes on exact integers are all within
`int`, `formula_parse` on 32 bits accepts with the same entries. -/
theorem formula_parse32_of_exact (s : List Nat) (f : Formula)
    (h : formula_parse s = .accept f) (hb : ∀ e ∈ f.elements, e.count ≤ INT_MAX) :
    formula_parse32 s = .accept { f with coefficient :=
      (if starts_with isdigit (skip_space s) then (parse_digits32 0 (skip_space s)).1
        else 1) } := by
  rw [formula_parse32_eq]
  exact parse_loop32_exact _ _
    { elements := [], coefficient := (if starts_with isdigit (skip_space s) then
        parse_digits 0 (skip_space s) else (1, skip_space s)).1 } f _ h
    (fun e he => by cases he) hb

/-- The entries of a formula accepted on 32 bits as the entries accepted on
exact integers, when those are within `int`. -/
theorem formula_parse32_elements (s : List Nat) (g f : Formula)
    (hg : formula_parse32 s = .accept g) (hf : formula_parse s = .accept f)
    (hb : ∀ e ∈ f.elements, e.count ≤ INT_MAX) : g.elements = f.elements := by
  rw [formula_parse32_of_exact s f hf hb] at hg
  cases hg
  rfl
/-! ## Ranges of the values stored on 32 bits -/

theorem update_existing32_range (el : Nat) (n : Int) :
    ∀ es es1 : List ElementCount, update_existing32 el n es = some es1 →
      (∀ e ∈ es, e.count ≤ INT_MAX) → ∀ e ∈ es1, e.count ≤ INT_MAX := by
  intro es
  induction es with
  | nil => intro es1 h; simp [update_existing32] at h
  | cons e es ih =>
    intro es1 h hb
    unfold update_existing32 at h
    by_cases he : e.element = el
    · simp only [he, if_true] at h
      cases h
      intro x hx
      rcases List.mem_cons.mp hx with hx | hx
      · rw [hx]; exact (wrap_int_range _).2
      · exact hb x (List.mem_cons_of_mem e hx)
    · simp only [he, if_false] at h
      cases hu : update_existing32 el n es with
      | none => rw [hu] at h; cases h
      | some es2 =>
        rw [hu] at h
        simp only [Option.map_some'] at h
        cases h
        intro x hx
        rcases List.mem_cons.mp hx with hx | hx
        · rw [hx]; exact hb e (List.mem_cons_self e es)
        · exact ih es2 hu (fun y hy => hb y (List.mem_cons_of_mem e hy)) x hx

theorem add_entry32_range (el : Nat) (n : Int) (hn : n ≤ INT_MAX) (es es1 : List ElementCount)
    (h : add_entry32 el n es = some es1) (hb : ∀ e ∈ es, e.count ≤ INT_MAX) :
    ∀ e ∈ es1, e.count ≤ INT_MAX := by
  rcases add_entry32_cases el n es es1 h with ⟨_, h2, _⟩ | ⟨_, _, h3⟩
  · exact update_existing32_range el n es es1 h2 hb
  · subst h3
    intro e he
    rcases List.mem_append.mp he with he | he
    · exact hb e he
    · rw [List.mem_singleton] at he
      rw [he]; exact hn

/-- Every count the parser stores on 32 bits is at most `INT_MAX`. -/
theorem parse_loop32_range (fuel : Nat) : ∀ (p : List Nat) (res g : Formula),
    parse_loop32 fuel p res = .accept g → (∀ e ∈ res.elements, e.count ≤ INT_MAX) →
    ∀ e ∈ g.elements, e.count ≤ INT_MAX := by
  induction fuel with
  | zero => intro p res g h; simp [parse_loop32] at h
  | succ n ih =>
    intro p res g h hb
    unfold parse_loop32 at h
    cases hsp : skip_space p with
    | nil =>
      rw [hsp] at h
      simp only [] at h
      obtain ⟨_, hg⟩ := (finish_accept_iff res g).mp h
      rw [hg]; exact hb
    | cons c q =>
      rw [hsp] at h
      simp only [] at h
      by_cases hu : isupper c = true
      · simp only [hu, Bool.not_true, Bool.false_eq_true, if_false] at h
        cases hel : element_by_symbol (read_symbol c q).1 with
        | none => rw [hel] at h; cases h
        | some el =>
          rw [hel] at h
          simp only [] at h
          have hr := (parse_digits32_range (read_symbol c q).2 0 (by decide) (by decide)).2
          have hcnt : (if ((parse_digits32 0 (read_symbol c q).2).1 == 0) = true then 1
              else (parse_digits32 0 (read_symbol c q).2).1) ≤ INT_MAX := by
            by_cases hz : ((parse_digits32 0 (read_symbol c q).2).1 == 0) = true
            · simp only [hz, if_true]; decide
            · simp only [hz, Bool.false_eq_true, if_false]; exact hr
          cases ha : add_entry32 el
              (if ((parse_digits32 0 (read_symbol c q).2).1 == 0) = true then 1
                else (parse_digits32 0 (read_symbol c q).2).1) res.elements with
          | none => rw [ha] at h; cases h
          | some es1 =>
            rw [ha] at h
            simp only [] at h
            exact ih _ { res with elements := es1 } g h
              (add_entry32_range el _ hcnt res.elements es1 ha hb)
      · have hu2 : isupper c = false := by simpa using hu
        simp only [hu2, Bool.not_false, if_true] at h
        by_cases hp : (c == 40 || c == 41) = true
        · simp only [hp, if_true] at h
          exact ih q res g h hb
        · simp only [hp, Bool.false_eq_true, if_false] at h
          cases h

theorem formula_parse32_range (s : List Nat) (g : Formula)
    (h : formula_parse32 s = .accept g) : ∀ e ∈ g.elements, e.count ≤ INT_MAX := by
  rw [formula_parse32_eq] at h
  exact parse_loop32_range _ _ _ g h (fun e he => by cases he)

/-- The entries of a formula accepted on 32 bits stand for pairwise distinct
catalog elements, at most `MAX_ATOMS_PER_MOLECULE` of them and at least
one. -/
theorem formula_parse32_entries (s : List Nat) (g : Formula)
    (h : formula_parse32 s = .accept g) :
    (g.elements.map ElementCount.element).Nodup ∧
      (∀ e ∈ g.elements, e.element < NUM_ELEMENTS) ∧
      g.elements.length ≤ MAX_ATOMS_PER_MOLECULE ∧ g.elements ≠ [] := by
  obtain ⟨f, hf, hids, _⟩ := formula_parse32_accept_exact s g h
  obtain ⟨ws, ds, p, ts, _, _, _, hp, hfold, hne, _⟩ := formula_parse_accept s f hf
  obtain ⟨hnd, _, hlen, hv⟩ := fold_tokens_entries p ts hp f.elements hfold
  have hl := same_ids_length _ _ hids
  refine ⟨by rw [hids]; exact hnd, ?_, by omega, ?_⟩
  · intro e he
    have hmem : e.element ∈ f.elements.map ElementCount.element := by
      rw [← hids]; exact List.mem_map_of_mem _ he
    obtain ⟨e1, he1, h1⟩ := List.mem_map.mp hmem
    rw [← h1]; exact hv e1 he1
  · intro h0
    rw [h0] at hl
    exact hne (List.length_eq_zero.mp hl.symm)

/-! ## The round trip and the token sums on exact integers -/

/-- The text `formula_to_string` writes for a formula with pairwise distinct
catalog elements and counts at least 1 parses back, on exact integers, to
the same entries. -/
theorem formula_round_trip_entries (f : Formula) (buffer_size : Nat) (text : List Nat)
    (hnd : (f.elements.map ElementCount.element).Nodup) (hpos : ∀ e ∈ f.elements, 1 ≤ e.count)
    (hlen : f.elements.length ≤ MAX_ATOMS_PER_MOLECULE)
    (hv : ∀ e ∈ f.elements, e.element < NUM_ELEMENTS) (hne : f.elements ≠ [])
    (hprint : formula_to_string f buffer_size = some text) :
    ∃ c, formula_parse text = .accept (Formula.mk f.elements c) := by
  have htext := formula_to_string_text f buffer_size text hprint
  have hdig : ∀ c ∈ (if f.coefficient > 1 then decimal f.coefficient.toNat else []),
      isdigit c = true := by
    split
    · exact (decimal_spec _).2.1
    · intro c hc; cases hc
  have hlex := lexed_entries_text f.elements hv
  have hfold := fold_tokens_entry_tokens f.elements [] (by simpa using hnd)
    (by simpa using hlen) (fun e he => ⟨hpos e he, hv e he⟩)
  rw [List.nil_append] at hfold
  have hrun := formula_parse_of_lexed []
    (if f.coefficient > 1 then decimal f.coefficient.toNat else [])
    (entries_text f.elements) _ (by simp) hdig hlex
  rw [List.nil_append, ← htext] at hrun
  refine ⟨(if (if f.coefficient > 1 then decimal f.coefficient.toNat else []) = [] then 1
      else digits_value (if f.coefficient > 1 then decimal f.coefficient.toNat else [])), ?_⟩
  rw [hrun]
  exact (parse_body_accept_iff _ _ _).mpr ⟨_, f.elements, hlex, hfold, hne, rfl⟩

/-- On exact integers the count stored for an element is the sum of the
counts of its tokens, with the zero rule. -/
theorem formula_parse_token_sums (ws ds p : List Nat) (ts : List Token) (f : Formula)
    (h : formula_parse (ws ++ ds ++ p) = .accept f) (hw : ∀ c ∈ ws, isspace c = true)
    (hd : ∀ c ∈ ds, isdigit c = true) (hp : Lexed p ts) :
    (∀ e ∈ f.elements, e.element < NUM_ELEMENTS ∧
      e.count = token_total recorded_count ts e.element) ∧
    (∀ el, el < NUM_ELEMENTS → (∀ e ∈ f.elements, e.element ≠ el) →
      token_total recorded_count ts el = 0) := by
  have hf := formula_parse_accept_tokens ws ds p ts f h hw hd hp
  obtain ⟨hnd, _, _, hv⟩ := fold_tokens_entries p ts hp f.elements hf
  have hsum := fold_tokens_count_of ts [] f.elements
    (fun t ht => (lexed_tokens p ts hp t ht).1) hf
  constructor
  · intro e he
    have := hsum e.element (hv e he)
    rw [count_of_mem f.elements e hnd he] at this
    exact ⟨hv e he, by simpa [count_of] using this⟩
  · intro el hel habs
    have := hsum el hel
    rw [count_of_absent el f.elements habs] at this
    simpa [count_of] using this.symm
/-! ## The atom totals on 32 bits -/

theorem wrap_int_step2 (x s t : Int) :
    wrap_int (wrap_int (x + s) + t) = wrap_int (x + (s + t)) := by
  unfold wrap_int
  omega

theorem takeWhile_digits_append (ds y : List Nat) (hd : ∀ c ∈ ds, isdigit c = true)
    (hy : starts_with isdigit y = false) : (ds ++ y).takeWhile isdigit = ds := by
  induction ds with
  | nil => exact (takeWhile_digit_nil_iff y).mpr hy
  | cons c ds ih =>
    rw [List.cons_append, List.takeWhile_cons_of_pos (hd c (List.mem_cons_self c ds)),
      ih (fun x hx => hd x (List.mem_cons_of_mem c hx))]

/-- The coefficient `formula_parse` stores on 32 bits: 1 without leading digit
run, else the value of the run reduced to 32 bits. -/
theorem formula_parse32_coefficient_eq (s : List Nat) (g : Formula)
    (h : formula_parse32 s = .accept g) :
    g.coefficient =
      if (skip_space s).takeWhile isdigit = [] then 1
      else wrap_int (digits_value ((skip_space s).takeWhile isdigit)) := by
  obtain ⟨_, _, _, hc⟩ := formula_parse32_accept_exact s g h
  rw [hc]
  by_cases hd : starts_with isdigit (skip_space s) = true
  · have hne : (skip_space s).takeWhile isdigit ≠ [] := by
      intro h0
      rw [(takeWhile_digit_nil_iff _).mp h0] at hd
      cases hd
    simp only [hd, if_true, hne, if_false]
    exact parse_digits32_value _
  · have hd2 : starts_with isdigit (skip_space s) = false := by simpa using hd
    simp only [hd2, Bool.false_eq_true, if_false, (takeWhile_digit_nil_iff _).mpr hd2, if_true]

theorem not_digit_of_plain (b : List Nat) (h : starts_with isdigit (skip_space b) = false) :
    starts_with isdigit b = false := by
  cases b with
  | nil => rfl
  | cons c r =>
    by_cases hs : isspace c = true
    · exact not_digit_of_space c hs
    · have hs2 : isspace c = false := by simpa using hs
      rw [skip_space_cons_other c r hs2] at h
      exact h

/-- The leading digit run of an accepted string is not changed by a string
without leading coefficient put after it. -/
theorem leading_run_append (a b : List Nat) (fa : Formula) (ha : formula_parse a = .accept fa)
    (hplain : starts_with isdigit (skip_space b) = false) :
    (skip_space (a ++ b)).takeWhile isdigit = (skip_space a).takeWhile isdigit := by
  obtain ⟨ws, ds, p, ts, hs, hw, hd, hp, _, _, _⟩ := formula_parse_accept a fa ha
  have hb := not_digit_of_plain b hplain
  subst hs
  by_cases hne : ds = []
  · subst hne
    simp only [List.append_nil, List.append_assoc]
    rw [skip_space_append_spaces ws _ hw, skip_space_append_spaces ws _ hw]
    have h1 := lexed_head p ts hp b hplain
    have h2 := lexed_head p ts hp [] rfl
    rw [List.append_nil] at h2
    rw [(takeWhile_digit_nil_iff _).mpr h1, (takeWhile_digit_nil_iff _).mpr h2]
  · have e1 : ws ++ ds ++ p ++ b = ws ++ (ds ++ (p ++ b)) := by simp
    have e2 : ws ++ ds ++ p = ws ++ (ds ++ p) := by simp
    rw [e1, e2, skip_space_append_spaces ws _ hw, skip_space_append_spaces ws _ hw,
      skip_space_digits ds _ hd hne, skip_space_digits ds _ hd hne,
      takeWhile_digits_append ds _ hd
        (starts_with_append_false isdigit p b (lexed_not_digit p ts hp) hb),
      takeWhile_digits_append ds _ hd (lexed_not_digit p ts hp)]

theorem count_of_nonneg (x : Nat) (es : List ElementCount) (h : ∀ e ∈ es, 0 ≤ e.count) :
    0 ≤ count_of x es := by
  induction es with
  | nil => simp [count_of]
  | cons e es ih =>
    rw [count_of_cons]
    have h1 := h e (List.mem_cons_self e es)
    have h2 := ih (fun y hy => h y (List.mem_cons_of_mem e hy))
    split <;> omega

theorem formula_parse_counts_pos (s : List Nat) (f : Formula)
    (h : formula_parse s = .accept f) :
    (f.elements.map ElementCount.element).Nodup ∧ ∀ e ∈ f.elements, 1 ≤ e.count := by
  obtain ⟨ws, ds, p, ts, _, _, _, hp, hf, _, _⟩ := formula_parse_accept s f h
  obtain ⟨hnd, hpos, _, _⟩ := fold_tokens_entries p ts hp f.elements hf
  exact ⟨hnd, hpos⟩
/-! ## The parser on 32 bits on the tokens of the grammar -/

theorem parse_digits32_append (ds r : List Nat) (hd : ∀ c ∈ ds, isdigit c = true)
    (hr : starts_with isdigit r = false) :
    parse_digits32 0 (ds ++ r) = (wrap_int (digits_value ds), r) := by
  have h1 := parse_digits32_value (ds ++ r)
  rw [takeWhile_digits_append ds r hd hr] at h1
  have h2 := parse_digits32_cursor (ds ++ r) 0 0
  rw [parse_digits_append ds 0 r hd hr] at h2
  exact Prod.ext h1 h2

/-- On a string of the grammar the main loop on 32 bits does what
`fold_tokens32` does on its tokens, and then returns on the number of
entries, whenever the budget exceeds the length of the string. -/
theorem parse_loop32_of_lexed (p : List Nat) (ts : List Token) (h : Lexed p ts) :
    ∀ (fuel : Nat) (f : Formula), p.length < fuel → parse_loop32 fuel p f =
      match fold_tokens32 ts f.elements with
      | none => .reject
      | some es => finish { f with elements := es } := by
  induction h with
  | nil =>
    intro fuel f hf
    obtain ⟨k, rfl⟩ : ∃ k, fuel = k + 1 := ⟨fuel - 1, by omega⟩
    simp [parse_loop32, skip_space, fold_tokens32]
  | space c p ts hc _ ih =>
    intro fuel f hf
    obtain ⟨k, rfl⟩ : ∃ k, fuel = k + 1 := ⟨fuel - 1, by omega⟩
    have := ih (k + 1) f (by simp only [List.length_cons] at hf; omega)
    rw [← this]
    unfold parse_loop32
    rw [skip_space_cons_space c p hc]
  | paren c p ts hc _ ih =>
    intro fuel f hf
    obtain ⟨k, rfl⟩ : ∃ k, fuel = k + 1 := ⟨fuel - 1, by omega⟩
    have := ih k f (by simp only [List.length_cons] at hf; omega)
    rw [← this]
    conv => lhs; unfold parse_loop32
    rw [skip_space_cons_other c p (not_space_of_paren c hc)]
    simp only [not_upper_of_paren c hc, Bool.not_false, if_true]
    rcases hc with hc | hc <;> subst hc <;> rfl
  | upper1 u ds p ts hu hd hl hp _ ih =>
    intro fuel f hf
    obtain ⟨k, rfl⟩ : ∃ k, fuel = k + 1 := ⟨fuel - 1, by omega⟩
    have hk : p.length < k := by
      simp only [List.length_cons, List.length_append] at hf; omega
    conv => lhs; unfold parse_loop32
    rw [skip_space_cons_other u _ (not_space_of_upper u hu)]
    simp only [hu, Bool.not_true, Bool.false_eq_true, if_false]
    rw [read_symbol_single u _ hl]
    simp only [parse_digits32_append ds p hd hp, fold_tokens32]
    cases element_by_symbol [u] with
    | none => rfl
    | some el =>
      simp only []
      have hc : (if (wrap_int (digits_value ds) == 0) = true then 1
          else wrap_int (digits_value ds)) = recorded_count32 (Token.mk [u] ds) := by
        unfold recorded_count32 token_count; rfl
      rw [hc]
      cases add_entry32 el (recorded_count32 (Token.mk [u] ds)) f.elements with
      | none => rfl
      | some es => simp only []; exact ih k _ hk
  | upper2 u l ds p ts hu hl hd hp _ ih =>
    intro fuel f hf
    obtain ⟨k, rfl⟩ : ∃ k, fuel = k + 1 := ⟨fuel - 1, by omega⟩
    have hk : p.length < k := by
      simp only [List.length_cons, List.length_append] at hf; omega
    conv => lhs; unfold parse_loop32
    rw [skip_space_cons_other u _ (not_space_of_upper u hu)]
    simp only [hu, Bool.not_true, Bool.false_eq_true, if_false]
    rw [read_symbol_lower u l _ hl]
    simp only [parse_digits32_append ds p hd hp, fold_tokens32]
    cases element_by_symbol [u, l] with
    | none => rfl
    | some el =>
      simp only []
      have hc : (if (wrap_int (digits_value ds) == 0) = true then 1
          else wrap_int (digits_value ds)) = recorded_count32 (Token.mk [u, l] ds) := by
        unfold recorded_count32 token_count; rfl
      rw [hc]
      cases add_entry32 el (recorded_count32 (Token.mk [u, l] ds)) f.elements with
      | none => rfl
      | some es => simp only []; exact ih k _ hk

theorem lexed_skip_space (p : List Nat) (ts : List Token) (h : Lexed p ts) :
    Lexed (skip_space p) ts := by
  induction h with
  | nil => exact Lexed.nil
  | space c p ts hc _ ih => rw [skip_space_cons_space c p hc]; exact ih
  | paren c p ts hc hp _ =>
    rw [skip_space_cons_other c p (not_space_of_paren c hc)]
    exact Lexed.paren c p ts hc hp
  | upper1 u ds p ts hu hd hl hp hq _ =>
    rw [skip_space_cons_other u _ (not_space_of_upper u hu)]
    exact Lexed.upper1 u ds p ts hu hd hl hp hq
  | upper2 u l ds p ts hu hl hd hp hq _ =>
    rw [skip_space_cons_other u _ (not_space_of_upper u hu)]
    exact Lexed.upper2 u l ds p ts hu hl hd hp hq

/-- On a string read as whitespace, digit run and a string of the grammar,
`formula_parse` on 32 bits stores the value of the digit run reduced to 32
bits as coefficient and the entries `fold_tokens32` makes of the tokens. -/
theorem formula_parse32_of_lexed (ws ds p : List Nat) (ts : List Token)
    (hw : ∀ c ∈ ws, isspace c = true) (hd : ∀ c ∈ ds, isdigit c = true) (hp : Lexed p ts) :
    formula_parse32 (ws ++ ds ++ p) =
      match fold_tokens32 ts [] with
      | none => .reject
      | some es => finish (Formula.mk es (if ds = [] then 1 else wrap_int (digits_value ds))) := by
  unfold formula_parse32
  rw [List.append_assoc, skip_space_append_spaces ws _ hw]
  by_cases hne : ds = []
  · subst hne
    have h0 := lexed_head p ts hp [] rfl
    rw [List.append_nil] at h0
    simp only [List.nil_append, h0, Bool.false_eq_true, if_false, if_true]
    exact parse_loop32_of_lexed _ ts (lexed_skip_space p ts hp) _ _ (Nat.lt_succ_self _)
  · rw [skip_space_digits ds p hd hne]
    simp only [starts_with_digit_append ds p hne hd, if_true, hne, if_false,
      parse_digits32_append ds p hd (lexed_not_digit p ts hp)]
    exact parse_loop32_of_lexed p ts hp _ _ (Nat.lt_succ_self _)

/-- Whichever way a string accepted on 32 bits is read as whitespace, digit
run and a string of the grammar, the entries of the result are those
`fold_tokens32` makes of its tokens, and the coefficient is 1 without digit
run, else the value of the run reduced to 32 bits. -/
theorem formula_parse32_accept_tokens (ws ds p : List Nat) (ts : List Token) (g : Formula)
    (h : formula_parse32 (ws ++ ds ++ p) = .accept g) (hw : ∀ c ∈ ws, isspace c = true)
    (hd : ∀ c ∈ ds, isdigit c = true) (hp : Lexed p ts) :
    fold_tokens32 ts [] = some g.elements ∧
      g.coefficient = (if ds = [] then 1 else wrap_int (digits_value ds)) := by
  rw [formula_parse32_of_lexed ws ds p ts hw hd hp] at h
  cases hf : fold_tokens32 ts [] with
  | none => rw [hf] at h; cases h
  | some es =>
    rw [hf] at h
    simp only [] at h
    obtain ⟨_, h2⟩ := (finish_accept_iff _ _).mp h
    rw [h2]
    exact ⟨rfl, rfl⟩

/-! ## The entries on 32 bits stand for the same elements -/

theorem add_entry32_ids (el : Nat) (n m : Int) (es32 es : List ElementCount)
    (hids : es32.map ElementCount.element = es.map ElementCount.element) :
    (add_entry32 el n es32).map (List.map ElementCount.element) =
      (add_entry el m es).map (List.map ElementCount.element) := by
  cases h : add_entry32 el n es32 with
  | some es2 =>
    obtain ⟨es1, h1, h2⟩ := add_entry32_shape el n m es32 es es2 hids h
    rw [h1]
    simp only [Option.map_some', h2]
  | none =>
    have h1 := (add_entry32_none_iff el n es32).mp h
    rw [hids, same_ids_length es32 es hids] at h1
    simp only [(add_entry_none_iff el m es).mpr h1, Option.map_none']

/-- The tokens are taken or refused on 32 bits as on exact integers, and the
entries stand for the same elements in the same order. -/
theorem fold_tokens32_ids (ts : List Token) : ∀ acc32 acc : List ElementCount,
    acc32.map ElementCount.element = acc.map ElementCount.element →
    (fold_tokens32 ts acc32).map (List.map ElementCount.element) =
      (fold_tokens ts acc).map (List.map ElementCount.element) := by
  induction ts with
  | nil => intro acc32 acc h; simp only [fold_tokens32, fold_tokens, Option.map_some', h]
  | cons t ts ih =>
    intro acc32 acc h
    unfold fold_tokens32 fold_tokens
    cases element_by_symbol t.symbol with
    | none => rfl
    | some el =>
      simp only []
      have hstep := add_entry32_ids el (recorded_count32 t) (token_count (digits_value t.digits))
        acc32 acc h
      cases h32 : add_entry32 el (recorded_count32 t) acc32 with
      | none =>
        rw [h32] at hstep
        cases hex : add_entry el (token_count (digits_value t.digits)) acc with
        | none => rfl
        | some es1 => rw [hex] at hstep; cases hstep
      | some es2 =>
        rw [h32] at hstep
        cases hex : add_entry el (token_count (digits_value t.digits)) acc with
        | none => rw [hex] at hstep; cases hstep
        | some es1 =>
          rw [hex] at hstep
          simp only [Option.map_some', Option.some.injEq] at hstep
          exact ih es2 es1 hstep

theorem fold_tokens32_append (ts us : List Token) : ∀ acc : List ElementCount,
    fold_tokens32 (ts ++ us) acc = (fold_tokens32 ts acc).bind (fold_tokens32 us) := by
  induction ts with
  | nil => intro acc; rfl
  | cons t ts ih =>
    intro acc
    simp only [List.cons_append, fold_tokens32]
    cases element_by_symbol t.symbol with
    | none => rfl
    | some el =>
      simp only []
      cases add_entry32 el (recorded_count32 t) acc with
      | none => rfl
      | some es1 => exact ih es1

/-! ## Counts on 32 bits as sums over the tokens -/

theorem recorded_count32_in_int (t : Token) :
    INT_MIN ≤ recorded_count32 t ∧ recorded_count32 t ≤ INT_MAX := by
  have h := wrap_int_range (digits_value t.digits)
  unfold recorded_count32 token_count
  unfold INT_MIN INT_MAX at h ⊢
  split <;> omega

theorem count_of_in_int (x : Nat) (es : List ElementCount)
    (hnd : (es.map ElementCount.element).Nodup) (hr : counts_in_int es) :
    INT_MIN ≤ count_of x es ∧ count_of x es ≤ INT_MAX := by
  by_cases hx : ∃ e ∈ es, e.element = x
  · obtain ⟨e, he, hex⟩ := hx
    rw [← hex, count_of_mem es e hnd he]
    exact hr e he
  · rw [count_of_absent x es (fun e he heq => hx ⟨e, he, heq⟩)]
    unfold INT_MIN INT_MAX
    omega

theorem update_existing32_count_of (el : Nat) (n : Int) (es es1 : List ElementCount)
    (h : update_existing32 el n es = some es1) (hnd : (es.map ElementCount.element).Nodup)
    (x : Nat) :
    count_of x es1 = if x = el then wrap_int (count_of el es + n) else count_of x es := by
  induction es generalizing es1 with
  | nil => simp [update_existing32] at h
  | cons e es ih =>
    rw [List.map_cons, List.nodup_cons] at hnd
    unfold update_existing32 at h
    by_cases he : e.element = el
    · simp only [he, if_true] at h
      cases h
      have habs : count_of el es = 0 :=
        count_of_absent el es (fun y hy heq => hnd.1 (by
          rw [he, ← heq]; exact List.mem_map_of_mem _ hy))
      rw [count_of_cons, count_of_cons, count_of_cons]
      by_cases hx : x = el
      · subst hx
        simp only [he, if_true, habs, add_zero]
      · have hne : ¬ e.element = x := fun h2 => hx (h2 ▸ he)
        have hne2 : ¬ el = x := fun h2 => hx h2.symm
        simp only [hne, hne2, if_false, hx]
    · simp only [he, if_false] at h
      cases hu : update_existing32 el n es with
      | none => rw [hu] at h; cases h
      | some es2 =>
        rw [hu] at h
        simp only [Option.map_some'] at h
        cases h
        rw [count_of_cons, count_of_cons, count_of_cons, ih es2 hu hnd.2]
        by_cases hx : x = el
        · subst hx
          simp only [he, if_false, if_true, zero_add]
        · simp only [hx, if_false]

/-- The step on the entries on 32 bits, read on the totals: the total of the
element of the token grows by the count, reduced to 32 bits. -/
theorem add_entry32_count_of (el : Nat) (n : Int) (es es1 : List ElementCount)
    (h : add_entry32 el n es = some es1) (hnd : (es.map ElementCount.element).Nodup)
    (hr : counts_in_int es) (hn : INT_MIN ≤ n ∧ n ≤ INT_MAX) (x : Nat) :
    count_of x es1 = wrap_int (count_of x es + (if x = el then n else 0)) := by
  have hx := count_of_in_int x es hnd hr
  rcases add_entry32_cases el n es es1 h with ⟨_, h2, _⟩ | ⟨h1, _, h3⟩
  · rw [update_existing32_count_of el n es es1 h2 hnd x]
    by_cases hxe : x = el
    · subst hxe; simp only [if_true]
    · simp only [hxe, if_false, add_zero]
      exact (wrap_int_of_range _ hx.1 hx.2).symm
  · subst h3
    rw [count_of_append, count_of_cons]
    have hnil : count_of x [] = 0 := rfl
    rw [hnil]
    by_cases hxe : x = el
    · subst hxe
      have habs : count_of x es = 0 :=
        count_of_absent x es (fun y hy heq => h1 (heq ▸ List.mem_map_of_mem _ hy))
      simp only [if_true, habs, zero_add, add_zero]
      exact (wrap_int_of_range _ hn.1 hn.2).symm
    · have hne : ¬ el = x := fun h2 => hxe h2.symm
      simp only [hne, hxe, if_false, add_zero]
      exact (wrap_int_of_range _ hx.1 hx.2).symm

theorem add_entry32_nodup (el : Nat) (n : Int) (es es1 : List ElementCount)
    (h : add_entry32 el n es = some es1) (hnd : (es.map ElementCount.element).Nodup) :
    (es1.map ElementCount.element).Nodup := by
  rcases add_entry32_cases el n es es1 h with ⟨_, _, h3⟩ | ⟨h1, _, h3⟩
  · rw [h3]; exact hnd
  · subst h3
    rw [List.map_append, List.nodup_append]
    refine ⟨hnd, by simp, ?_⟩
    intro a ha hb
    simp only [List.map_cons, List.map_nil, List.mem_singleton] at hb
    exact h1 (hb ▸ ha)

theorem update_existing32_in_int (el : Nat) (n : Int) :
    ∀ es es1 : List ElementCount, update_existing32 el n es = some es1 →
      counts_in_int es → counts_in_int es1 := by
  intro es
  induction es with
  | nil => intro es1 h; simp [update_existing32] at h
  | cons e es ih =>
    intro es1 h hb
    unfold update_existing32 at h
    by_cases he : e.element = el
    · simp only [he, if_true] at h
      cases h
      intro x hx
      rcases List.mem_cons.mp hx with hx | hx
      · rw [hx]; exact wrap_int_range _
      · exact hb x (List.mem_cons_of_mem e hx)
    · simp only [he, if_false] at h
      cases hu : update_existing32 el n es with
      | none => rw [hu] at h; cases h
      | some es2 =>
        rw [hu] at h
        simp only [Option.map_some'] at h
        cases h
        intro x hx
        rcases List.mem_cons.mp hx with hx | hx
        · rw [hx]; exact hb e (List.mem_cons_self e es)
        · exact ih es2 hu (fun y hy => hb y (List.mem_cons_of_mem e hy)) x hx

theorem add_entry32_in_int (el : Nat) (n : Int) (hn : INT_MIN ≤ n ∧ n ≤ INT_MAX)
    (es es1 : List ElementCount) (h : add_entry32 el n es = some es1)
    (hb : counts_in_int es) : counts_in_int es1 := by
  rcases add_entry32_cases el n es es1 h with ⟨_, h2, _⟩ | ⟨_, _, h3⟩
  · exact update_existing32_in_int el n es es1 h2 hb
  · subst h3
    intro e he
    rcases List.mem_append.mp he with he | he
    · exact hb e he
    · rw [List.mem_singleton] at he
      rw [he]; exact hn

/-- After the tokens are processed on 32 bits, the entries still stand for
pairwise distinct elements, every count is a value of `int`, and the total
stored for a catalog element is its total before plus the sum of the counts
recorded for its tokens, reduced to 32 bits. -/
theorem fold_tokens32_count_of (ts : List Token) : ∀ acc es : List ElementCount,
    (∀ t ∈ ts, is_candidate t.symbol = true) → fold_tokens32 ts acc = some es →
    (acc.map ElementCount.element).Nodup → counts_in_int acc →
    (es.map ElementCount.element).Nodup ∧ counts_in_int es ∧
    ∀ x, x < NUM_ELEMENTS →
      count_of x es = wrap_int (count_of x acc + token_total recorded_count32 ts x) := by
  induction ts with
  | nil =>
    intro acc es _ h hnd hr
    simp only [fold_tokens32] at h
    cases h
    refine ⟨hnd, hr, ?_⟩
    intro x _
    have hx := count_of_in_int x acc hnd hr
    have h0 : token_total recorded_count32 [] x = 0 := rfl
    rw [h0, add_zero]
    exact (wrap_int_of_range _ hx.1 hx.2).symm
  | cons t ts ih =>
    intro acc es hc h hnd hr
    unfold fold_tokens32 at h
    cases hel : element_by_symbol t.symbol with
    | none => rw [hel] at h; cases h
    | some el =>
      rw [hel] at h
      simp only [] at h
      cases hadd : add_entry32 el (recorded_count32 t) acc with
      | none => rw [hadd] at h; cases h
      | some es2 =>
        rw [hadd] at h
        simp only [] at h
        have hsound := element_by_symbol_sound t.symbol el (hc t (List.mem_cons_self t ts)) hel
        have hnd2 := add_entry32_nodup el _ acc es2 hadd hnd
        have hr2 := add_entry32_in_int el _ (recorded_count32_in_int t) acc es2 hadd hr
        obtain ⟨hnd3, hr3, hcount⟩ :=
          ih es2 es (fun t2 ht2 => hc t2 (List.mem_cons_of_mem t ht2)) h hnd2 hr2
        refine ⟨hnd3, hr3, ?_⟩
        intro x hx
        rw [hcount x hx, add_entry32_count_of el _ acc es2 hadd hnd hr
          (recorded_count32_in_int t) x, token_total_cons, wrap_int_add_left]
        have hiff : x = el ↔ t.symbol = symbol_of x := by
          constructor
          · intro h1; subst h1; exact hsound.2.symm
          · intro h1
            exact symbol_of_injective x el hx hsound.1 (by rw [← h1, hsound.2])
        by_cases h1 : x = el
        · have h2 : t.symbol = symbol_of x := hiff.mp h1
          simp only [h1, if_true]
          rw [← h1]
          simp only [h2, if_true]
          rw [add_assoc]
        · have h2 : ¬ t.symbol = symbol_of x := fun h3 => h1 (hiff.mpr h3)
          simp only [h1, h2, if_false, add_zero, zero_add]

theorem recorded_count_pos (t : Token) (hd : ∀ c ∈ t.digits, isdigit c = true) :
    1 ≤ recorded_count t ∧ digits_value t.digits ≤ recorded_count t ∧
      0 ≤ digits_value t.digits := by
  have h0 : 0 ≤ digits_value t.digits := digits_value_from_nonneg t.digits 0 (le_refl 0) hd
  rw [recorded_count_eq]
  refine ⟨token_count_pos _ h0, ?_, h0⟩
  unfold token_count
  split
  · rename_i h
    have : digits_value t.digits = 0 := by simpa using h
    omega
  · exact le_refl _

theorem recorded_count32_exact (t : Token) (hd : ∀ c ∈ t.digits, isdigit c = true)
    (hb : recorded_count t ≤ INT_MAX) : recorded_count32 t = recorded_count t := by
  obtain ⟨_, h2, h3⟩ := recorded_count_pos t hd
  rw [recorded_count_eq]
  unfold recorded_count32
  rw [wrap_int_of_range _ (by unfold INT_MIN; omega) (by omega)]

/-- Where the counts of the tokens of an element sum to at most `INT_MAX`,
the sum of the counts recorded on 32 bits is that sum, and it is a value of
`int`. -/
theorem token_total32_exact (x : Nat) (ts : List Token)
    (hd : ∀ t ∈ ts, ∀ c ∈ t.digits, isdigit c = true)
    (hb : token_total recorded_count ts x ≤ INT_MAX) :
    token_total recorded_count32 ts x = token_total recorded_count ts x ∧
      0 ≤ token_total recorded_count ts x := by
  induction ts with
  | nil => exact ⟨rfl, by simp [token_total]⟩
  | cons t ts ih =>
    rw [token_total_cons] at hb ⊢
    rw [token_total_cons]
    have hpos := recorded_count_pos t (hd t (List.mem_cons_self t ts))
    have hnn : ∀ us : List Token, (∀ u ∈ us, ∀ c ∈ u.digits, isdigit c = true) →
        0 ≤ token_total recorded_count us x := by
      intro us
      induction us with
      | nil => intro _; simp [token_total]
      | cons u us ihu =>
        intro hu
        rw [token_total_cons]
        have h1 := recorded_count_pos u (hu u (List.mem_cons_self u us))
        have h2 := ihu (fun v hv => hu v (List.mem_cons_of_mem u hv))
        split <;> omega
    have hrest := hnn ts (fun u hu => hd u (List.mem_cons_of_mem t hu))
    by_cases hs : t.symbol = symbol_of x
    · simp only [hs, if_true] at hb ⊢
      obtain ⟨h1, h2⟩ := ih (fun u hu => hd u (List.mem_cons_of_mem t hu)) (by omega)
      rw [h1, recorded_count32_exact t (hd t (List.mem_cons_self t ts)) (by omega)]
      exact ⟨rfl, by omega⟩
    · simp only [hs, if_false, zero_add] at hb ⊢
      exact ih (fun u hu => hd u (List.mem_cons_of_mem t hu)) hb

/-- The count `formula_parse` stores on 32 bits for an element is the sum of
the counts recorded for its tokens, reduced to 32 bits; it is the sum of the
counts of its tokens itself when that sum is at most `INT_MAX`; an element
without entry has no token. -/
theorem formula_parse32_token_sums (ws ds p : List Nat) (ts : List Token) (g : Formula)
    (h : formula_parse32 (ws ++ ds ++ p) = .accept g) (hw : ∀ c ∈ ws, isspace c = true)
    (hd : ∀ c ∈ ds, isdigit c = true) (hp : Lexed p ts) :
    (∀ e ∈ g.elements, e.element < NUM_ELEMENTS ∧
      e.count = wrap_int (token_total recorded_count32 ts e.element) ∧
      (token_total recorded_count ts e.element ≤ INT_MAX →
        e.count = token_total recorded_count ts e.element)) ∧
    (∀ el, el < NUM_ELEMENTS → (∀ e ∈ g.elements, e.element ≠ el) →
      token_total recorded_count ts el = 0) := by
  obtain ⟨hfold, _⟩ := formula_parse32_accept_tokens ws ds p ts g h hw hd hp
  obtain ⟨_, hv, _, _⟩ := formula_parse32_entries _ g h
  obtain ⟨hnd, _, hsum⟩ := fold_tokens32_count_of ts [] g.elements
    (fun t ht => (lexed_tokens p ts hp t ht).1) hfold (by simp) (fun e he => by cases he)
  constructor
  · intro e he
    have hc := hsum e.element (hv e he)
    have h0 : count_of e.element [] = 0 := rfl
    rw [count_of_mem g.elements e hnd he, h0, zero_add] at hc
    refine ⟨hv e he, hc, ?_⟩
    intro hb
    obtain ⟨h1, h2⟩ := token_total32_exact e.element ts
      (fun t ht => (lexed_tokens p ts hp t ht).2) hb
    rw [hc, h1]
    exact wrap_int_of_range _ (by unfold INT_MIN; omega) hb
  · intro el hel habs
    obtain ⟨f0, hf0, hids, _⟩ := formula_parse32_accept_exact _ g h
    refine (formula_parse_token_sums ws ds p ts f0 hf0 hw hd hp).2 el hel ?_
    intro e he heq
    have hm : el ∈ g.elements.map ElementCount.element := by
      rw [hids, ← heq]; exact List.mem_map_of_mem _ he
    obtain ⟨e2, he2, h2⟩ := List.mem_map.mp hm
    exact habs e2 he2 h2

/-- Parsing on 32 bits a string followed by a string without leading
coefficient: the result has the coefficient of the first string, and the
total of every element is the sum of its totals in the two results, reduced
to 32 bits. -/
theorem formula_parse32_concat_wrap (a b : List Nat) (ga gb : Formula)
    (ha : formula_parse32 a = .accept ga) (hb : formula_parse32 b = .accept gb)
    (hplain : starts_with isdigit (skip_space b) = false)
    (hfit : (((ga.elements ++ gb.elements).map ElementCount.element).dedup).length ≤
      MAX_ATOMS_PER_MOLECULE) :
    ∃ g, formula_parse32 (a ++ b) = .accept g ∧ g.coefficient = ga.coefficient ∧
      ∀ x, count_of x g.elements =
        wrap_int (count_of x ga.elements + count_of x gb.elements) := by
  obtain ⟨fa, hfa, hida, _⟩ := formula_parse32_accept_exact a ga ha
  obtain ⟨fb, hfb, hidb, _⟩ := formula_parse32_accept_exact b gb hb
  have hfit0 : (((fa.elements ++ fb.elements).map ElementCount.element).dedup).length ≤
      MAX_ATOMS_PER_MOLECULE := by
    rw [List.map_append, ← hida, ← hidb, ← List.map_append]
    exact hfit
  obtain ⟨f, hf, _, _⟩ := formula_parse_concat a b fa fb hfa hfb hplain hfit0
  obtain ⟨wsa, dsa, pa, tsa, hsa, hwa, hda, hpa, _, _, _⟩ := formula_parse_accept a fa hfa
  obtain ⟨tsb, hqb, _⟩ := formula_parse_accept_plain b fb hfb hplain
  have hsplit : a ++ b = wsa ++ dsa ++ (pa ++ b) := by rw [hsa]; simp
  have hlex := lexed_append pa b tsa tsb hpa hqb
  have ha1 := ha
  rw [hsa] at ha1
  obtain ⟨hfolda, hcoefa⟩ := formula_parse32_accept_tokens wsa dsa pa tsa ga ha1 hwa hda hpa
  have hb1 : formula_parse32 ([] ++ [] ++ b) = .accept gb := hb
  obtain ⟨hfoldb, _⟩ := formula_parse32_accept_tokens [] [] b tsb gb hb1
    (fun c hc => by cases hc) (fun c hc => by cases hc) hqb
  have hf1 := hf
  rw [hsplit] at hf1
  have hfold0 := formula_parse_accept_tokens wsa dsa (pa ++ b) (tsa ++ tsb) f hf1 hwa hda hlex
  have hmap := fold_tokens32_ids (tsa ++ tsb) [] [] rfl
  rw [hfold0] at hmap
  cases hfold : fold_tokens32 (tsa ++ tsb) [] with
  | none => rw [hfold] at hmap; cases hmap
  | some es =>
    rw [hfold] at hmap
    simp only [Option.map_some', Option.some.injEq] at hmap
    have hfne : f.elements ≠ [] := by
      obtain ⟨_, _, _, _, _, _, _, _, _, h1, _⟩ := formula_parse_accept (a ++ b) f hf
      exact h1
    have hesne : es ≠ [] := by
      intro h0
      rw [h0] at hmap
      exact hfne (List.map_eq_nil_iff.mp hmap.symm)
    have hparse : formula_parse32 (a ++ b) =
        .accept (Formula.mk es (if dsa = [] then 1 else wrap_int (digits_value dsa))) := by
      rw [hsplit, formula_parse32_of_lexed wsa dsa (pa ++ b) (tsa ++ tsb) hwa hda hlex, hfold]
      exact (finish_accept_iff _ _).mpr ⟨hesne, rfl⟩
    refine ⟨_, hparse, hcoefa.symm, ?_⟩
    intro x
    have hca : ∀ t ∈ tsa, is_candidate t.symbol = true :=
      fun t ht => (lexed_tokens pa tsa hpa t ht).1
    have hcb : ∀ t ∈ tsb, is_candidate t.symbol = true :=
      fun t ht => (lexed_tokens b tsb hqb t ht).1
    obtain ⟨hnda, hra, _⟩ := fold_tokens32_count_of tsa [] ga.elements hca hfolda
      (by simp) (fun e he => by cases he)
    obtain ⟨hndb, hrb, hsumb⟩ := fold_tokens32_count_of tsb [] gb.elements hcb hfoldb
      (by simp) (fun e he => by cases he)
    have hfold2 : fold_tokens32 tsb ga.elements = some es := by
      rw [fold_tokens32_append, hfolda] at hfold
      exact hfold
    obtain ⟨hnde, hre, hsume⟩ := fold_tokens32_count_of tsb ga.elements es hcb hfold2 hnda hra
    obtain ⟨_, hva, _, _⟩ := formula_parse32_entries a ga ha
    obtain ⟨_, hvb, _, _⟩ := formula_parse32_entries b gb hb
    obtain ⟨_, hve, _, _⟩ := formula_parse32_entries (a ++ b) _ hparse
    by_cases hx : x < NUM_ELEMENTS
    · have h0 : count_of x [] = 0 := rfl
      have h1 := hsumb x hx
      rw [h0, zero_add] at h1
      show count_of x es = _
      rw [hsume x hx, h1, wrap_int_add_right]
    · show count_of x es = _
      have hz : wrap_int (0 + 0) = 0 := by decide
      rw [count_of_invalid x es hve hx, count_of_invalid x ga.elements hva hx,
        count_of_invalid x gb.elements hvb hx, hz]

/-- Every count `formula_parse` stores on 32 bits for an element whose token
counts sum to at most `INT_MAX` is at least 1. -/
theorem formula_parse32_counts_pos (ws ds p : List Nat) (ts : List Token) (g : Formula)
    (h : formula_parse32 (ws ++ ds ++ p) = .accept g) (hw : ∀ c ∈ ws, isspace c = true)
    (hd : ∀ c ∈ ds, isdigit c = true) (hp : Lexed p ts) :
    ∀ e ∈ g.elements, token_total recorded_count ts e.element ≤ INT_MAX → 1 ≤ e.count := by
  intro e he hb
  rw [((formula_parse32_token_sums ws ds p ts g h hw hd hp).1 e he).2.2 hb]
  obtain ⟨f0, hf0, hids, _⟩ := formula_parse32_accept_exact _ g h
  have hm : e.element ∈ f0.elements.map ElementCount.element := by
    rw [← hids]; exact List.mem_map_of_mem _ he
  obtain ⟨e0, he0, h0⟩ := List.mem_map.mp hm
  have h1 := ((formula_parse_token_sums ws ds p ts f0 hf0 hw hd hp).1 e0 he0).2
  have h2 := (formula_parse_counts_pos _ f0 hf0).2 e0 he0
  rw [← h0, ← h1]
  exact h2
/-! ## The round trip on 32 bits -/

theorem entry_text_printed (e : ElementCount) :
    entry_text (ElementCount.mk e.element (if e.count > 1 then e.count else 1)) =
      entry_text e := by
  unfold entry_text
  by_cases h : e.count > 1
  · simp only [h, if_true]
  · simp only [h, if_false]
    have : ¬ ((1 : Int) > 1) := by decide
    simp only [this, if_false]

theorem write_entries_printed (es : List ElementCount) : ∀ (out : List Nat) (remaining : Nat),
    write_entries (printed_entries es) out remaining = write_entries es out remaining := by
  induction es with
  | nil => intro out remaining; rfl
  | cons e es ih =>
    intro out remaining
    unfold printed_entries at ih ⊢
    simp only [List.map_cons, write_entries, entry_text_printed]
    split
    · rfl
    · exact ih _ _

theorem formula_to_string_printed (f : Formula) (buffer_size : Nat) :
    formula_to_string (Formula.mk (printed_entries f.elements) f.coefficient) buffer_size =
      formula_to_string f buffer_size := by
  unfold formula_to_string
  simp only [write_entries_printed]

theorem printed_entries_ids (es : List ElementCount) :
    (printed_entries es).map ElementCount.element = es.map ElementCount.element := by
  unfold printed_entries
  rw [List.map_map]
  rfl

theorem printed_entries_of_pos (es : List ElementCount) (h : ∀ e ∈ es, 1 ≤ e.count) :
    printed_entries es = es := by
  induction es with
  | nil => rfl
  | cons e es ih =>
    unfold printed_entries at ih ⊢
    rw [List.map_cons, ih (fun x hx => h x (List.mem_cons_of_mem e hx))]
    have h1 := h e (List.mem_cons_self e es)
    have : (if e.count > 1 then e.count else 1) = e.count := by
      split <;> omega
    rw [this]

/-- The text `formula_to_string` writes for a formula accepted on 32 bits parses
back, on 32 bits, to the entries as they are written; the result compares
equal to the formula exactly when every count of the formula is at least
1. -/
theorem formula_round_trip32_entries (s : List Nat) (f : Formula) (buffer_size : Nat)
    (text : List Nat) (hparse : formula_parse32 s = .accept f)
    (hprint : formula_to_string f buffer_size = some text) :
    ∃ g, formula_parse32 text = .accept g ∧ g.elements = printed_entries f.elements ∧
      (formula_equals f g = true ↔ ∀ e ∈ f.elements, 1 ≤ e.count) := by
  obtain ⟨hnd, hv, hlen, hne⟩ := formula_parse32_entries s f hparse
  have hb := formula_parse32_range s f hparse
  have hmem : ∀ x ∈ printed_entries f.elements, ∃ e ∈ f.elements,
      x = ElementCount.mk e.element (if e.count > 1 then e.count else 1) := by
    intro x hx
    unfold printed_entries at hx
    obtain ⟨e, he, rfl⟩ := List.mem_map.mp hx
    exact ⟨e, he, rfl⟩
  have hnd2 : ((printed_entries f.elements).map ElementCount.element).Nodup := by
    rw [printed_entries_ids]; exact hnd
  have hpos2 : ∀ x ∈ printed_entries f.elements, 1 ≤ x.count := by
    intro x hx
    obtain ⟨e, _, rfl⟩ := hmem x hx
    show 1 ≤ (if e.count > 1 then e.count else 1)
    split <;> omega
  have hb2 : ∀ x ∈ printed_entries f.elements, x.count ≤ INT_MAX := by
    intro x hx
    obtain ⟨e, he, rfl⟩ := hmem x hx
    have := hb e he
    show (if e.count > 1 then e.count else 1) ≤ INT_MAX
    unfold INT_MAX at this ⊢
    split <;> omega
  have hv2 : ∀ x ∈ printed_entries f.elements, x.element < NUM_ELEMENTS := by
    intro x hx
    obtain ⟨e, he, rfl⟩ := hmem x hx
    exact hv e he
  have hlen2 : (printed_entries f.elements).length ≤ MAX_ATOMS_PER_MOLECULE := by
    unfold printed_entries
    rw [List.length_map]; exact hlen
  have hne2 : printed_entries f.elements ≠ [] := by
    intro h0
    unfold printed_entries at h0
    exact hne (List.map_eq_nil_iff.mp h0)
  have hprint2 : formula_to_string (Formula.mk (printed_entries f.elements) f.coefficient)
      buffer_size = some text := by
    rw [formula_to_string_printed]; exact hprint
  obtain ⟨c, hc⟩ := formula_round_trip_entries
    (Formula.mk (printed_entries f.elements) f.coefficient) buffer_size text hnd2 hpos2 hlen2
    hv2 hne2 hprint2
  have h32 := formula_parse32_of_exact text (Formula.mk (printed_entries f.elements) c) hc hb2
  refine ⟨_, h32, rfl, ?_⟩
  constructor
  · intro heq e he
    have h1 := ((formula_equals_iff f _).mp heq).2 e he
    have h2 : ElementCount.mk e.element (if e.count > 1 then e.count else 1) ∈
        printed_entries f.elements := by
      unfold printed_entries
      exact List.mem_map.mpr ⟨e, he, rfl⟩
    have h3 := first_count_of_mem (printed_entries f.elements) _ hnd2 h2
    simp only [] at h1 h3
    rw [h3] at h1
    have h4 := Option.some.inj h1
    split at h4 <;> omega
  · intro hpos
    refine formula_equals_same_entries f _ ?_ hnd
    exact printed_entries_of_pos f.elements hpos
/-! ## Properties of `formula_parse` -/

/-- C1: for every input string on which `formula_parse` succeeds, no two
entries of the resulting formula reference the same element. -/
theorem formula_parse_entries_distinct (s : List Nat) (f : Formula)
    (h : formula_parse s = .accept f) :
    f.elements.Pairwise (fun a b => a.element ≠ b.element) := by
  obtain ⟨ws, ds, p, ts, _, _, _, hts, hf, _, _⟩ := formula_parse_accept s f h
  have := (fold_tokens_entries p ts hts f.elements hf).1
  exact (List.pairwise_map.mp this)

/-- Witness for C1 on the input `O2O3`, whose two tokens name the same element. -/
theorem formula_parse_entries_distinct_witness :
    formula_parse (cstr "O2O3") = .accept (Formula.mk [ElementCount.mk 7 5] 1) ∧
    (Formula.mk [ElementCount.mk 7 5] 1).elements.Pairwise
      (fun a b => a.element ≠ b.element) :=
  ⟨by decide, formula_parse_entries_distinct (cstr "O2O3") _ (by decide)⟩

set_option maxRecDepth 100000 in
/-- C2 refuted as stated: on the input `0H2O` the parse succeeds and the
leading coefficient is 0, not at least 1. With `int` on 32 bits the
coefficient of `4294967296H` is 0 as well, and that of `2147483648H` is
negative. -/
theorem formula_parse32_zero_coefficient :
    formula_parse32 (cstr "0H2O") =
        .accept (Formula.mk [ElementCount.mk 0 2, ElementCount.mk 7 1] 0) ∧
      ¬ (1 ≤ (Formula.mk [ElementCount.mk 0 2, ElementCount.mk 7 1] 0).coefficient) ∧
      formula_parse32 (cstr "4294967296H") = .accept (Formula.mk [ElementCount.mk 0 1] 0) ∧
      formula_parse32 (cstr "2147483648H") =
        .accept (Formula.mk [ElementCount.mk 0 1] (-2147483648)) := by
  decide

/-- C2 amended, with `int` on 32 bits: for every input on which `formula_parse`
succeeds, the coefficient is 1 when no digit run leads the input (after
whitespace) and otherwise the decimal value of that digit run reduced to 32
bits. When the value of the run is at most `INT_MAX`, the coefficient is
that value; it is then at least 1 except when the run consists only of the
digit zero, and then it is 0. -/
theorem formula_parse32_coefficient (s : List Nat) (f : Formula)
    (h : formula_parse32 s = .accept f) :
    f.coefficient =
        (if (skip_space s).takeWhile isdigit = [] then 1
         else wrap_int (digits_value ((skip_space s).takeWhile isdigit))) ∧
      (digits_value ((skip_space s).takeWhile isdigit) ≤ INT_MAX →
        f.coefficient =
          (if (skip_space s).takeWhile isdigit = [] then 1
           else digits_value ((skip_space s).takeWhile isdigit)) ∧
        (1 ≤ f.coefficient ↔
          ¬ ((skip_space s).takeWhile isdigit ≠ [] ∧
              ∀ c ∈ (skip_space s).takeWhile isdigit, c = 48)) ∧
        0 ≤ f.coefficient) := by
  have hc := formula_parse32_coefficient_eq s f h
  refine ⟨hc, ?_⟩
  intro hb
  have hdig : ∀ c ∈ (skip_space s).takeWhile isdigit, isdigit c = true :=
    fun c hc => (List.mem_takeWhile_imp hc)
  have hnn := digits_value_from_nonneg _ 0 (Int.le_refl 0) hdig
  have hz := digits_value_from_zero_iff _ 0 (Int.le_refl 0) hdig
  have hw : wrap_int (digits_value ((skip_space s).takeWhile isdigit)) =
      digits_value ((skip_space s).takeWhile isdigit) :=
    wrap_int_of_range _ (by unfold INT_MIN; unfold digits_value; omega) hb
  rw [hw] at hc
  by_cases hne : (skip_space s).takeWhile isdigit = []
  · rw [hne] at hc ⊢
    simp only [if_true] at hc ⊢
    rw [hc]
    simp
  · simp only [hne, if_false] at hc ⊢
    rw [hc]
    refine ⟨rfl, ?_, hnn⟩
    unfold digits_value
    constructor
    · rintro h1 ⟨_, h2⟩
      have := hz.mpr ⟨rfl, h2⟩
      omega
    · intro h1
      have : digits_value_from 0 ((skip_space s).takeWhile isdigit) ≠ 0 :=
        fun h0 => h1 ⟨hne, (hz.mp h0).2⟩
      omega

set_option maxRecDepth 100000 in
/-- Witness for the amended C2 on the input `2H2O`, whose leading digit run
has the value 2. -/
theorem formula_parse32_coefficient_witness :
    formula_parse32 (cstr "2H2O") =
        .accept (Formula.mk [ElementCount.mk 0 2, ElementCount.mk 7 1] 2) ∧
      digits_value ((skip_space (cstr "2H2O")).takeWhile isdigit) = 2 ∧
      (1 ≤ (Formula.mk [ElementCount.mk 0 2, ElementCount.mk 7 1] 2).coefficient ↔
        ¬ ((skip_space (cstr "2H2O")).takeWhile isdigit ≠ [] ∧
            ∀ c ∈ (skip_space (cstr "2H2O")).takeWhile isdigit, c = 48)) :=
  ⟨by decide, by decide,
    ((formula_parse32_coefficient (cstr "2H2O") _ (by decide)).2 (by decide)).2.1⟩

/-- C3: for every input string on which `formula_parse` succeeds, the
resulting formula has at least one entry and every entry has count at least
1, counts being exact integers. -/
theorem formula_parse_counts_positive (s : List Nat) (f : Formula)
    (h : formula_parse s = .accept f) :
    1 ≤ f.elements.length ∧ ∀ e ∈ f.elements, 1 ≤ e.count := by
  obtain ⟨ws, ds, p, ts, _, _, _, hts, hf, hne, _⟩ := formula_parse_accept s f h
  exact ⟨List.length_pos.mpr hne, (fold_tokens_entries p ts hts f.elements hf).2.1⟩

/-- Witness for C3 on the input `H0`, whose written count is zero. -/
theorem formula_parse_counts_positive_witness :
    formula_parse (cstr "H0") = .accept (Formula.mk [ElementCount.mk 0 1] 1) ∧
    (1 ≤ (Formula.mk [ElementCount.mk 0 1] 1).elements.length ∧
      ∀ e ∈ (Formula.mk [ElementCount.mk 0 1] 1).elements, 1 ≤ e.count) :=
  ⟨by decide, formula_parse_counts_positive (cstr "H0") _ (by decide)⟩

/-- C4: `formula_parse` succeeds on a string exactly when, after optional
leading whitespace and an optional leading digit run, the rest consists only
of whitespace, parentheses and element tokens (an uppercase letter, greedily
one lowercase letter, then a maximal digit run) whose symbols are all catalog
symbols, with at least one token and at most 100 distinct elements; on every
other string it returns `false`. -/
theorem formula_parse_succeeds_iff_well_formed (s : List Nat) :
    ((∃ f, formula_parse s = .accept f) ↔ WellFormed s) ∧
      (¬ WellFormed s → formula_parse s = .reject) := by
  have hiff : (∃ f, formula_parse s = .accept f) ↔ WellFormed s := by
    constructor
    · rintro ⟨f, h⟩
      obtain ⟨ws, ds, p, ts, hs, hw, hd, hp, hf, hne, _⟩ := formula_parse_accept s f h
      obtain ⟨h1, h2, h3⟩ := (fold_tokens_some_iff p ts hp).mp ⟨f.elements, hf, hne⟩
      exact ⟨ws, ds, p, ts, hs, hw, hd, hp, h1, h2, h3⟩
    · rintro ⟨ws, ds, p, ts, hs, hw, hd, hp, h1, h2, h3⟩
      obtain ⟨es, hf, hne⟩ := (fold_tokens_some_iff p ts hp).mpr ⟨h1, h2, h3⟩
      refine ⟨{ elements := es, coefficient := if ds = [] then 1 else digits_value ds }, ?_⟩
      rw [hs, formula_parse_of_lexed ws ds p ts hw hd hp]
      exact (parse_body_accept_iff _ _ _).mpr ⟨ts, es, hp, hf, hne, rfl⟩
  refine ⟨hiff, ?_⟩
  intro hnot
  cases h : formula_parse s with
  | accept f => exact absurd (hiff.mp ⟨f, h⟩) hnot
  | reject => rfl
  | unfinished => exact absurd h (formula_parse_returns s)

/-- Witness for C4: `2 H2O` is well formed because it is accepted, and `h2o`
is not well formed because it is rejected. -/
theorem formula_parse_succeeds_iff_well_formed_witness :
    WellFormed (cstr "2 H2O") ∧ ¬ WellFormed (cstr "h2o") :=
  ⟨(formula_parse_succeeds_iff_well_formed (cstr "2 H2O")).1.mp
      ⟨Formula.mk [ElementCount.mk 0 2, ElementCount.mk 7 1] 2, by decide⟩,
    fun hw => by
      obtain ⟨f, hf⟩ := (formula_parse_succeeds_iff_well_formed (cstr "h2o")).1.mpr hw
      have hr : formula_parse (cstr "h2o") = .reject := by decide
      rw [hr] at hf
      cases hf⟩

set_option maxRecDepth 100000 in
/-- C5 fails on the code: `formula_parse` returns `false` on `Ca(OH)2`, an input
its own comment gives as an example. After the closing parenthesis is
skipped, the digit is neither an uppercase letter nor a parenthesis. The
same string without the digit parses to Ca 1, O 1, H 1, and a digit counts
only directly after a symbol: `Ca(OH2)` parses to Ca 1, O 1, H 2. -/
theorem formula_parse32_calcium_hydroxide_rejected :
    formula_parse32 (cstr "Ca(OH)2") = .reject ∧
      formula_parse32 (cstr "Ca(OH)") =
        .accept (Formula.mk
          [ElementCount.mk 19 1, ElementCount.mk 7 1, ElementCount.mk 0 1] 1) ∧
      formula_parse32 (cstr "Ca(OH2)") =
        .accept (Formula.mk
          [ElementCount.mk 19 1, ElementCount.mk 7 1, ElementCount.mk 0 2] 1) := by
  decide

set_option maxRecDepth 100000 in
/-- C6 refuted as stated: `H0` parses to the single entry H with count 1,
while its only token has the written count 0, so the stored count is not the
sum of the per-token counts when an absent count alone stands for 1. -/
theorem formula_parse32_written_zero :
    formula_parse32 (cstr "H0") = .accept (Formula.mk [ElementCount.mk 0 1] 1) ∧
      Lexed (cstr "H0") [Token.mk (cstr "H") (cstr "0")] ∧
      token_total written_count [Token.mk (cstr "H") (cstr "0")] 0 = 0 ∧
      ¬ (∀ e ∈ (Formula.mk [ElementCount.mk 0 1] 1).elements,
          e.count = token_total written_count [Token.mk (cstr "H") (cstr "0")] e.element) := by
  refine ⟨by decide, ?_, by decide, by decide⟩
  exact Lexed.upper1 72 [48] [] [] (by decide) (by decide) (by decide) (by decide) Lexed.nil

set_option maxRecDepth 100000 in
/-- C6 amended, with `int` on 32 bits: for every string on which `formula_parse`
succeeds, the count stored for each element is the sum of the counts
recorded for its tokens, reduced to 32 bits; the count recorded for a token
is the value of its digit run reduced to 32 bits, or 1 when the run is
absent or that value is 0. The stored count is the sum of the counts of the
tokens of the element, a token counting the value of its digit run, or 1
when the run is absent or has value 0, if and only if that sum is at most
`INT_MAX`. An element without entry has no token. The tokens are those of
any reading of the string as leading whitespace, digit run and a string of
the grammar, and there is such a reading. So `C2H6` parses to C 2, H 6,
`O2O3` to the single entry O 5, and `H2147483647H` to H -2147483648. -/
theorem formula_parse32_counts_are_token_sums :
    (∀ (s : List Nat) (f : Formula), formula_parse32 s = .accept f →
      (∃ (ws ds p : List Nat) (ts : List Token), s = ws ++ ds ++ p ∧
        (∀ c ∈ ws, isspace c = true) ∧ (∀ c ∈ ds, isdigit c = true) ∧ Lexed p ts) ∧
      ∀ (ws ds p : List Nat) (ts : List Token), s = ws ++ ds ++ p →
        (∀ c ∈ ws, isspace c = true) → (∀ c ∈ ds, isdigit c = true) → Lexed p ts →
        (∀ e ∈ f.elements,
          e.count = wrap_int (token_total recorded_count32 ts e.element) ∧
          (e.count = token_total recorded_count ts e.element ↔
            token_total recorded_count ts e.element ≤ INT_MAX)) ∧
        (∀ el, el < NUM_ELEMENTS → (∀ e ∈ f.elements, e.element ≠ el) →
          token_total recorded_count ts el = 0)) ∧
    formula_parse32 (cstr "C2H6") =
      .accept (Formula.mk [ElementCount.mk 5 2, ElementCount.mk 0 6] 1) ∧
    formula_parse32 (cstr "O2O3") = .accept (Formula.mk [ElementCount.mk 7 5] 1) ∧
    formula_parse32 (cstr "H2147483647H") =
      .accept (Formula.mk [ElementCount.mk 0 (-2147483648)] 1) := by
  refine ⟨?_, by decide, by decide, by decide⟩
  intro s f h
  constructor
  · obtain ⟨f0, hf0, _, _⟩ := formula_parse32_accept_exact s f h
    obtain ⟨ws, ds, p, ts, hs, hw, hd, hp, _, _, _⟩ := formula_parse_accept s f0 hf0
    exact ⟨ws, ds, p, ts, hs, hw, hd, hp⟩
  · intro ws ds p ts hs hw hd hp
    have hb := formula_parse32_range s f h
    rw [hs] at h
    obtain ⟨h1, h2⟩ := formula_parse32_token_sums ws ds p ts f h hw hd hp
    refine ⟨fun e he => ⟨(h1 e he).2.1, ?_, (h1 e he).2.2⟩, h2⟩
    intro heq
    rw [← heq]
    exact hb e he

set_option maxRecDepth 100000 in
/-- Witness for the amended C6: `O2O3` read as the two tokens `O2` and `O3`
gives the stored count 5 for oxygen. -/
theorem formula_parse32_counts_are_token_sums_witness :
    formula_parse32 (cstr "O2O3") = .accept (Formula.mk [ElementCount.mk 7 5] 1) ∧
      token_total recorded_count
        [Token.mk (cstr "O") (cstr "2"), Token.mk (cstr "O") (cstr "3")] 7 = 5 ∧
      ∀ e ∈ (Formula.mk [ElementCount.mk 7 5] 1).elements,
        e.count = token_total recorded_count
          [Token.mk (cstr "O") (cstr "2"), Token.mk (cstr "O") (cstr "3")] e.element :=
  ⟨by decide, by decide, fun e he =>
    ((((formula_parse32_counts_are_token_sums.1 (cstr "O2O3") _ (by decide)).2
      [] [] (cstr "O2O3") _ rfl (by decide) (by decide)
      (Lexed.upper1 79 [50] _ _ (by decide) (by decide) (by decide) (by decide)
        (Lexed.upper1 79 [51] [] [] (by decide) (by decide) (by decide) (by decide)
          Lexed.nil))).1 e he).2).mpr (by
        unfold token_total
        simp only [List.filter_cons, List.filter_nil]
        split <;> decide)⟩

set_option maxRecDepth 100000 in
/-- C7 refuted as stated: with `int` on 32 bits, `H2147483648` parses to the
entry H with the count -2147483648; `formula_to_string` writes a count only
when it is above 1, so the text is `H`, which parses to H 1, and
`formula_equals` is false. -/
theorem formula_round_trip_overflow :
    formula_parse32 (cstr "H2147483648") =
        .accept (Formula.mk [ElementCount.mk 0 (-2147483648)] 1) ∧
      formula_to_string (Formula.mk [ElementCount.mk 0 (-2147483648)] 1) 16 =
        some (cstr "H") ∧
      formula_parse32 (cstr "H") = .accept (Formula.mk [ElementCount.mk 0 1] 1) ∧
      formula_equals (Formula.mk [ElementCount.mk 0 (-2147483648)] 1)
        (Formula.mk [ElementCount.mk 0 1] 1) = false := by
  decide

/-- C7 amended, with `int` on 32 bits: round trip. For every formula `f`
produced by a successful `formula_parse`, if `formula_to_string` succeeds on
`f` (the buffer is large enough), then `formula_parse` succeeds on the text
produced, and its result holds the entries of `f` as they are written, a
count that is not above 1 reading as 1. The result compares equal to `f`
under `formula_equals` if and only if every entry of `f` has a count of at
least 1, and it then has the entries of `f`. The count of an entry of `f`
is at least 1 whenever the counts of the tokens of its element, in the
string `f` was parsed from, sum to at most `INT_MAX`. -/
theorem formula_round_trip32 :
    (∀ (s : List Nat) (f : Formula) (buffer_size : Nat) (text : List Nat),
      formula_parse32 s = .accept f → formula_to_string f buffer_size = some text →
      ∃ g, formula_parse32 text = .accept g ∧ g.elements = printed_entries f.elements ∧
        (formula_equals f g = true ↔ ∀ e ∈ f.elements, 1 ≤ e.count) ∧
        ((∀ e ∈ f.elements, 1 ≤ e.count) → g.elements = f.elements)) ∧
    (∀ (s : List Nat) (f : Formula), formula_parse32 s = .accept f →
      ∀ (ws ds p : List Nat) (ts : List Token), s = ws ++ ds ++ p →
        (∀ c ∈ ws, isspace c = true) → (∀ c ∈ ds, isdigit c = true) → Lexed p ts →
        ∀ e ∈ f.elements, token_total recorded_count ts e.element ≤ INT_MAX →
          1 ≤ e.count) := by
  constructor
  · intro s f buffer_size text hparse hprint
    obtain ⟨g, hg, hge, hiff⟩ := formula_round_trip32_entries s f buffer_size text hparse hprint
    refine ⟨g, hg, hge, hiff, ?_⟩
    intro hpos
    rw [hge]
    exact printed_entries_of_pos f.elements hpos
  · intro s f h ws ds p ts hs hw hd hp
    rw [hs] at h
    exact formula_parse32_counts_pos ws ds p ts f h hw hd hp

set_option maxRecDepth 100000 in
/-- Witness for C7: `2 H2 O H` parses to coefficient 2 with H 3 and O 1, is
written as `2H3O`, and that text parses to an equal formula. -/
theorem formula_round_trip32_witness :
    formula_parse32 (cstr "2 H2 O H") =
        .accept (Formula.mk [ElementCount.mk 0 3, ElementCount.mk 7 1] 2) ∧
      formula_to_string (Formula.mk [ElementCount.mk 0 3, ElementCount.mk 7 1] 2) 16 =
        some (cstr "2H3O") ∧
      ∃ g, formula_parse32 (cstr "2H3O") = .accept g ∧
        g.elements = (Formula.mk [ElementCount.mk 0 3, ElementCount.mk 7 1] 2).elements ∧
        formula_equals (Formula.mk [ElementCount.mk 0 3, ElementCount.mk 7 1] 2) g = true :=
  ⟨by decide, by decide,
    (formula_round_trip32.1 (cstr "2 H2 O H")
      (Formula.mk [ElementCount.mk 0 3, ElementCount.mk 7 1] 2) 16 (cstr "2H3O")
      (by decide) (by decide)).imp
      (fun _ hg => ⟨hg.1, hg.2.2.2 (by decide), hg.2.2.1.mpr (by decide)⟩)⟩

/-- C8: for every string `s` and every run `w` of whitespace, `formula_parse`
has the same outcome on `s` and on `s` followed by `w`: both fail, or both
succeed with the same coefficient and the same entries, and these results
compare equal under `formula_equals`; so it is for `H2O` and `H2O` followed
by a space. -/
theorem formula_parse_trailing_whitespace :
    (∀ s w : List Nat, (∀ c ∈ w, isspace c = true) →
      (formula_parse s = .reject ∧ formula_parse (s ++ w) = .reject) ∨
      ∃ f, formula_parse s = .accept f ∧ formula_parse (s ++ w) = .accept f ∧
        formula_equals f f = true) ∧
    (formula_parse (cstr "H2O") =
        .accept (Formula.mk [ElementCount.mk 0 2, ElementCount.mk 7 1] 1) ∧
      formula_parse (cstr "H2O ") =
        .accept (Formula.mk [ElementCount.mk 0 2, ElementCount.mk 7 1] 1) ∧
      formula_equals (Formula.mk [ElementCount.mk 0 2, ElementCount.mk 7 1] 1)
        (Formula.mk [ElementCount.mk 0 2, ElementCount.mk 7 1] 1) = true) := by
  refine ⟨?_, by decide, by decide, by decide⟩
  intro s w hw
  rw [formula_parse_append_spaces s w hw]
  cases h : formula_parse s with
  | accept f =>
    exact Or.inr ⟨f, rfl, rfl, formula_equals_same_entries f f rfl (formula_parse_nodup s f h)⟩
  | reject => exact Or.inl ⟨rfl, rfl⟩
  | unfinished => exact absurd h (formula_parse_returns s)

/-- Witness for C8: `2H2O` followed by a space and a tab. -/
theorem formula_parse_trailing_whitespace_witness :
    (formula_parse (cstr "2H2O") = .reject ∧
        formula_parse (cstr "2H2O" ++ [32, 9]) = .reject) ∨
      ∃ f, formula_parse (cstr "2H2O") = .accept f ∧
        formula_parse (cstr "2H2O" ++ [32, 9]) = .accept f ∧ formula_equals f f = true :=
  formula_parse_trailing_whitespace.1 (cstr "2H2O") [32, 9] (by decide)

/-- C9: `formula_parse` fails on the empty string and on `2`, and on every
string made only of whitespace, an optional leading digit run and
parentheses: no element entry is produced. -/
theorem formula_parse_no_element_rejected :
    formula_parse (cstr "") = .reject ∧ formula_parse (cstr "2") = .reject ∧
    ∀ ws ds r : List Nat, (∀ c ∈ ws, isspace c = true) → (∀ c ∈ ds, isdigit c = true) →
      (∀ c ∈ r, isspace c = true ∨ c = 40 ∨ c = 41) →
      formula_parse (ws ++ ds ++ r) = .reject := by
  refine ⟨by decide, by decide, ?_⟩
  intro ws ds r hw hd hr
  have hl := lexed_of_blank r hr
  rw [formula_parse_of_lexed ws ds r [] hw hd hl, parse_body_of_lexed r [] hl]
  rfl

/-- Witness for C9: a space, the digit run `12`, then spaces and parentheses. -/
theorem formula_parse_no_element_rejected_witness :
    formula_parse (cstr " " ++ cstr "12" ++ cstr " ( ) ") = .reject :=
  formula_parse_no_element_rejected.2.2 (cstr " ") (cstr "12") (cstr " ( ) ")
    (by decide) (by decide) (by decide)

/-- C10: `formula_parse` fails whenever a symbol candidate it reads is not the
symbol of any catalog element, whatever follows it. The candidate `cand` is
read after leading whitespace `ws`, a digit run `ds` and a stretch `p` of
tokens, whitespace and parentheses; it is an uppercase letter with the
lowercase letter after it when there is one. So it is for `Xx2`. -/
theorem formula_parse_unknown_symbol_rejected :
    (∀ (ws ds p : List Nat) (ts : List Token) (cand rest : List Nat),
      (∀ c ∈ ws, isspace c = true) → (∀ c ∈ ds, isdigit c = true) → Lexed p ts →
      is_candidate cand = true → (cand.length = 1 → starts_with islower rest = false) →
      is_catalog_symbol cand = false →
      formula_parse (ws ++ ds ++ (p ++ (cand ++ rest))) = .reject) ∧
    formula_parse (cstr "Xx2") = .reject := by
  refine ⟨?_, by decide⟩
  intro ws ds p ts cand rest hw hd hp hc hg hu
  have hx := candidate_starts_upper cand rest hc
  obtain ⟨_, hx2, hx3⟩ := starts_with_upper_not _ hx
  have hq : starts_with isdigit (skip_space (p ++ (cand ++ rest))) = false := by
    apply lexed_head p ts hp
    rw [skip_space_of_not_space _ hx3]; exact hx2
  have hq2 : starts_with isdigit (p ++ (cand ++ rest)) = false :=
    starts_with_append_false _ _ _ (lexed_not_digit p ts hp) hx2
  rw [formula_parse_split ws ds _ hw hd hq (fun _ => hq2),
    parse_body_lexed_append p ts hp _ hx]
  simp only []
  cases fold_tokens ts [] with
  | none => rfl
  | some es => exact parse_body_unknown cand rest _ hc hg hu

/-- Witness for C10: in `2 H2Zz3O` the candidate `Zz` is read after the token
`H2` and is not a catalog symbol. -/
theorem formula_parse_unknown_symbol_rejected_witness :
    formula_parse (cstr "" ++ cstr "2" ++ (cstr " H2" ++ (cstr "Zz" ++ cstr "3O"))) = .reject :=
  formula_parse_unknown_symbol_rejected.1 (cstr "") (cstr "2") (cstr " H2")
    [Token.mk (cstr "H") (cstr "2")] (cstr "Zz") (cstr "3O") (by decide) (by decide)
    (Lexed.space 32 _ _ (by decide)
      (Lexed.upper1 72 [50] [] [] (by decide) (by decide) (by decide) (by decide) Lexed.nil))
    (by decide) (by decide) (by decide)

set_option maxRecDepth 100000 in
/-- C11: for every symbol candidate the parser can form (one uppercase letter,
optionally followed by one lowercase letter), the case-insensitive lookup
`element_by_symbol` returns exactly what a case-sensitive exact match against
the catalog returns, an element or nothing. So `Na` resolves to sodium
(Z = 11), `Cl` to chlorine (Z = 17), and `NaCl` parses to Na 1, Cl 1. -/
theorem element_by_symbol_exact_on_candidates :
    (∀ sym : List Nat, is_candidate sym = true →
      element_by_symbol sym = element_by_exact_symbol sym) ∧
    element_by_symbol (cstr "Na") = some 10 ∧
    PERIODIC_TABLE[10]? = some (Element.mk 11 "Na" "Sodium") ∧
    element_by_symbol (cstr "Cl") = some 16 ∧
    PERIODIC_TABLE[16]? = some (Element.mk 17 "Cl" "Chlorine") ∧
    formula_parse (cstr "NaCl") =
      .accept (Formula.mk [ElementCount.mk 10 1, ElementCount.mk 16 1] 1) := by
  refine ⟨?_, by decide, by decide, by decide, by decide, by decide⟩
  intro sym hc
  exact element_by_symbol_from_exact sym hc PERIODIC_TABLE 0
    (fun e he => (List.all_eq_true.mp table_candidates) e he)

set_option maxRecDepth 100000 in
/-- Witness for C11: the candidates `Co` (cobalt) and `Xx` (no element). -/
theorem element_by_symbol_exact_on_candidates_witness :
    element_by_symbol (cstr "Co") = element_by_exact_symbol (cstr "Co") ∧
    element_by_exact_symbol (cstr "Co") = some 26 ∧
    element_by_symbol (cstr "Xx") = element_by_exact_symbol (cstr "Xx") ∧
    element_by_exact_symbol (cstr "Xx") = none :=
  ⟨element_by_symbol_exact_on_candidates.1 (cstr "Co") (by decide), by decide,
    element_by_symbol_exact_on_candidates.1 (cstr "Xx") (by decide), by decide⟩

/-- C12 refuted as stated: the formula with the two entries H 1, H 1 compares
equal to the formula with the entries H 1, O 1, both of two entries, although
the second has a single partner for the two entries of the first, so there
is no one-to-one matching. -/
theorem formula_equals_many_to_one :
    formula_equals (Formula.mk [ElementCount.mk 0 1, ElementCount.mk 0 1] 1)
        (Formula.mk [ElementCount.mk 0 1, ElementCount.mk 7 1] 1) = true ∧
      ¬ ((Formula.mk [ElementCount.mk 0 1, ElementCount.mk 0 1] 1).elements.length =
          (Formula.mk [ElementCount.mk 0 1, ElementCount.mk 7 1] 1).elements.length ∧
        one_to_one_matching (Formula.mk [ElementCount.mk 0 1, ElementCount.mk 0 1] 1).elements
          (Formula.mk [ElementCount.mk 0 1, ElementCount.mk 7 1] 1).elements) := by
  refine ⟨by decide, ?_⟩
  rintro ⟨_, h⟩
  have hsub := (one_to_one_matching_iff _ _).mp h
  have := hsub.count_le (ElementCount.mk 0 1)
  revert this
  decide

/-- C12 amended: for every formula `f1` without duplicate element entries and
every formula `f2`, `formula_equals f1 f2` is true if and only if they have
the same number of entries and there is a one-to-one matching of the entries
of `f1` to entries of `f2` with identical element and count. On any two
formulas it is true exactly when they have the same number of entries and,
for each entry of `f1`, the first entry of `f2` with that element has the
same count. -/
theorem formula_equals_iff_matching (f1 f2 : Formula) (h1 : no_duplicates f1) :
    (formula_equals f1 f2 = true ↔
      f1.elements.length = f2.elements.length ∧
        one_to_one_matching f1.elements f2.elements) ∧
    ∀ g1 g2 : Formula, formula_equals g1 g2 = true ↔
      g1.elements.length = g2.elements.length ∧
        ∀ e ∈ g1.elements, first_count e.element g2.elements = some e.count := by
  refine ⟨?_, formula_equals_iff⟩
  have n1 : f1.elements.Nodup := List.Nodup.of_map _ h1
  rw [one_to_one_matching_iff, formula_equals_iff]
  constructor
  · rintro ⟨hl, hf⟩
    exact ⟨hl, List.subperm_of_subset n1 (first_count_mem _ _ hf)⟩
  · rintro ⟨hl, hs⟩
    have hperm := hs.perm_of_length_le (by omega)
    have h2 : (f2.elements.map ElementCount.element).Nodup :=
      (hperm.map ElementCount.element).nodup_iff.mp h1
    exact ⟨hl, fun e he => first_count_of_mem _ e h2 (hperm.mem_iff.mp he)⟩

/-- Witness for the amended C12: H 2, O 1 against O 1, H 2. -/
theorem formula_equals_iff_matching_witness :
    formula_equals (Formula.mk [ElementCount.mk 0 2, ElementCount.mk 7 1] 1)
        (Formula.mk [ElementCount.mk 7 1, ElementCount.mk 0 2] 3) = true ∧
      one_to_one_matching [ElementCount.mk 0 2, ElementCount.mk 7 1]
        [ElementCount.mk 7 1, ElementCount.mk 0 2] :=
  ⟨by decide,
    ((formula_equals_iff_matching (Formula.mk [ElementCount.mk 0 2, ElementCount.mk 7 1] 1)
      (Formula.mk [ElementCount.mk 7 1, ElementCount.mk 0 2] 3) (by decide)).1.mp
      (by decide)).2⟩

/-- C13: for all formulas without duplicate element entries, `formula_equals`
is true exactly when the two formulas have the same set of (element, count)
pairs; the result does not depend on the coefficients nor on the order of
the entries, and on such formulas `formula_equals` is reflexive, symmetric
and transitive. -/
theorem formula_equals_set_equality (f1 f2 f3 : Formula) (h1 : no_duplicates f1)
    (h2 : no_duplicates f2) (h3 : no_duplicates f3) :
    (formula_equals f1 f2 = true ↔ ∀ e, e ∈ f1.elements ↔ e ∈ f2.elements) ∧
    (∀ c1 c2 : Int, formula_equals (Formula.mk f1.elements c1) (Formula.mk f2.elements c2) =
      formula_equals f1 f2) ∧
    (∀ es1 es2 : List ElementCount, es1.Perm f1.elements → es2.Perm f2.elements →
      formula_equals (Formula.mk es1 f1.coefficient) (Formula.mk es2 f2.coefficient) =
        formula_equals f1 f2) ∧
    formula_equals f1 f1 = true ∧
    (formula_equals f1 f2 = true → formula_equals f2 f1 = true) ∧
    (formula_equals f1 f2 = true → formula_equals f2 f3 = true →
      formula_equals f1 f3 = true) := by
  refine ⟨formula_equals_iff_same_set f1 f2 h1 h2, fun _ _ => rfl, ?_, ?_, ?_, ?_⟩
  · intro es1 es2 p1 p2
    have k1 : no_duplicates (Formula.mk es1 f1.coefficient) :=
      (p1.map ElementCount.element).nodup_iff.mpr h1
    have k2 : no_duplicates (Formula.mk es2 f2.coefficient) :=
      (p2.map ElementCount.element).nodup_iff.mpr h2
    rw [Bool.eq_iff_iff, formula_equals_iff_same_set _ _ k1 k2,
      formula_equals_iff_same_set _ _ h1 h2]
    constructor
    · intro h e
      rw [← p1.mem_iff, ← p2.mem_iff]; exact h e
    · intro h e
      show e ∈ es1 ↔ e ∈ es2
      rw [p1.mem_iff, p2.mem_iff]; exact h e
  · exact (formula_equals_iff_same_set f1 f1 h1 h1).mpr (fun _ => Iff.rfl)
  · intro h
    rw [formula_equals_iff_same_set _ _ h1 h2] at h
    exact (formula_equals_iff_same_set _ _ h2 h1).mpr (fun e => (h e).symm)
  · intro h12 h23
    rw [formula_equals_iff_same_set _ _ h1 h2] at h12
    rw [formula_equals_iff_same_set _ _ h2 h3] at h23
    exact (formula_equals_iff_same_set _ _ h1 h3).mpr (fun e => (h12 e).trans (h23 e))

/-- Witness for C13: H 2, O 1 with coefficient 1, O 1, H 2 with coefficient 3,
and H 2, O 1 with coefficient 2. -/
theorem formula_equals_set_equality_witness :
    formula_equals (Formula.mk [ElementCount.mk 0 2, ElementCount.mk 7 1] 1)
        (Formula.mk [ElementCount.mk 7 1, ElementCount.mk 0 2] 3) = true ↔
      ∀ e, e ∈ [ElementCount.mk 0 2, ElementCount.mk 7 1] ↔
        e ∈ [ElementCount.mk 7 1, ElementCount.mk 0 2] :=
  (formula_equals_set_equality (Formula.mk [ElementCount.mk 0 2, ElementCount.mk 7 1] 1)
    (Formula.mk [ElementCount.mk 7 1, ElementCount.mk 0 2] 3)
    (Formula.mk [ElementCount.mk 0 2, ElementCount.mk 7 1] 2)
    (by decide) (by decide) (by decide)).1

/-- C14: for all lists `A` and `B` of at most 10 formulas, each formula without
duplicate element entries, the greedy `formulas_match_set A B` returns true
if and only if `A` and `B` have equal length and there is a bijection
between them that pairs formulas with the same set of element identities,
counts and coefficients ignored. -/
theorem formulas_match_set_iff_bijection (A B : List Formula)
    (hlen : A.length ≤ MAX_REACTANTS ∧ B.length ≤ MAX_REACTANTS)
    (hA : ∀ f ∈ A, no_duplicates f) (hB : ∀ g ∈ B, no_duplicates g) :
    formulas_match_set A B = true ↔ A.length = B.length ∧ set_bijection A B :=
  formulas_match_set_iff A B hlen.2 hA hB

/-- Witness for C14: the lists O2, C and 2C, O3, paired crosswise. -/
theorem formulas_match_set_iff_bijection_witness :
    formulas_match_set
        [Formula.mk [ElementCount.mk 7 2] 1, Formula.mk [ElementCount.mk 5 1] 1]
        [Formula.mk [ElementCount.mk 5 1] 2, Formula.mk [ElementCount.mk 7 3] 1] = true ∧
      set_bijection
        [Formula.mk [ElementCount.mk 7 2] 1, Formula.mk [ElementCount.mk 5 1] 1]
        [Formula.mk [ElementCount.mk 5 1] 2, Formula.mk [ElementCount.mk 7 3] 1] :=
  ⟨by decide,
    ((formulas_match_set_iff_bijection
      [Formula.mk [ElementCount.mk 7 2] 1, Formula.mk [ElementCount.mk 5 1] 1]
      [Formula.mk [ElementCount.mk 5 1] 2, Formula.mk [ElementCount.mk 7 3] 1]
      (by decide) (by decide) (by decide)).mp (by decide)).2⟩

set_option maxRecDepth 1000000 in
/-- C15: `reaction_db_find` is order-independent: for every query list of parsed
formulas and every permutation of it, it returns the same reaction, before
and after the database is initialised. The queries O2, C and C, O2 both
return the reaction of index 0, the seeded "Combustion of carbon". -/
theorem reaction_db_find_order_independent :
    (∀ (db : Database) (q q2 : List Formula), (db = db_start ∨ db = db_seeded) →
      (∀ f ∈ q, ∃ s, formula_parse s = .accept f) → q.Perm q2 →
      reaction_db_find db q = reaction_db_find db q2) ∧
    formula_parse (cstr "O2") = .accept (Formula.mk [ElementCount.mk 7 2] 1) ∧
    formula_parse (cstr "C") = .accept (Formula.mk [ElementCount.mk 5 1] 1) ∧
    (reaction_db_find db_start
      [Formula.mk [ElementCount.mk 7 2] 1, Formula.mk [ElementCount.mk 5 1] 1]).2 = some 0 ∧
    (reaction_db_find db_start
      [Formula.mk [ElementCount.mk 5 1] 1, Formula.mk [ElementCount.mk 7 2] 1]).2 = some 0 ∧
    (db_seeded.reaction_database[0]?).map Reaction.description =
      some "Combustion of carbon" := by
  refine ⟨?_, by decide, by decide, by decide, by decide, by decide⟩
  intro db q q2 hdb hq hp
  have hnd : ∀ f ∈ q, no_duplicates f := by
    intro f hf
    obtain ⟨s, hs⟩ := hq f hf
    exact formula_parse_nodup s f hs
  unfold reaction_db_find
  rw [ensure_init_reachable db hdb]
  rw [find_from_congr q q2 _ 0 (fun r hr =>
    formulas_match_set_perm q q2 r.reactants hp hnd (seeded_reactants r hr).1
      (seeded_reactants r hr).2)]

set_option maxRecDepth 1000000 in
/-- Witness for C15: the parsed formulas of `NaOH` and `HCl` in both orders. -/
theorem reaction_db_find_order_independent_witness :
    reaction_db_find db_start
        [Formula.mk [ElementCount.mk 10 1, ElementCount.mk 7 1, ElementCount.mk 0 1] 1,
          Formula.mk [ElementCount.mk 0 1, ElementCount.mk 16 1] 1] =
      reaction_db_find db_start
        [Formula.mk [ElementCount.mk 0 1, ElementCount.mk 16 1] 1,
          Formula.mk [ElementCount.mk 10 1, ElementCount.mk 7 1, ElementCount.mk 0 1] 1] :=
  reaction_db_find_order_independent.1 db_start _ _ (Or.inl rfl)
    (fun f hf => by
      rcases List.mem_cons.mp hf with h | h
      · exact ⟨cstr "NaOH", by rw [h]; decide⟩
      · rw [List.mem_singleton] at h
        exact ⟨cstr "HCl", by rw [h]; decide⟩)
    (List.Perm.swap _ _ _)

/-- C16: `reaction_db_find` returns the database entry of lowest index whose
reactant list set-matches the query, and returns nothing if and only if no
entry matches; the database searched is the storage after the lazy
initialisation. -/
theorem reaction_db_find_lowest_match (db : Database) (q : List Formula) :
    (reaction_db_find db q).1 = ensure_init db ∧
    (∀ k, (reaction_db_find db q).2 = some k ↔
      (∃ r, (ensure_init db).reaction_database[k]? = some r ∧
        formulas_match_set q r.reactants = true) ∧
      ∀ j, j < k → ∀ r, (ensure_init db).reaction_database[j]? = some r →
        formulas_match_set q r.reactants = false) ∧
    ((reaction_db_find db q).2 = none ↔
      ∀ r ∈ (ensure_init db).reaction_database, formulas_match_set q r.reactants = false) := by
  refine ⟨rfl, ?_, ?_⟩
  · intro k
    unfold reaction_db_find
    simp only []
    rw [find_from_some]
    simp
  · unfold reaction_db_find
    simp only []
    exact find_from_none q _ 0

set_option maxRecDepth 1000000 in
/-- C17 fails on the code: the seeded reactions of index 7 ("Electrolysis of
water", reactant 2H2O) and of index 8 ("Decomposition of hydrogen peroxide",
reactant 2H2O2) have reactant lists that set-match each other, and
`reaction_db_find` on the reactant list of the reaction of index 8 returns
the reaction of index 7. Every other seeded reaction is returned for its
own reactant list. -/
theorem seeded_peroxide_shadowed :
    (db_seeded.reaction_database[7]?).map Reaction.description =
      some "Electrolysis of water" ∧
    (db_seeded.reaction_database[7]?).map Reaction.reactants =
      some [Formula.mk [ElementCount.mk 0 2, ElementCount.mk 7 1] 2] ∧
    (db_seeded.reaction_database[8]?).map Reaction.description =
      some "Decomposition of hydrogen peroxide" ∧
    (db_seeded.reaction_database[8]?).map Reaction.reactants =
      some [Formula.mk [ElementCount.mk 0 2, ElementCount.mk 7 2] 2] ∧
    formulas_match_set [Formula.mk [ElementCount.mk 0 2, ElementCount.mk 7 2] 2]
      [Formula.mk [ElementCount.mk 0 2, ElementCount.mk 7 1] 2] = true ∧
    formulas_match_set [Formula.mk [ElementCount.mk 0 2, ElementCount.mk 7 1] 2]
      [Formula.mk [ElementCount.mk 0 2, ElementCount.mk 7 2] 2] = true ∧
    (reaction_db_find db_start [Formula.mk [ElementCount.mk 0 2, ElementCount.mk 7 2] 2]).2 =
      some 7 ∧
    (List.range 19).all (fun i =>
      match db_seeded.reaction_database[i]? with
      | some r => i == 8 || (reaction_db_find db_seeded r.reactants).2 == some i
      | none => false) = true := by
  decide

set_option maxRecDepth 1000000 in
/-- C18: for every text shorter than 256 characters, `reaction_db_find_by_string`
returns what `reaction_db_find` returns on the list obtained by splitting
the text on `+`, trimming whitespace around each token, parsing each token
with `formula_parse` and keeping in order the tokens that parse, at most 10;
a token that does not parse is dropped without failing the query, so
`C + ?? + O2` returns the same reaction as `C + O2`. -/
theorem reaction_db_find_by_string_eq_find :
    (∀ (db : Database) (text : List Nat), text.length < MAX_FORMULA_LENGTH →
      reaction_db_find_by_string db text = some (reaction_db_find db (query_of_text text))) ∧
    reaction_db_find_by_string db_start (cstr "C + ?? + O2") =
      reaction_db_find_by_string db_start (cstr "C + O2") ∧
    reaction_db_find_by_string db_start (cstr "C + ?? + O2") = some (db_seeded, some 0) := by
  refine ⟨?_, by decide, by decide⟩
  intro db text hlen
  unfold reaction_db_find_by_string
  have htake : text.take (MAX_FORMULA_LENGTH - 1) = text :=
    List.take_of_length_le (by simp only [MAX_FORMULA_LENGTH] at hlen ⊢; omega)
  simp only [htake]
  rw [collect_formulas_eq _ text [] (by omega) (by simp [MAX_REACTANTS])]
  simp only [List.nil_append]
  rw [ensure_init_find]
  rfl

set_option maxRecDepth 1000000 in
/-- Witness for C18: the text `O2 ++ C`, whose middle token is empty. -/
theorem reaction_db_find_by_string_eq_find_witness :
    reaction_db_find_by_string db_start (cstr "O2 ++ C") =
        some (reaction_db_find db_start (query_of_text (cstr "O2 ++ C"))) ∧
      query_of_text (cstr "O2 ++ C") =
        [Formula.mk [ElementCount.mk 7 2] 1, Formula.mk [ElementCount.mk 5 1] 1] :=
  ⟨reaction_db_find_by_string_eq_find.1 db_start (cstr "O2 ++ C") (by decide), by decide⟩

set_option maxRecDepth 1000000 in
/-- C19: `reaction_db_find_by_string` on `C + O2` returns the reaction of index
0, the seeded "Combustion of carbon" C + O2 -> CO2, whose `is_balanced` flag
is true; its atom totals are 1 carbon (Z = 6) and 2 oxygen (Z = 8) on the
reactant side and the same on the product side. -/
theorem reaction_db_find_by_string_carbon :
    reaction_db_find_by_string db_start (cstr "C + O2") = some (db_seeded, some 0) ∧
    reaction_db_find_by_string db_seeded (cstr "C + O2") = some (db_seeded, some 0) ∧
    db_seeded.reaction_database[0]? =
      some (Reaction.mk
        [Formula.mk [ElementCount.mk 5 1] 1, Formula.mk [ElementCount.mk 7 2] 1]
        [Formula.mk [ElementCount.mk 5 1, ElementCount.mk 7 2] 1]
        .COND_HEATED .RXTYPE_COMBUSTION "Combustion of carbon" true false) ∧
    count_atoms [Formula.mk [ElementCount.mk 5 1] 1, Formula.mk [ElementCount.mk 7 2] 1]
        (List.replicate NUM_ELEMENTS 0) =
      add_at (add_at (List.replicate NUM_ELEMENTS 0) 5 1) 7 2 ∧
    count_atoms [Formula.mk [ElementCount.mk 5 1, ElementCount.mk 7 2] 1]
        (List.replicate NUM_ELEMENTS 0) =
      add_at (add_at (List.replicate NUM_ELEMENTS 0) 5 1) 7 2 ∧
    (PERIODIC_TABLE[5]?).map Element.atomic_number = some 6 ∧
    (PERIODIC_TABLE[7]?).map Element.atomic_number = some 8 := by
  decide

set_option maxRecDepth 1000000 in
/-- C20: each of the four reactant strings the program suggests is found by
`reaction_db_find_by_string`: `C + O2` gives the combustion of carbon,
`H2 + O2` the combustion of hydrogen (seeded as 2H2 + O2), `Na + Cl2` the
formation of table salt (seeded as 2Na + Cl2) and `CH4 + O2` the combustion
of methane (seeded as CH4 + 2O2): the matching ignores coefficients. -/
theorem reaction_db_find_by_string_suggestions :
    reaction_db_find_by_string db_start (cstr "C + O2") = some (db_seeded, some 0) ∧
    reaction_db_find_by_string db_start (cstr "H2 + O2") = some (db_seeded, some 1) ∧
    reaction_db_find_by_string db_start (cstr "Na + Cl2") = some (db_seeded, some 3) ∧
    reaction_db_find_by_string db_start (cstr "CH4 + O2") = some (db_seeded, some 2) ∧
    (db_seeded.reaction_database[0]?).map Reaction.description =
      some "Combustion of carbon" ∧
    (db_seeded.reaction_database[1]?).map Reaction.description =
      some "Combustion of hydrogen" ∧
    (db_seeded.reaction_database[1]?).map Reaction.reactants =
      some [Formula.mk [ElementCount.mk 0 2] 2, Formula.mk [ElementCount.mk 7 2] 1] ∧
    (db_seeded.reaction_database[3]?).map Reaction.description =
      some "Formation of table salt" ∧
    (db_seeded.reaction_database[3]?).map Reaction.reactants =
      some [Formula.mk [ElementCount.mk 10 1] 2, Formula.mk [ElementCount.mk 16 2] 1] ∧
    (db_seeded.reaction_database[2]?).map Reaction.description =
      some "Combustion of methane" ∧
    (db_seeded.reaction_database[2]?).map Reaction.reactants =
      some [Formula.mk [ElementCount.mk 5 1, ElementCount.mk 0 4] 1,
        Formula.mk [ElementCount.mk 7 2] 2] := by
  decide


set_option maxRecDepth 1000000 in
/-- C21: for every element and every `max_results > 0`,
`reaction_db_find_by_element` stores the first `max_results` of the
reactions of the initialised database in which the element appears in some
reactant or some product formula, in insertion order, or all of them when
they are fewer, and returns their number, the minimum of `max_results` and
the number of such reactions; for `max_results <= 0` it stores nothing and
returns 0. For oxygen with `max_results = 1` it stores the reaction of index
0 only, although 16 seeded reactions involve oxygen. -/
theorem reaction_db_find_by_element_first_matches :
    (∀ (db : Database) (el : Nat) (max_results : Int), 0 < max_results →
      (reaction_db_find_by_element db el max_results).1 = ensure_init db ∧
      (reaction_db_find_by_element db el max_results).2 =
        (involving el (ensure_init db).reaction_database).take max_results.toNat ∧
      ((reaction_db_find_by_element db el max_results).2.length : Int) =
        min max_results ((involving el (ensure_init db).reaction_database).length : Int)) ∧
    (∀ (db : Database) (el : Nat) (max_results : Int), max_results ≤ 0 →
      reaction_db_find_by_element db el max_results = (db, [])) ∧
    (PERIODIC_TABLE[7]?).map Element.symbol = some "O" ∧
    (reaction_db_find_by_element db_start 7 1).2 = [0] ∧
    involving 7 db_seeded.reaction_database =
      [0, 1, 2, 4, 6, 7, 8, 9, 10, 11, 13, 14, 15, 16, 17, 18] := by
  refine ⟨?_, ?_, by decide, by decide, by decide⟩
  · intro db el max_results h
    rw [reaction_db_find_by_element_eq db el max_results h]
    refine ⟨rfl, rfl, ?_⟩
    simp only [List.length_take]
    omega
  · intro db el max_results h
    unfold reaction_db_find_by_element
    simp only [h, if_true]

set_option maxRecDepth 1000000 in
/-- Witness for C21: hydrogen with `max_results = 3` on the storage the program
starts with, and with `max_results = 0`. -/
theorem reaction_db_find_by_element_first_matches_witness :
    (reaction_db_find_by_element db_start 0 3).2 =
        (involving 0 (ensure_init db_start).reaction_database).take (3 : Int).toNat ∧
      (reaction_db_find_by_element db_start 0 3).2 = [1, 2, 5] ∧
      reaction_db_find_by_element db_start 0 0 = (db_start, []) :=
  ⟨(reaction_db_find_by_element_first_matches.1 db_start 0 3 (by decide)).2.1, by decide,
    reaction_db_find_by_element_first_matches.2.1 db_start 0 0 (by decide)⟩

set_option maxRecDepth 1000000 in
/-- C22: of the 19 seeded reactions, each of the 17 that is neither the
photosynthesis nor the cellular respiration has `is_balanced` true after
seeding, and `reaction_check_balanced` returns true for it. -/
theorem seeded_reactions_balanced :
    db_seeded.reaction_database.length = 19 ∧
    (db_seeded.reaction_database.filter (fun r =>
      decide (r.description ≠ "Photosynthesis (simplified)" ∧
        r.description ≠ "Cellular respiration (simplified)"))).length = 17 ∧
    ∀ r, r ∈ db_seeded.reaction_database →
      r.description ≠ "Photosynthesis (simplified)" →
      r.description ≠ "Cellular respiration (simplified)" →
      r.is_balanced = true ∧ (reaction_check_balanced r).2 = true := by
  refine ⟨by decide, by decide, ?_⟩
  intro r hr _ _
  have h := (List.all_eq_true.mp seeded_all_balanced) r hr
  simpa using h

set_option maxRecDepth 1000000 in
/-- Witness for C22: the seeded combustion of carbon. -/
theorem seeded_reactions_balanced_witness :
    (Reaction.mk
        [Formula.mk [ElementCount.mk 5 1] 1, Formula.mk [ElementCount.mk 7 2] 1]
        [Formula.mk [ElementCount.mk 5 1, ElementCount.mk 7 2] 1]
        .COND_HEATED .RXTYPE_COMBUSTION "Combustion of carbon" true false).is_balanced = true ∧
      (reaction_check_balanced (Reaction.mk
        [Formula.mk [ElementCount.mk 5 1] 1, Formula.mk [ElementCount.mk 7 2] 1]
        [Formula.mk [ElementCount.mk 5 1, ElementCount.mk 7 2] 1]
        .COND_HEATED .RXTYPE_COMBUSTION "Combustion of carbon" true false)).2 = true :=
  seeded_reactions_balanced.2.2 _ (by decide) (by decide) (by decide)

set_option maxRecDepth 1000000 in
/-- Counterexample to C23: the seeded photosynthesis has `is_balanced` true, and
`reaction_check_balanced` returns true for it. -/
theorem seeded_photosynthesis_balanced :
    (db_seeded.reaction_database[16]?).map
        (fun r => (r.description, r.is_balanced, (reaction_check_balanced r).2)) =
      some ("Photosynthesis (simplified)", true, true) := by
  decide

set_option maxRecDepth 1000000 in
/-- C23, amended: the two seeded biological reactions, photosynthesis
(6CO2 + 6H2O -> C6H12O6 + 6O2, index 16) and cellular respiration
(C6H12O6 + 6O2 -> 6CO2 + 6H2O, index 17), pass the balance check: their
`is_balanced` flag is true after seeding, `reaction_check_balanced` returns
true for each, and each side holds 12 hydrogen (Z = 1), 6 carbon (Z = 6) and
18 oxygen (Z = 8). -/
theorem seeded_biological_reactions_balanced :
    db_seeded.reaction_database[16]? =
      some (Reaction.mk
        [Formula.mk [ElementCount.mk 5 1, ElementCount.mk 7 2] 6,
          Formula.mk [ElementCount.mk 0 2, ElementCount.mk 7 1] 6]
        [Formula.mk [ElementCount.mk 5 6, ElementCount.mk 0 12, ElementCount.mk 7 6] 1,
          Formula.mk [ElementCount.mk 7 2] 6]
        .COND_LIGHT .RXTYPE_OTHER "Photosynthesis (simplified)" true false) ∧
    db_seeded.reaction_database[17]? =
      some (Reaction.mk
        [Formula.mk [ElementCount.mk 5 6, ElementCount.mk 0 12, ElementCount.mk 7 6] 1,
          Formula.mk [ElementCount.mk 7 2] 6]
        [Formula.mk [ElementCount.mk 5 1, ElementCount.mk 7 2] 6,
          Formula.mk [ElementCount.mk 0 2, ElementCount.mk 7 1] 6]
        .COND_NORMAL .RXTYPE_COMBUSTION "Cellular respiration (simplified)" true false) ∧
    (db_seeded.reaction_database[16]?).map (fun r => (reaction_check_balanced r).2) =
      some true ∧
    (db_seeded.reaction_database[17]?).map (fun r => (reaction_check_balanced r).2) =
      some true ∧
    count_atoms
        [Formula.mk [ElementCount.mk 5 1, ElementCount.mk 7 2] 6,
          Formula.mk [ElementCount.mk 0 2, ElementCount.mk 7 1] 6]
        (List.replicate NUM_ELEMENTS 0) =
      add_at (add_at (add_at (List.replicate NUM_ELEMENTS 0) 0 12) 5 6) 7 18 ∧
    count_atoms
        [Formula.mk [ElementCount.mk 5 6, ElementCount.mk 0 12, ElementCount.mk 7 6] 1,
          Formula.mk [ElementCount.mk 7 2] 6]
        (List.replicate NUM_ELEMENTS 0) =
      add_at (add_at (add_at (List.replicate NUM_ELEMENTS 0) 0 12) 5 6) 7 18 := by
  decide

/-- C25: `reaction_check_balanced` sets the field `is_balanced` of the reaction
to the boolean it returns and leaves the reactants, the products (and so
their counts), the condition, the type, the description and `is_reversible`
as they were. -/
theorem reaction_check_balanced_frame (rxn : Reaction) :
    (reaction_check_balanced rxn).1 =
      { rxn with is_balanced := (reaction_check_balanced rxn).2 } ∧
    (reaction_check_balanced rxn).1.is_balanced = (reaction_check_balanced rxn).2 ∧
    (reaction_check_balanced rxn).1.reactants = rxn.reactants ∧
    (reaction_check_balanced rxn).1.products = rxn.products ∧
    (reaction_check_balanced rxn).1.condition = rxn.condition ∧
    (reaction_check_balanced rxn).1.type = rxn.type ∧
    (reaction_check_balanced rxn).1.description = rxn.description ∧
    (reaction_check_balanced rxn).1.is_reversible = rxn.is_reversible := by
  unfold reaction_check_balanced
  simp only []
  split <;> exact ⟨rfl, rfl, rfl, rfl, rfl, rfl, rfl, rfl⟩

set_option maxRecDepth 1000000 in
/-- C26: `reaction_balance` returns the boolean `reaction_check_balanced` returns
and leaves the reaction in the same state; the reactants and the products,
and with them every coefficient, are as before. On H2 + O2 -> H2O it
returns false and balances nothing. -/
theorem reaction_balance_eq_check :
    (∀ rxn : Reaction, reaction_balance rxn = reaction_check_balanced rxn ∧
      (reaction_balance rxn).1.reactants = rxn.reactants ∧
      (reaction_balance rxn).1.products = rxn.products) ∧
    reaction_balance (Reaction.mk
        [Formula.mk [ElementCount.mk 0 2] 1, Formula.mk [ElementCount.mk 7 2] 1]
        [Formula.mk [ElementCount.mk 0 2, ElementCount.mk 7 1] 1]
        .COND_NORMAL .RXTYPE_OTHER "" false false) =
      (Reaction.mk
        [Formula.mk [ElementCount.mk 0 2] 1, Formula.mk [ElementCount.mk 7 2] 1]
        [Formula.mk [ElementCount.mk 0 2, ElementCount.mk 7 1] 1]
        .COND_NORMAL .RXTYPE_OTHER "" false false, false) := by
  refine ⟨?_, by decide⟩
  intro rxn
  refine ⟨rfl, ?_, ?_⟩
  · unfold reaction_balance reaction_check_balanced
    simp only []
    split <;> rfl
  · unfold reaction_balance reaction_check_balanced
    simp only []
    split <;> rfl

set_option maxRecDepth 1000000 in
/-- C27: `reaction_db_count` returns 19 on the storage the program starts with,
where it runs the initialisation itself, and on the storage after an
explicit `reaction_db_init`; the storage afterwards is the same in both
cases and holds 19 reactions. -/
theorem reaction_db_count_nineteen :
    (reaction_db_count db_start).2 = 19 ∧
    (reaction_db_count (reaction_db_init db_start)).2 = 19 ∧
    (reaction_db_count db_start).1 = reaction_db_init db_start ∧
    (reaction_db_count (reaction_db_init db_start)).1 = reaction_db_init db_start ∧
    (reaction_db_init db_start).reaction_database.length = 19 := by
  refine ⟨by decide, by decide, rfl, rfl, by decide⟩

/-- C28: `reaction_db_init` on initialised storage changes nothing, so a second
call is a no-op and any number of calls leaves the storage one call
leaves. -/
theorem reaction_db_init_idempotent :
    (∀ db : Database, db.reaction_db_initialized = true → reaction_db_init db = db) ∧
    (∀ db : Database, reaction_db_init (reaction_db_init db) = reaction_db_init db) ∧
    (∀ (db : Database) (n : Nat),
      Nat.iterate reaction_db_init (n + 1) db = reaction_db_init db) := by
  refine ⟨reaction_db_init_of_initialized, ?_, ?_⟩
  · intro db
    exact reaction_db_init_of_initialized _ (reaction_db_init_initialized db)
  · intro db n
    induction n with
    | zero => rfl
    | succ n ih =>
      rw [Function.iterate_succ_apply', ih]
      exact reaction_db_init_of_initialized _ (reaction_db_init_initialized db)

/-- Witness for C28: the seeded storage. -/
theorem reaction_db_init_idempotent_witness :
    db_seeded.reaction_db_initialized = true ∧ reaction_db_init db_seeded = db_seeded :=
  ⟨rfl, reaction_db_init_idempotent.1 db_seeded rfl⟩

set_option maxRecDepth 1000000 in
/-- C29: `reaction_db_get` returns a reaction if and only if
`0 <= index < reaction_db_count()`, and then the reaction stored at that
index; for a negative index and for an index at or above the count it
returns nothing. The stored reactions are the seeds in the order of the
seed calls. -/
theorem reaction_db_get_bounds :
    (∀ (db : Database) (index : Int),
      (reaction_db_get db index).1 = ensure_init db ∧
      (∀ k : Nat, (reaction_db_get db index).2 = some k ↔
        (0 ≤ index ∧ index < (reaction_db_count db).2) ∧ (k : Int) = index ∧
          ∃ r, (ensure_init db).reaction_database[k]? = some r) ∧
      ((reaction_db_get db index).2 = none ↔
        index < 0 ∨ index ≥ (reaction_db_count db).2)) ∧
    db_seeded.reaction_database.map Reaction.description = seed_descriptions ∧
    reaction_db_get db_start 18 = (db_seeded, some 18) ∧
    reaction_db_get db_start 19 = (db_seeded, none) ∧
    reaction_db_get db_start (-1) = (db_seeded, none) := by
  refine ⟨?_, by decide, ?_, ?_, ?_⟩
  · intro db index
    unfold reaction_db_get reaction_db_count
    by_cases h : index < 0 ∨ index ≥ ((ensure_init db).reaction_database.length : Int)
    · rw [if_pos h]
      refine ⟨rfl, ?_, ?_⟩
      · intro k
        constructor
        · intro hk; cases hk
        · rintro ⟨⟨h0, h1⟩, _⟩
          omega
      · exact ⟨fun _ => h, fun _ => rfl⟩
    · rw [if_neg h]
      refine ⟨rfl, ?_, ?_⟩
      · intro k
        constructor
        · intro hk
          have hk2 : index.toNat = k := Option.some.inj hk
          have hki : (k : Int) = index := by omega
          refine ⟨by omega, hki, ?_⟩
          have hlt : k < (ensure_init db).reaction_database.length := by omega
          exact ⟨_, List.getElem?_eq_getElem hlt⟩
        · rintro ⟨_, hki, _⟩
          have : index.toNat = k := by omega
          show some index.toNat = some k
          rw [this]
      · constructor
        · intro hk; cases hk
        · intro hk; exact absurd hk h
  · unfold reaction_db_get
    rw [ensure_init_start]
    decide
  · unfold reaction_db_get
    rw [ensure_init_start]
    decide
  · unfold reaction_db_get
    rw [ensure_init_start]
    decide

set_option maxRecDepth 1000000 in
/-- C30: `reaction_add_reactant` returns false and leaves the reaction as it was
when the reaction holds `MAX_REACTANTS` (10) reactants or the string does
not parse; otherwise it stores the parsed formula at the end of the
reactants, which adds 1 to their count, and returns true; one of the two
cases always applies. The same holds for `reaction_add_product` and the
products. Hence after any sequence of such calls on a reaction fresh from
`reaction_init`, both counts are at most 10. -/
theorem reaction_add_bounded :
    (∀ (rxn : Reaction) (formula : List Nat),
      (MAX_REACTANTS ≤ rxn.reactants.length ∨ formula_parse formula = .reject →
        reaction_add_reactant rxn formula = (rxn, false)) ∧
      (∀ f, rxn.reactants.length < MAX_REACTANTS → formula_parse formula = .accept f →
        reaction_add_reactant rxn formula =
            ({ rxn with reactants := rxn.reactants ++ [f] }, true) ∧
          (reaction_add_reactant rxn formula).1.reactants.length =
            rxn.reactants.length + 1) ∧
      ((MAX_REACTANTS ≤ rxn.reactants.length ∨ formula_parse formula = .reject) ∨
        rxn.reactants.length < MAX_REACTANTS ∧ ∃ f, formula_parse formula = .accept f)) ∧
    (∀ (rxn : Reaction) (formula : List Nat),
      (MAX_PRODUCTS ≤ rxn.products.length ∨ formula_parse formula = .reject →
        reaction_add_product rxn formula = (rxn, false)) ∧
      (∀ f, rxn.products.length < MAX_PRODUCTS → formula_parse formula = .accept f →
        reaction_add_product rxn formula =
            ({ rxn with products := rxn.products ++ [f] }, true) ∧
          (reaction_add_product rxn formula).1.products.length =
            rxn.products.length + 1) ∧
      ((MAX_PRODUCTS ≤ rxn.products.length ∨ formula_parse formula = .reject) ∨
        rxn.products.length < MAX_PRODUCTS ∧ ∃ f, formula_parse formula = .accept f)) ∧
    (∀ calls : List (Bool × List Nat),
      (calls.foldl add_call reaction_init).reactants.length ≤ 10 ∧
        (calls.foldl add_call reaction_init).products.length ≤ 10) := by
  refine ⟨?_, ?_, ?_⟩
  · intro rxn formula
    rcases reaction_add_reactant_cases rxn formula with ⟨hc, he⟩ | ⟨f, hlt, hp, he⟩
    · refine ⟨fun _ => he, ?_, Or.inl hc⟩
      intro g hlt hp
      rcases hc with hc | hc
      · omega
      · rw [hp] at hc; cases hc
    · refine ⟨?_, ?_, Or.inr ⟨hlt, f, hp⟩⟩
      · rintro (hc | hc)
        · omega
        · rw [hp] at hc; cases hc
      · intro g _ hg
        rw [hp] at hg
        cases hg
        rw [he]
        exact ⟨rfl, by simp⟩
  · intro rxn formula
    rcases reaction_add_product_cases rxn formula with ⟨hc, he⟩ | ⟨f, hlt, hp, he⟩
    · refine ⟨fun _ => he, ?_, Or.inl hc⟩
      intro g hlt hp
      rcases hc with hc | hc
      · omega
      · rw [hp] at hc; cases hc
    · refine ⟨?_, ?_, Or.inr ⟨hlt, f, hp⟩⟩
      · rintro (hc | hc)
        · omega
        · rw [hp] at hc; cases hc
      · intro g _ hg
        rw [hp] at hg
        cases hg
        rw [he]
        exact ⟨rfl, by simp⟩
  · intro calls
    exact add_calls_bounds calls reaction_init ⟨by decide, by decide⟩

set_option maxRecDepth 1000000 in
/-- Witness for C30: on a reaction fresh from `reaction_init`, the string `??`
is refused and the string `H2O` is stored. -/
theorem reaction_add_bounded_witness :
    reaction_add_reactant reaction_init (cstr "??") = (reaction_init, false) ∧
      reaction_add_reactant reaction_init (cstr "H2O") =
        ({ reaction_init with
            reactants := [Formula.mk [ElementCount.mk 0 2, ElementCount.mk 7 1] 1] }, true) ∧
      reaction_add_product reaction_init (cstr "H2O") =
        ({ reaction_init with
            products := [Formula.mk [ElementCount.mk 0 2, ElementCount.mk 7 1] 1] }, true) :=
  ⟨(reaction_add_bounded.1 reaction_init (cstr "??")).1 (Or.inr (by decide)),
    ((reaction_add_bounded.1 reaction_init (cstr "H2O")).2.1 _ (by decide) (by decide)).1,
    ((reaction_add_bounded.2.1 reaction_init (cstr "H2O")).2.1 _ (by decide) (by decide)).1⟩

set_option maxRecDepth 1000000 in
/-- C31: `element_by_number` returns an element if and only if the number is
between 1 and 118, and the element returned is the catalog entry whose
`atomic_number` is that number: the entry of index `i` has the atomic number
`i + 1` for every `i` from 0 to 117. Oxygen is returned for 8, nothing for 0
and for 119. -/
theorem element_by_number_range :
    (∀ n : Int, (∃ i, element_by_number n = some i) ↔ 1 ≤ n ∧ n ≤ 118) ∧
    (∀ (n : Int) (i : Nat), element_by_number n = some i ↔
      (1 ≤ n ∧ n ≤ 118) ∧ ∃ el, PERIODIC_TABLE[i]? = some el ∧ el.atomic_number = n) ∧
    (∀ i : Nat, i < 118 →
      ∃ el, PERIODIC_TABLE[i]? = some el ∧ el.atomic_number = (i : Int) + 1) ∧
    element_by_number 8 = some 7 ∧ (PERIODIC_TABLE[7]?).map Element.symbol = some "O" ∧
    element_by_number 0 = none ∧ element_by_number 119 = none := by
  have key : ∀ (n : Int) (i : Nat), element_by_number n = some i ↔
      (1 ≤ n ∧ n ≤ 118) ∧ ∃ el, PERIODIC_TABLE[i]? = some el ∧ el.atomic_number = n := by
    intro n i
    unfold element_by_number
    simp only [NUM_ELEMENTS]
    by_cases h : n < 1 ∨ n > ((118 : Nat) : Int)
    · rw [if_pos h]
      constructor
      · intro hh; cases hh
      · rintro ⟨⟨h1, h2⟩, _⟩
        omega
    · rw [if_neg h]
      constructor
      · intro hh
        have hi : (n - 1).toNat = i := Option.some.inj hh
        obtain ⟨el, hel⟩ := table_get i (by simp only [NUM_ELEMENTS]; omega)
        have han := (table_atomic_number i el hel).1
        exact ⟨by omega, el, hel, by omega⟩
      · rintro ⟨_, el, hel, han⟩
        have han2 := (table_atomic_number i el hel).1
        have : (n - 1).toNat = i := by omega
        rw [this]
  refine ⟨?_, key, ?_, by decide, by decide, by decide, by decide⟩
  · intro n
    constructor
    · rintro ⟨i, hi⟩
      exact ((key n i).mp hi).1
    · intro hn
      obtain ⟨el, hel⟩ := table_get (n - 1).toNat (by simp only [NUM_ELEMENTS]; omega)
      have han := (table_atomic_number _ el hel).1
      exact ⟨(n - 1).toNat, (key n _).mpr ⟨hn, el, hel, by omega⟩⟩
  · intro i hi
    obtain ⟨el, hel⟩ := table_get i hi
    exact ⟨el, hel, (table_atomic_number i el hel).1⟩

set_option maxRecDepth 1000000 in
/-- Witness for C31: the last catalog entry, of index 117, is oganesson with the
atomic number 118. -/
theorem element_by_number_range_witness :
    (PERIODIC_TABLE[117]?).map Element.symbol = some "Og" ∧
      ∃ el, PERIODIC_TABLE[117]? = some el ∧ el.atomic_number = ((117 : Nat) : Int) + 1 :=
  ⟨by decide, element_by_number_range.2.2.1 117 (by decide)⟩

set_option maxRecDepth 1000000 in
/-- C32: `reaction_predict` returns true exactly when `reaction_db_find` finds a
reaction for the reactants, and then the products written are the products
of that reaction, as many and in the same order; when no reaction is found
it returns false and the product count written is 0. The database is
initialised as `reaction_db_find` leaves it. For C and O2 the product is CO2;
for C alone nothing is found. -/
theorem reaction_predict_known :
    (∀ (db : Database) (reactants : List Formula),
      ((reaction_predict db reactants).2.1 = true ↔
        ∃ k, (reaction_db_find db reactants).2 = some k) ∧
      (∀ k, (reaction_db_find db reactants).2 = some k →
        ∃ r, (ensure_init db).reaction_database[k]? = some r ∧
          reaction_predict db reactants = (ensure_init db, true, r.products)) ∧
      ((reaction_db_find db reactants).2 = none →
        reaction_predict db reactants = (ensure_init db, false, []))) ∧
    reaction_predict db_start
        [Formula.mk [ElementCount.mk 5 1] 1, Formula.mk [ElementCount.mk 7 2] 1] =
      (db_seeded, true, [Formula.mk [ElementCount.mk 5 1, ElementCount.mk 7 2] 1]) ∧
    reaction_predict db_start [Formula.mk [ElementCount.mk 5 1] 1] =
      (db_seeded, false, []) := by
  have hk : ∀ (db : Database) (reactants : List Formula) (k : Nat),
      (reaction_db_find db reactants).2 = some k →
        ∃ r, (ensure_init db).reaction_database[k]? = some r ∧
          reaction_predict db reactants = (ensure_init db, true, r.products) := by
    intro db reactants k h
    obtain ⟨r, hr⟩ := reaction_db_find_valid db reactants k h
    refine ⟨r, hr, ?_⟩
    have h1 : (reaction_db_find db reactants).1 = ensure_init db := rfl
    unfold reaction_predict
    rw [h]
    simp only [h1, hr, copy_products_eq]
  have hn : ∀ (db : Database) (reactants : List Formula),
      (reaction_db_find db reactants).2 = none →
        reaction_predict db reactants = (ensure_init db, false, []) := by
    intro db reactants h
    unfold reaction_predict
    rw [h]
    rfl
  refine ⟨?_, by decide, by decide⟩
  intro db reactants
  refine ⟨?_, hk db reactants, hn db reactants⟩
  constructor
  · intro ht
    cases hf : (reaction_db_find db reactants).2 with
    | none =>
      rw [hn db reactants hf] at ht
      cases ht
    | some k => exact ⟨k, rfl⟩
  · rintro ⟨k, h⟩
    obtain ⟨r, _, hp⟩ := hk db reactants k h
    rw [hp]

set_option maxRecDepth 1000000 in
/-- Witness for C32: the reactants 2H2 and O2 are found at index 1 and the
product written is 2H2O. -/
theorem reaction_predict_known_witness :
    ∃ r, (ensure_init db_start).reaction_database[1]? = some r ∧
      reaction_predict db_start
          [Formula.mk [ElementCount.mk 0 2] 2, Formula.mk [ElementCount.mk 7 2] 1] =
        (ensure_init db_start, true, r.products) :=
  (reaction_predict_known.1 db_start
    [Formula.mk [ElementCount.mk 0 2] 2, Formula.mk [ElementCount.mk 7 2] 1]).2.1 1 (by decide)

set_option maxRecDepth 100000 in
/-- C33: for every string on which `formula_parse` succeeds, the entries are in
first-seen order: read as leading whitespace, digit run and a string of the
grammar with its tokens, every entry has a token, and the entry of element
`a` stands before the entry of element `b` if and only if the first token of
`a` occurs before the first token of `b`. So `OHO` parses to O 2, H 1. -/
theorem formula_parse_first_seen_order :
    (∀ (s : List Nat) (f : Formula), formula_parse s = .accept f →
      (∃ (ws ds p : List Nat) (ts : List Token), s = ws ++ ds ++ p ∧
        (∀ c ∈ ws, isspace c = true) ∧ (∀ c ∈ ds, isdigit c = true) ∧ Lexed p ts) ∧
      ∀ (ws ds p : List Nat) (ts : List Token), s = ws ++ ds ++ p →
        (∀ c ∈ ws, isspace c = true) → (∀ c ∈ ds, isdigit c = true) → Lexed p ts →
        ∀ a ∈ f.elements.map ElementCount.element,
          symbol_of a ∈ ts.map Token.symbol ∧
          ∀ b ∈ f.elements.map ElementCount.element,
            (first_index a (f.elements.map ElementCount.element) <
                first_index b (f.elements.map ElementCount.element) ↔
              first_index (symbol_of a) (ts.map Token.symbol) <
                first_index (symbol_of b) (ts.map Token.symbol))) ∧
    formula_parse (cstr "OHO") =
      .accept (Formula.mk [ElementCount.mk 7 2, ElementCount.mk 0 1] 1) := by
  refine ⟨?_, by decide⟩
  intro s f h
  constructor
  · obtain ⟨ws, ds, p, ts, hs, hw, hd, hp, _⟩ := formula_parse_accept s f h
    exact ⟨ws, ds, p, ts, hs, hw, hd, hp⟩
  · intro ws ds p ts hs hw hd hp a ha
    subst hs
    obtain ⟨_, h2, h3⟩ := formula_parse_first_seen ws ds p ts f h hw hd hp
    exact ⟨(h2 _).mpr ⟨a, ha, rfl⟩, fun b hb => h3 a ha b hb⟩

set_option maxRecDepth 100000 in
/-- Witness for C33: in `OHO` read as the tokens O, H, O, oxygen stands before
hydrogen in the entries, and its first token is the first token. -/
theorem formula_parse_first_seen_order_witness :
    first_index 7 ((Formula.mk [ElementCount.mk 7 2, ElementCount.mk 0 1] 1).elements.map
          ElementCount.element) <
        first_index 0 ((Formula.mk [ElementCount.mk 7 2, ElementCount.mk 0 1] 1).elements.map
          ElementCount.element) ↔
      first_index (symbol_of 7)
          ([Token.mk (cstr "O") [], Token.mk (cstr "H") [], Token.mk (cstr "O") []].map
            Token.symbol) <
        first_index (symbol_of 0)
          ([Token.mk (cstr "O") [], Token.mk (cstr "H") [], Token.mk (cstr "O") []].map
            Token.symbol) :=
  (((formula_parse_first_seen_order.1 (cstr "OHO") _ (by decide)).2
    [] [] (cstr "OHO") _ rfl (by decide) (by decide)
    (Lexed.upper1 79 [] _ _ (by decide) (by decide) (by decide) (by decide)
      (Lexed.upper1 72 [] _ _ (by decide) (by decide) (by decide) (by decide)
        (Lexed.upper1 79 [] [] [] (by decide) (by decide) (by decide) (by decide)
          Lexed.nil)))) 7 (by decide)).2 0 (by decide)

set_option maxRecDepth 1000000 in
/-- C34: every seed formula string parses. For each of the 19 seed calls, in
order, the reactants stored are the formulas `formula_parse` accepts on the
reactant strings supplied, one for each string and in the same order, and
the products likewise, so the stored counts are the numbers of strings
supplied; and no stored formula has two entries of the same element. -/
theorem seed_strings_all_parse :
    seed_strings.length = 19 ∧
    db_seeded.reaction_database.map
        (fun r => (r.reactants.map ParseResult.accept, r.products.map ParseResult.accept)) =
      seed_strings.map (fun s => (parse_all s.1, parse_all s.2)) ∧
    db_seeded.reaction_database.map (fun r => (r.reactants.length, r.products.length)) =
      seed_strings.map (fun s => (s.1.length, s.2.length)) ∧
    ∀ r, r ∈ db_seeded.reaction_database →
      ∀ f, f ∈ r.reactants ∨ f ∈ r.products → no_duplicates f := by
  refine ⟨by decide, by decide, by decide, ?_⟩
  intro r hr f hf
  have h := (List.all_eq_true.mp seeded_formulas_nodup) r hr
  have h2 := (List.all_eq_true.mp h) f (List.mem_append.mpr hf)
  simpa using h2

set_option maxRecDepth 1000000 in
/-- Witness for C34: the product C6H12O6 of the seeded photosynthesis. -/
theorem seed_strings_all_parse_witness :
    no_duplicates
      (Formula.mk [ElementCount.mk 5 6, ElementCount.mk 0 12, ElementCount.mk 7 6] 1) :=
  seed_strings_all_parse.2.2.2
    (Reaction.mk
      [Formula.mk [ElementCount.mk 5 1, ElementCount.mk 7 2] 6,
        Formula.mk [ElementCount.mk 0 2, ElementCount.mk 7 1] 6]
      [Formula.mk [ElementCount.mk 5 6, ElementCount.mk 0 12, ElementCount.mk 7 6] 1,
        Formula.mk [ElementCount.mk 7 2] 6]
      .COND_LIGHT .RXTYPE_OTHER "Photosynthesis (simplified)" true false)
    (by decide) _ (Or.inr (by decide))

set_option maxRecDepth 1000000 in
/-- C35: no query returns the seeded "Decomposition of hydrogen peroxide" (index
8, reactant 2H2O2). Every query list that set-matches its reactants also
set-matches the reactants of the earlier "Electrolysis of water" (index 7,
reactant 2H2O), so neither `reaction_db_find` nor `reaction_db_find_by_string`
returns index 8, whether or not the database is initialised before; on
`H2O2` they return the electrolysis. -/
theorem seeded_peroxide_never_returned :
    (db_seeded.reaction_database[7]?).map (fun r => (r.description, r.reactants)) =
      some ("Electrolysis of water",
        [Formula.mk [ElementCount.mk 0 2, ElementCount.mk 7 1] 2]) ∧
    (db_seeded.reaction_database[8]?).map (fun r => (r.description, r.reactants)) =
      some ("Decomposition of hydrogen peroxide",
        [Formula.mk [ElementCount.mk 0 2, ElementCount.mk 7 2] 2]) ∧
    (∀ q : List Formula,
      formulas_match_set q [Formula.mk [ElementCount.mk 0 2, ElementCount.mk 7 2] 2] = true →
      formulas_match_set q [Formula.mk [ElementCount.mk 0 2, ElementCount.mk 7 1] 2] = true) ∧
    (∀ q : List Formula, (reaction_db_find db_start q).2 ≠ some 8) ∧
    (∀ q : List Formula, (reaction_db_find db_seeded q).2 ≠ some 8) ∧
    (∀ (text : List Nat) (db1 : Database),
      reaction_db_find_by_string db_start text ≠ some (db1, some 8)) ∧
    (∀ (text : List Nat) (db1 : Database),
      reaction_db_find_by_string db_seeded text ≠ some (db1, some 8)) ∧
    reaction_db_find_by_string db_start (cstr "H2O2") = some (db_seeded, some 7) ∧
    (reaction_db_find db_start [Formula.mk [ElementCount.mk 0 2, ElementCount.mk 7 2] 2]).2 =
      some 7 := by
  refine ⟨by decide, by decide, ?_, ?_, ?_, ?_, ?_, by decide, by decide⟩
  · intro q h
    rw [← peroxide_matches_water q]
    exact h
  · intro q
    exact find_from_seeded_ne_eight q
  · intro q
    exact find_from_seeded_ne_eight q
  · intro text db1
    exact reaction_db_find_by_string_ne_eight db_start ensure_init_start text db1
  · intro text db1
    exact reaction_db_find_by_string_ne_eight db_seeded ensure_init_seeded text db1

set_option maxRecDepth 1000000 in
/-- Witness for C35: the query H2O2 as `formula_parse` reads it, with the
coefficient 1. -/
theorem seeded_peroxide_never_returned_witness :
    formulas_match_set [Formula.mk [ElementCount.mk 0 2, ElementCount.mk 7 2] 1]
      [Formula.mk [ElementCount.mk 0 2, ElementCount.mk 7 1] 2] = true :=
  seeded_peroxide_never_returned.2.2.1
    [Formula.mk [ElementCount.mk 0 2, ElementCount.mk 7 2] 1] (by decide)

set_option maxRecDepth 100000 in
/-- C36: a written count of zero is read as no count. For every element token
whose digit run consists of zeros, `formula_parse` has the same outcome as
on the string without that digit run: the token is read after leading
whitespace `ws`, a digit run `ds` and a stretch `p` of tokens, whitespace and
parentheses, and what follows it does not start with a digit (nor, after a
one-letter symbol, with a lowercase letter). So `H0` and `H00` parse to H 1
as `H` does. -/
theorem formula_parse_zero_count_as_absent :
    (∀ (ws ds p : List Nat) (ts : List Token) (sym zs b : List Nat),
      (∀ c ∈ ws, isspace c = true) → (∀ c ∈ ds, isdigit c = true) → Lexed p ts →
      is_candidate sym = true → (∀ c ∈ zs, c = 48) → starts_with isdigit b = false →
      (sym.length = 1 → starts_with islower b = false) →
      formula_parse (ws ++ ds ++ (p ++ (sym ++ (zs ++ b)))) =
        formula_parse (ws ++ ds ++ (p ++ (sym ++ b)))) ∧
    formula_parse (cstr "H") = .accept (Formula.mk [ElementCount.mk 0 1] 1) ∧
    formula_parse (cstr "H0") = .accept (Formula.mk [ElementCount.mk 0 1] 1) ∧
    formula_parse (cstr "H00") = .accept (Formula.mk [ElementCount.mk 0 1] 1) := by
  refine ⟨?_, by decide, by decide, by decide⟩
  intro ws ds p ts sym zs b hw hd hp hc hz hb hl
  exact formula_parse_zero_count ws ds p ts sym zs b hw hd hp hc hz hb hl

set_option maxRecDepth 100000 in
/-- Witness for C36: `2 H2Na00Cl` against `2 H2NaCl`. -/
theorem formula_parse_zero_count_as_absent_witness :
    formula_parse (cstr "" ++ cstr "2" ++ (cstr " H2" ++ (cstr "Na" ++ (cstr "00" ++ cstr "Cl")))) =
        formula_parse (cstr "" ++ cstr "2" ++ (cstr " H2" ++ (cstr "Na" ++ cstr "Cl"))) ∧
      formula_parse (cstr "2 H2Na00Cl") =
        .accept (Formula.mk
          [ElementCount.mk 0 2, ElementCount.mk 10 1, ElementCount.mk 16 1] 2) :=
  ⟨formula_parse_zero_count_as_absent.1 (cstr "") (cstr "2") (cstr " H2")
      [Token.mk (cstr "H") (cstr "2")] (cstr "Na") (cstr "00") (cstr "Cl")
      (by decide) (by decide)
      (Lexed.space 32 _ _ (by decide)
        (Lexed.upper1 72 [50] [] [] (by decide) (by decide) (by decide) (by decide) Lexed.nil))
      (by decide) (by decide) (by decide) (by decide),
    by decide⟩

set_option maxRecDepth 100000 in
/-- C37 refuted as stated: with `int` on 32 bits, `H2147483647` and `H` both
parse, to H 2147483647 and to H 1, but `H2147483647H` parses to H with the
count -2147483648, which is not the sum 2147483648. -/
theorem formula_parse32_concatenation_overflow :
    formula_parse32 (cstr "H2147483647") =
        .accept (Formula.mk [ElementCount.mk 0 2147483647] 1) ∧
      formula_parse32 (cstr "H") = .accept (Formula.mk [ElementCount.mk 0 1] 1) ∧
      formula_parse32 (cstr "H2147483647" ++ cstr "H") =
        .accept (Formula.mk [ElementCount.mk 0 (-2147483648)] 1) ∧
      count_of 0 [ElementCount.mk 0 (-2147483648)] ≠
        count_of 0 [ElementCount.mk 0 2147483647] + count_of 0 [ElementCount.mk 0 1] := by
  decide

/-- C37 amended, with `int` on 32 bits: concatenation merges formulas. For all
strings `a` and `b` that `formula_parse` accepts, `b` having no leading
coefficient (its first character after whitespace is not a digit) and the
two results having at most 100 distinct elements together, `formula_parse`
accepts `a` followed by `b` and keeps the coefficient of `a`; the count of
every element is the sum of its counts in the two results, an element
without entry counting 0, reduced to 32 bits; it is that sum itself if and
only if the sum lies within `INT_MIN .. INT_MAX`. -/
theorem formula_parse32_concatenation (a b : List Nat) (fa fb : Formula)
    (ha : formula_parse32 a = .accept fa) (hb : formula_parse32 b = .accept fb)
    (hplain : starts_with isdigit (skip_space b) = false)
    (hfit : (((fa.elements ++ fb.elements).map ElementCount.element).dedup).length ≤
      MAX_ATOMS_PER_MOLECULE) :
    ∃ f, formula_parse32 (a ++ b) = .accept f ∧ f.coefficient = fa.coefficient ∧
      ∀ x, count_of x f.elements =
          wrap_int (count_of x fa.elements + count_of x fb.elements) ∧
        (count_of x f.elements = count_of x fa.elements + count_of x fb.elements ↔
          INT_MIN ≤ count_of x fa.elements + count_of x fb.elements ∧
            count_of x fa.elements + count_of x fb.elements ≤ INT_MAX) := by
  obtain ⟨f, hf, hc, hsum⟩ := formula_parse32_concat_wrap a b fa fb ha hb hplain hfit
  refine ⟨f, hf, hc, fun x => ⟨hsum x, ?_⟩⟩
  rw [hsum x]
  constructor
  · intro heq
    rw [← heq]
    exact wrap_int_range _
  · intro hr
    exact wrap_int_of_range _ hr.1 hr.2

set_option maxRecDepth 100000 in
/-- Witness for C37: `2H2O` followed by ` OH` parses to coefficient 2 with H 3
and O 2. -/
theorem formula_parse32_concatenation_witness :
    formula_parse32 (cstr "2H2O" ++ cstr " OH") =
        .accept (Formula.mk [ElementCount.mk 0 3, ElementCount.mk 7 2] 2) ∧
      ∃ f, formula_parse32 (cstr "2H2O" ++ cstr " OH") = .accept f ∧
        f.coefficient = (Formula.mk [ElementCount.mk 0 2, ElementCount.mk 7 1] 2).coefficient ∧
        ∀ x, count_of x f.elements = wrap_int
            (count_of x (Formula.mk [ElementCount.mk 0 2, ElementCount.mk 7 1] 2).elements +
              count_of x (Formula.mk [ElementCount.mk 7 1, ElementCount.mk 0 1] 1).elements) ∧
          (count_of x f.elements =
              count_of x (Formula.mk [ElementCount.mk 0 2, ElementCount.mk 7 1] 2).elements +
                count_of x (Formula.mk [ElementCount.mk 7 1, ElementCount.mk 0 1] 1).elements ↔
            INT_MIN ≤
                count_of x (Formula.mk [ElementCount.mk 0 2, ElementCount.mk 7 1] 2).elements +
                  count_of x (Formula.mk [ElementCount.mk 7 1, ElementCount.mk 0 1] 1).elements ∧
              count_of x (Formula.mk [ElementCount.mk 0 2, ElementCount.mk 7 1] 2).elements +
                count_of x (Formula.mk [ElementCount.mk 7 1, ElementCount.mk 0 1] 1).elements ≤
                INT_MAX) :=
  ⟨by decide,
    formula_parse32_concatenation (cstr "2H2O") (cstr " OH")
      (Formula.mk [ElementCount.mk 0 2, ElementCount.mk 7 1] 2)
      (Formula.mk [ElementCount.mk 7 1, ElementCount.mk 0 1] 1)
      (by decide) (by decide) (by decide) (by decide)⟩
set_option maxRecDepth 1000000 in
/-- C38: the balance check is symmetric in the two sides: for every reaction,
`reaction_check_balanced` returns the same boolean on the reaction and on
the reaction with its reactant list and its product list exchanged. The
seeded electrolysis of water is the seeded combustion of hydrogen with the
sides exchanged, and both are balanced. -/
theorem reaction_check_balanced_symmetric :
    (∀ r : Reaction,
      (reaction_check_balanced (exchange_sides r)).2 = (reaction_check_balanced r).2) ∧
    (db_seeded.reaction_database[7]?).map
        (fun r => ((exchange_sides r).reactants, (exchange_sides r).products)) =
      (db_seeded.reaction_database[1]?).map (fun r => (r.reactants, r.products)) ∧
    (db_seeded.reaction_database[7]?).map
        (fun r => (r.description, (reaction_check_balanced r).2)) =
      some ("Electrolysis of water", true) ∧
    (db_seeded.reaction_database[1]?).map
        (fun r => (r.description, (reaction_check_balanced r).2)) =
      some ("Combustion of hydrogen", true) := by
  exact ⟨reaction_check_balanced_exchange, by decide, by decide, by decide⟩

set_option maxRecDepth 1000000 in
/-- C39: array-index safety of the atom counting. For every entry that points
to a catalog element, the index `atomic_number - 1` that `count_atoms` uses
lies in 0..117, and the count is added to the slot of that index; and every
entry of every formula of a reaction built from `reaction_init` by calls of
`reaction_add_reactant` and `reaction_add_product` points to a catalog
element, so its index lies in 0..117. -/
theorem count_atoms_index_in_bounds :
    (∀ e : ElementCount, e.element < NUM_ELEMENTS →
      index_in_bounds e ∧
      ∀ (coef : Int) (acc : List Int),
        count_entries coef [e] acc = add_at acc e.element (e.count * coef)) ∧
    (∀ (calls : List (Bool × List Nat)) (f : Formula),
      f ∈ (calls.foldl add_call reaction_init).reactants ∨
        f ∈ (calls.foldl add_call reaction_init).products →
      ∀ e ∈ f.elements, e.element < NUM_ELEMENTS ∧ index_in_bounds e) := by
  constructor
  · intro e he
    exact ⟨index_in_bounds_of_lt e he, fun coef acc => count_entries_single coef e acc he⟩
  · intro calls f hf e he
    obtain ⟨s, hs⟩ := add_calls_parsed calls reaction_init
      (fun g hg => by rcases hg with hg | hg <;> cases hg) f hf
    have hv := formula_parse_valid s f hs e he
    exact ⟨hv, index_in_bounds_of_lt e hv⟩

set_option maxRecDepth 1000000 in
/-- Witness for C39: the entry of oganesson, and the reaction built by adding
the reactant `H2O` and the product `Og`. -/
theorem count_atoms_index_in_bounds_witness :
    index_in_bounds (ElementCount.mk 117 1) ∧
      ∀ e ∈ (Formula.mk [ElementCount.mk 117 1] 1).elements,
        e.element < NUM_ELEMENTS ∧ index_in_bounds e :=
  ⟨(count_atoms_index_in_bounds.1 (ElementCount.mk 117 1) (by decide)).1,
    count_atoms_index_in_bounds.2 [(true, cstr "H2O"), (false, cstr "Og")]
      (Formula.mk [ElementCount.mk 117 1] 1) (Or.inr (by decide))⟩
end Cmistry
